import Mathlib

/-!
# Calculator: tokenizer, recursive-descent parser and evaluator

A shallow embedding of `calculator.h`.

* `IStream` models the part of `std::istream` the tokenizer uses: the characters not yet
  extracted, and the two state flags `eofbit` and `failbit`.
* `Tokenizer` is the C++ class of the same name; `Tokenizer.Consume` is its only mutator.
* `Expression` models a `std::unique_ptr<Expression>`: a null pointer, a `Number` leaf or an
  `Operation` node owning its two children.
* `Evaluate` returns `Option Int`: `none` stands for a run whose behaviour the C++ language leaves
  undefined (signed 64-bit overflow, division by zero, dereferencing a null child).
* `ParseUnit`, `ParseTerm`, `ParseExpression` take a fuel argument, one unit per call; they
  return `none` only when the fuel is exhausted.
-/

namespace Calculator

/-! ## The input stream -/

/-- The state of a `std::istream` over an in-memory buffer: `rest` holds the characters that
have not been extracted yet. -/
structure IStream where
  rest : List Char
  eofbit : Bool
  failbit : Bool
  deriving DecidableEq, Repr

/-- The member `std::ios::good()`: no state flag is set. -/
def IStream.good (s : IStream) : Bool := !s.eofbit && !s.failbit

/-- The member `std::ios::eof()`. -/
def IStream.eof (s : IStream) : Bool := s.eofbit

/-- The member `std::istream::peek()`: the next character without extracting it; `none` is `EOF`.
On a stream that is not good the sentry sets `failbit`; at the end of the buffer
`eofbit` is set. -/
def IStream.peek (s : IStream) : Option Char × IStream :=
  if s.good then
    match s.rest with
    | [] => (none, { s with eofbit := true })
    | c :: _ => (some c, s)
  else (none, { s with failbit := true })

/-- The member `std::istream::get()`: extracts one character; `none` is `EOF`. -/
def IStream.get (s : IStream) : Option Char × IStream :=
  if s.good then
    match s.rest with
    | [] => (none, { s with eofbit := true, failbit := true })
    | c :: r => (some c, { s with rest := r })
  else (none, { s with failbit := true })

/-- The loop `while (in_->peek() == ' ') in_->ignore(1);` run on the stream with the given
flags and buffer. `ignore(1)` is only reached after `peek` returned a space, so it drops
that one character and leaves the flags alone. The result is the state after the last `peek`,
the one that ended the loop. -/
def skipSpacesFrom (eofbit failbit : Bool) : List Char → IStream
  | [] => (IStream.peek ⟨[], eofbit, failbit⟩).2
  | c :: r =>
    if (IStream.peek ⟨c :: r, eofbit, failbit⟩).1 = some ' ' then skipSpacesFrom eofbit failbit r
    else (IStream.peek ⟨c :: r, eofbit, failbit⟩).2

/-- The space-skipping loop at the head of `Tokenizer::Consume`. -/
def IStream.skipSpaces (s : IStream) : IStream := skipSpacesFrom s.eofbit s.failbit s.rest

/-- The chain `in_->peek() == c₁ || in_->peek() == c₂ || ...`, evaluated left to right with
short circuit: one `peek` per disjunct that is reached. -/
def peekAny : List Char → IStream → Bool × IStream
  | [], s => (false, s)
  | c :: cs, s => if s.peek.1 = some c then (true, s.peek.2) else peekAny cs s.peek.2

/-- The test `in_->peek() >= '0' && in_->peek() <= '9'`; `EOF` is `-1`, below `'0'`. -/
def peekDigit (s : IStream) : Bool × IStream :=
  match s.peek.1 with
  | none => (false, s.peek.2)
  | some c =>
    if 48 ≤ c.toNat then
      match s.peek.2.peek.1 with
      | none => (false, s.peek.2.peek.2)
      | some d => (decide (d.toNat ≤ 57), s.peek.2.peek.2)
    else (false, s.peek.2)

/-- A decimal digit, `'0'` to `'9'`. -/
def isDigit (c : Char) : Bool := decide (48 ≤ c.toNat) && decide (c.toNat ≤ 57)

/-- The value of a run of decimal digits, most significant digit first. -/
def decimalValue (ds : List Char) : Nat :=
  ds.foldl (fun acc c => 10 * acc + (c.toNat - 48)) 0

/-- The least value of `int64_t`. -/
def INT64_MIN : Int := -9223372036854775808

/-- The greatest value of `int64_t`. -/
def INT64_MAX : Int := 9223372036854775807

/-- The extraction `*in_ >> number_` into an `int64_t`, on a good stream whose next character is
a digit (the only way `Consume` reaches it): the maximal run of digits is extracted; `eofbit`
is set when the run reaches the end of the buffer; a value above `INT64_MAX` stores `INT64_MAX`
and sets `failbit`. -/
def IStream.extractInt64 (s : IStream) : Int × IStream :=
  let ds := s.rest.takeWhile isDigit
  let r := s.rest.dropWhile isDigit
  let v : Int := (decimalValue ds : Nat)
  let eofbit := s.eofbit || r.isEmpty
  if v ≤ INT64_MAX then (v, ⟨r, eofbit, s.failbit⟩)
  else (INT64_MAX, ⟨r, eofbit, true⟩)

/-! ## The tokenizer -/

/-- The enumeration `Tokenizer::TokenType`. -/
inductive TokenType where
  | kUnknown
  | kNumber
  | kSymbol
  | kEnd
  deriving DecidableEq, Repr

/-- The class `Tokenizer`: the stream it reads and its three fields. -/
structure Tokenizer where
  in_ : IStream
  type_ : TokenType
  number_ : Int
  symbol_ : Char
  deriving DecidableEq, Repr

/-- The conversion of the `int` returned by `get()` to `char`; `EOF` (`-1`) becomes the
character with code 255. -/
def charOfInt (c : Option Char) : Char := c.getD (Char.ofNat 255)

/-- The method `Tokenizer::Consume`. -/
def Tokenizer.Consume (t : Tokenizer) : Tokenizer :=
  let s0 := t.in_.skipSpaces
  let sym := peekAny ['+', '-', '*', '/', '('] s0
  if sym.1 then
    { t with type_ := .kSymbol, symbol_ := charOfInt sym.2.get.1, in_ := sym.2.get.2 }
  else
    let dig := peekDigit sym.2
    if dig.1 then
      { t with type_ := .kNumber, number_ := dig.2.extractInt64.1, in_ := dig.2.extractInt64.2 }
    else if dig.2.eof then
      { t with symbol_ := ')', type_ := .kEnd, in_ := dig.2 }
    else if dig.2.get.1 = some ')' then
      { t with symbol_ := ')', type_ := .kEnd, in_ := dig.2.get.2 }
    else
      { t with in_ := dig.2.get.2 }

/-- The method `Tokenizer::GetType`. -/
def Tokenizer.GetType (t : Tokenizer) : TokenType := t.type_

/-- The method `Tokenizer::GetNumber`. -/
def Tokenizer.GetNumber (t : Tokenizer) : Int := t.number_

/-- The method `Tokenizer::GetSymbol`. -/
def Tokenizer.GetSymbol (t : Tokenizer) : Char := t.symbol_

/-- A tokenizer just constructed over `input`: `type_` is `kUnknown`; `number_` and `symbol_`
have no initialiser in the source, so their first contents are parameters. -/
def Tokenizer.new (input : List Char) (number0 : Int) (symbol0 : Char) : Tokenizer :=
  ⟨⟨input, false, false⟩, .kUnknown, number0, symbol0⟩

/-! ## Expression trees -/

/-- A `std::unique_ptr<Expression>`: null, a `Number` leaf, or an `Operation` node with its
operator character and its two owned children. -/
inductive Expression where
  | nullptr
  | Number (number_ : Int)
  | Operation (operation_ : Char) (lhs_ rhs_ : Expression)
  deriving DecidableEq, Repr

/-- The test `rhs_ == nullptr`. -/
def Expression.isNull : Expression → Bool
  | .nullptr => true
  | _ => false

/-- A result of 64-bit signed arithmetic: defined only inside the range of `int64_t`. -/
def int64 (x : Int) : Option Int :=
  if INT64_MIN ≤ x ∧ x ≤ INT64_MAX then some x else none

/-- The operator dispatch of `Operation::Evaluate` on the two operand values: `+`, `-`, `*`, and
division for every other character. Division truncates toward zero and has no defined result
for a zero divisor. -/
def applyOperation (operation_ : Char) (l r : Int) : Option Int :=
  if operation_ = '+' then int64 (l + r)
  else if operation_ = '-' then int64 (l - r)
  else if operation_ = '*' then int64 (l * r)
  else if r = 0 then none
  else int64 (Int.tdiv l r)

/-- The method `Expression::Evaluate` with its two overrides, `Number::Evaluate` and
`Operation::Evaluate`. -/
def Evaluate : Expression → Option Int
  | .nullptr => none
  | .Number n => some n
  | .Operation op lhs rhs =>
    if rhs.isNull then Evaluate lhs
    else (Evaluate lhs).bind fun l => (Evaluate rhs).bind fun r => applyOperation op l r

/-! ## The parser -/

mutual

/-- The function `ParseUnit`. -/
def ParseUnit : Nat → Tokenizer → Option (Expression × Tokenizer)
  | 0, _ => none
  | fuel + 1, tok =>
    let tok1 := tok.Consume
    let sign : Int := if tok1.GetType = .kSymbol ∧ tok1.GetSymbol = '-' then -1 else 1
    let tok2 := if tok1.GetType = .kSymbol ∧ tok1.GetSymbol = '-' then tok1.Consume else tok1
    if tok2.GetType = .kSymbol ∧ tok2.GetSymbol = '(' then
      match ParseExpression fuel tok2 with
      | none => none
      | some (e, tok3) => some (.Operation '*' (.Number sign) e, tok3.Consume)
    else
      some (.Operation '*' (.Number sign) (.Number tok2.GetNumber), tok2.Consume)

/-- The `while` loop of `ParseTerm`. At the head of the loop `term_expr` is a fresh `Operation`
whose only child set is its left one, `lhs`. -/
def ParseTermLoop : Nat → Expression → Tokenizer → Option (Expression × Tokenizer)
  | 0, _, _ => none
  | fuel + 1, lhs, tok =>
    if tok.GetType ≠ .kEnd ∧ tok.GetSymbol ≠ '+' ∧ tok.GetSymbol ≠ '-' then
      match ParseUnit fuel tok with
      | none => none
      | some (rhs, tok1) => ParseTermLoop fuel (.Operation tok.GetSymbol lhs rhs) tok1
    else
      some (.Operation ' ' lhs .nullptr, tok)

/-- The function `ParseTerm`. -/
def ParseTerm : Nat → Tokenizer → Option (Expression × Tokenizer)
  | 0, _ => none
  | fuel + 1, tok =>
    match ParseUnit fuel tok with
    | none => none
    | some (unit, tok1) => ParseTermLoop fuel unit tok1

/-- The `while` loop of `ParseExpression`. At the head of the loop `main_expr` is a fresh
`Operation` whose only child set is its left one, `lhs`. -/
def ParseExpressionLoop : Nat → Expression → Tokenizer → Option (Expression × Tokenizer)
  | 0, _, _ => none
  | fuel + 1, lhs, tok =>
    if tok.GetType ≠ .kEnd then
      match ParseTerm fuel tok with
      | none => none
      | some (rhs, tok1) => ParseExpressionLoop fuel (.Operation tok.GetSymbol lhs rhs) tok1
    else
      some (.Operation ' ' lhs .nullptr, tok)

/-- The function `ParseExpression`. -/
def ParseExpression : Nat → Tokenizer → Option (Expression × Tokenizer)
  | 0, _ => none
  | fuel + 1, tok =>
    match ParseTerm fuel tok with
    | none => none
    | some (term, tok1) => ParseExpressionLoop fuel term tok1

end

/-- Parsing the whole of `input` with `ParseExpression` and evaluating the tree it returns.
The outer `none` means the fuel ran out; the inner one that the evaluation has no defined
result. -/
def ParseAndEvaluate (fuel : Nat) (input : String) (number0 : Int) (symbol0 : Char) :
    Option (Option Int) :=
  (ParseExpression fuel (Tokenizer.new input.toList number0 symbol0)).map fun r => Evaluate r.1

/-- A run of `k` space characters. -/
def spaces (k : Nat) : List Char := List.replicate k ' '

/-! ## The grammar of well-formed expressions and its reference value -/

mutual

/-- A unit `U := ['-'] (decimal literal | '(' E ')')`. Each token carries the number of spaces
written before it: `sp1` before the `-` (when `neg`), `sp2` before the literal or the `(`,
`sp3` before the `)`. -/
inductive GUnit where
  | lit (neg : Bool) (sp1 sp2 : Nat) (ds : List Char)
  | paren (neg : Bool) (sp1 sp2 : Nat) (e : GExpr) (sp3 : Nat)

/-- The repetition `(('*'|'/') U)*`; `sp` spaces precede the operator. -/
inductive GTermTail where
  | nil
  | cons (sp : Nat) (div : Bool) (u : GUnit) (rest : GTermTail)

/-- A term `T := U (('*'|'/') U)*`. -/
inductive GTerm where
  | mk (u : GUnit) (rest : GTermTail)

/-- The repetition `(('+'|'-') T)*`; `sp` spaces precede the operator. -/
inductive GExprTail where
  | nil
  | cons (sp : Nat) (minus : Bool) (t : GTerm) (rest : GExprTail)

/-- An expression `E := T (('+'|'-') T)*`. -/
inductive GExpr where
  | mk (t : GTerm) (rest : GExprTail)

end

/-- The text of an optional unary minus. -/
def signText (neg : Bool) (sp1 : Nat) : List Char := if neg then spaces sp1 ++ ['-'] else []

/-- The character of a multiplicative operator. -/
def mulChar (div : Bool) : Char := if div then '/' else '*'

/-- The character of an additive operator. -/
def addChar (minus : Bool) : Char := if minus then '-' else '+'

mutual

/-- The text of a unit. -/
def GUnit.text : GUnit → List Char
  | .lit neg sp1 sp2 ds => signText neg sp1 ++ (spaces sp2 ++ ds)
  | .paren neg sp1 sp2 e sp3 =>
    signText neg sp1 ++ (spaces sp2 ++ '(' :: (e.text ++ (spaces sp3 ++ [')'])))

/-- The text of a multiplicative tail. -/
def GTermTail.text : GTermTail → List Char
  | .nil => []
  | .cons sp div u rest => spaces sp ++ mulChar div :: (u.text ++ rest.text)

/-- The text of a term. -/
def GTerm.text : GTerm → List Char
  | .mk u rest => u.text ++ rest.text

/-- The text of an additive tail. -/
def GExprTail.text : GExprTail → List Char
  | .nil => []
  | .cons sp minus t rest => spaces sp ++ addChar minus :: (t.text ++ rest.text)

/-- The text of an expression. -/
def GExpr.text : GExpr → List Char
  | .mk t rest => t.text ++ rest.text

end

/-- A decimal literal that fits in `int64_t`: a non-empty run of digits whose value is at
most `INT64_MAX`. -/
def literalOk (ds : List Char) : Bool :=
  !ds.isEmpty && ds.all isDigit && decide ((decimalValue ds : Int) ≤ INT64_MAX)

mutual

/-- Every literal of the unit fits in `int64_t`. -/
def GUnit.wf : GUnit → Bool
  | .lit _ _ _ ds => literalOk ds
  | .paren _ _ _ e _ => e.wf

/-- Every literal of the tail fits in `int64_t`. -/
def GTermTail.wf : GTermTail → Bool
  | .nil => true
  | .cons _ _ u rest => u.wf && rest.wf

/-- Every literal of the term fits in `int64_t`. -/
def GTerm.wf : GTerm → Bool
  | .mk u rest => u.wf && rest.wf

/-- Every literal of the tail fits in `int64_t`. -/
def GExprTail.wf : GExprTail → Bool
  | .nil => true
  | .cons _ _ t rest => t.wf && rest.wf

/-- Every literal of the expression fits in `int64_t`. -/
def GExpr.wf : GExpr → Bool
  | .mk t rest => t.wf && rest.wf

end

/-- Reference negation: the value is negated when `neg`, and must stay in range. -/
def refNeg (neg : Bool) (x : Option Int) : Option Int :=
  if neg then x.bind fun v => int64 (-v) else x

/-- Reference multiplication or division of two values; division truncates toward zero
and is undefined for a zero divisor. -/
def refMul (div : Bool) (x y : Option Int) : Option Int :=
  x.bind fun l => y.bind fun r =>
    if div then (if r = 0 then none else int64 (Int.tdiv l r)) else int64 (l * r)

/-- Reference addition or subtraction of two values. -/
def refAdd (minus : Bool) (x y : Option Int) : Option Int :=
  x.bind fun l => y.bind fun r => if minus then int64 (l - r) else int64 (l + r)

mutual

/-- The reference value of a unit; `none` when a divisor is zero or a value leaves the range of
`int64_t`. -/
def GUnit.value : GUnit → Option Int
  | .lit neg _ _ ds => refNeg neg (some (decimalValue ds : Nat))
  | .paren neg _ _ e _ => refNeg neg e.value

/-- The reference value of a multiplicative tail applied, left to right, to the value `acc`
of what precedes it. -/
def GTermTail.value : GTermTail → Option Int → Option Int
  | .nil, acc => acc
  | .cons _ div u rest, acc => rest.value (refMul div acc u.value)

/-- The reference value of a term. -/
def GTerm.value : GTerm → Option Int
  | .mk u rest => rest.value u.value

/-- The reference value of an additive tail applied, left to right, to the value `acc` of
what precedes it. -/
def GExprTail.value : GExprTail → Option Int → Option Int
  | .nil, acc => acc
  | .cons _ minus t rest, acc => rest.value (refAdd minus acc t.value)

/-- The reference value of an expression. -/
def GExpr.value : GExpr → Option Int
  | .mk t rest => rest.value t.value

end

mutual

/-- Fuel that suffices for `ParseUnit` on the unit. -/
def GUnit.size : GUnit → Nat
  | .lit _ _ _ _ => 1
  | .paren _ _ _ e _ => e.size + 1

/-- Fuel that suffices for `ParseTermLoop` on the tail. -/
def GTermTail.size : GTermTail → Nat
  | .nil => 1
  | .cons _ _ u rest => u.size + rest.size + 1

/-- Fuel that suffices for `ParseTerm` on the term. -/
def GTerm.size : GTerm → Nat
  | .mk u rest => u.size + rest.size + 1

/-- Fuel that suffices for `ParseExpressionLoop` on the tail. -/
def GExprTail.size : GExprTail → Nat
  | .nil => 1
  | .cons _ _ t rest => t.size + rest.size + 1

/-- Fuel that suffices for `ParseExpression` on the expression. -/
def GExpr.size : GExpr → Nat
  | .mk t rest => t.size + rest.size + 1

end

/-! ## The tree expected for each piece of the grammar -/

/-- The `sign` of `ParseUnit`: `-1` after a unary minus, `1` otherwise. -/
def signOf (neg : Bool) : Int := if neg then -1 else 1

mutual

/-- The tree of a unit: the node `sign * value`. -/
def GUnit.tree : GUnit → Expression
  | .lit neg _ _ ds => .Operation '*' (.Number (signOf neg)) (.Number (decimalValue ds : Nat))
  | .paren neg _ _ e _ => .Operation '*' (.Number (signOf neg)) e.tree

/-- The left fold of a multiplicative tail onto the tree `lhs` of what precedes it:
`((lhs op u₁) op u₂) ...`. -/
def GTermTail.fold : GTermTail → Expression → Expression
  | .nil, lhs => lhs
  | .cons _ div u rest, lhs => rest.fold (.Operation (mulChar div) lhs u.tree)

/-- The tree of a term: the fold of its units, inside a wrapper node without right child. -/
def GTerm.tree : GTerm → Expression
  | .mk u rest => .Operation ' ' (rest.fold u.tree) .nullptr

/-- The left fold of an additive tail onto the tree `lhs` of what precedes it. -/
def GExprTail.fold : GExprTail → Expression → Expression
  | .nil, lhs => lhs
  | .cons _ minus t rest, lhs => rest.fold (.Operation (addChar minus) lhs t.tree)

/-- The tree of an expression: the fold of its terms, inside a wrapper node without right
child. -/
def GExpr.tree : GExpr → Expression
  | .mk t rest => .Operation ' ' (rest.fold t.tree) .nullptr

end

/-! ## Predicates used by the correctness proof -/

/-- The first character of `F`, if any, is not a digit. -/
def NoDigitHead (F : List Char) : Prop := ∀ c r, F = c :: r → isDigit c = false

/-- After some spaces, `F` ends or goes on with one of the characters `cs`. -/
def StopsAt (cs : List Char) (F : List Char) : Prop :=
  ∃ k, F = spaces k ∨ ∃ c r, c ∈ cs ∧ F = spaces k ++ c :: r

/-- A defined value lies in the range of `int64_t`. -/
def InRange (x : Option Int) : Prop := ∀ v, x = some v → INT64_MIN ≤ v ∧ v ≤ INT64_MAX

/-- The outcome of a parsing function that was started at the text of a piece followed by `F`:
it returns the tree `tree`, and the tokenizer it leaves is one `Consume` past a tokenizer whose
stream stands at `F`. -/
def Parsed (res : Option (Expression × Tokenizer)) (F : List Char) (tree : Expression) : Prop :=
  ∃ tok' b, res = some (tree, Tokenizer.Consume tok') ∧ tok'.in_ = ⟨F, b, false⟩ ∧
    (b = true → F = [])

/-! ## Sample expressions of the grammar -/

/-- The expression `-(1+ 2)*3 /2 - 4`, spaces included. -/
def sampleExpr : GExpr :=
  .mk (.mk (.paren true 0 0 (.mk (.mk (.lit false 0 0 ['1']) .nil)
      (.cons 0 false (.mk (.lit false 0 1 ['2']) .nil) .nil)) 0)
    (.cons 0 false (.lit false 0 0 ['3']) (.cons 1 true (.lit false 0 0 ['2']) .nil)))
    (.cons 1 true (.mk (.lit false 0 1 ['4']) .nil) .nil)

/-- A literal, without sign or spaces, as a unit. -/
def litUnit (ds : List Char) : GUnit := .lit false 0 0 ds

/-- A literal, without sign or spaces, as a term. -/
def litTerm (ds : List Char) : GTerm := .mk (litUnit ds) .nil

/-- The expression `a+b*c` over three literals. -/
def sumProduct (da db dc : List Char) : GExpr :=
  .mk (litTerm da) (.cons 0 false (.mk (litUnit db) (.cons 0 false (litUnit dc) .nil)) .nil)

/-- The expression `(a+b)*c` over three literals. -/
def productOfSum (da db dc : List Char) : GExpr :=
  .mk (.mk (.paren false 0 0 (.mk (litTerm da) (.cons 0 false (litTerm db) .nil)) 0)
    (.cons 0 false (litUnit dc) .nil)) .nil

/-- The expression `a-b-c` over three literals. -/
def differenceChain (da db dc : List Char) : GExpr :=
  .mk (litTerm da) (.cons 0 true (litTerm db) (.cons 0 true (litTerm dc) .nil))

/-- The expression `a/b/c` over three literals. -/
def quotientChain (da db dc : List Char) : GExpr :=
  .mk (.mk (litUnit da) (.cons 0 true (litUnit db) (.cons 0 true (litUnit dc) .nil))) .nil

/-- The expression `-(e)`. -/
def negParen (e : GExpr) : GExpr := .mk (.mk (.paren true 0 0 e 0) .nil) .nil

/-- The expression `-a*-b` over two literals. -/
def negProduct (da db : List Char) : GExpr :=
  .mk (.mk (.lit true 0 0 da) (.cons 0 false (.lit true 0 0 db) .nil)) .nil

/-- The expression `a/b`, or `-a/b` when `neg`, over two literals. -/
def quotient (neg : Bool) (da db : List Char) : GExpr :=
  .mk (.mk (.lit neg 0 0 da) (.cons 0 true (litUnit db) .nil)) .nil

/-- The operators and unit trees of a multiplicative tail, in the order of the text. -/
def GTermTail.items : GTermTail → List (Char × Expression)
  | .nil => []
  | .cons _ div u rest => (mulChar div, u.tree) :: rest.items

/-- The operators and term trees of an additive tail, in the order of the text. -/
def GExprTail.items : GExprTail → List (Char × Expression)
  | .nil => []
  | .cons _ minus t rest => (addChar minus, t.tree) :: rest.items

/-- The left-leaning tree `((lhs op₁ x₁) op₂ x₂) ...` over a list of operators and operands. -/
def leftFold (lhs : Expression) (items : List (Char × Expression)) : Expression :=
  items.foldl (fun acc p => .Operation p.1 acc p.2) lhs

/-! ## The same expression written without spaces -/

mutual

/-- The unit with the same tokens and no space. -/
def GUnit.compact : GUnit → GUnit
  | .lit neg _ _ ds => .lit neg 0 0 ds
  | .paren neg _ _ e _ => .paren neg 0 0 e.compact 0

/-- The multiplicative tail with the same tokens and no space. -/
def GTermTail.compact : GTermTail → GTermTail
  | .nil => .nil
  | .cons _ div u rest => .cons 0 div u.compact rest.compact

/-- The term with the same tokens and no space. -/
def GTerm.compact : GTerm → GTerm
  | .mk u rest => .mk u.compact rest.compact

/-- The additive tail with the same tokens and no space. -/
def GExprTail.compact : GExprTail → GExprTail
  | .nil => .nil
  | .cons _ minus t rest => .cons 0 minus t.compact rest.compact

/-- The expression with the same tokens and no space. -/
def GExpr.compact : GExpr → GExpr
  | .mk t rest => .mk t.compact rest.compact

end

/-- The expression `1 + 2 * 3`, one space around each operator. -/
def spacedExpr : GExpr :=
  .mk (litTerm ['1'])
    (.cons 1 false (.mk (.lit false 0 1 ['2']) (.cons 1 false (.lit false 0 1 ['3']) .nil)) .nil)

/-! ## Trees that divide by zero -/

/-- The tree holds a division node, that is a node with both children and an operator other
than `+`, `-`, `*`, whose right operand evaluates to 0. -/
inductive DividesByZero : Expression → Prop
  | here (op : Char) (l r : Expression) (hr : r.isNull = false) (hadd : op ≠ '+')
      (hsub : op ≠ '-') (hmul : op ≠ '*') (hzero : Evaluate r = some 0) :
      DividesByZero (.Operation op l r)
  | left (op : Char) (l r : Expression) (h : DividesByZero l) : DividesByZero (.Operation op l r)
  | right (op : Char) (l r : Expression) (h : DividesByZero r) :
      DividesByZero (.Operation op l r)

/-- The tree of `(1+2)/(3-3)`, without the wrapper nodes. -/
def zeroDivisionTree : Expression :=
  .Operation '/' (.Operation '+' (.Number 1) (.Number 2))
    (.Operation '-' (.Number 3) (.Number 3))

/-! ## Trees grown by the additive loop -/

/-- The tree `x` is `lhs`, or is grown from `lhs` by wrapping it, any number of times, as the
left child of a node whose operator is `+` or `-`. -/
inductive AdditiveChain (lhs : Expression) : Expression → Prop
  | base : AdditiveChain lhs lhs
  | step (op : Char) (x rhs : Expression) (hx : AdditiveChain lhs x)
      (hop : op = '+' ∨ op = '-') : AdditiveChain lhs (.Operation op x rhs)

/-- The expression `2*3+4`. -/
def productPlus : GExpr :=
  .mk (.mk (litUnit ['2']) (.cons 0 false (litUnit ['3']) .nil))
    (.cons 0 false (litTerm ['4']) .nil)

/-- The expression `(2+3)`. -/
def parenSum : GExpr :=
  .mk (.mk (.paren false 0 0 (.mk (litTerm ['2']) (.cons 0 false (litTerm ['3']) .nil)) 0) .nil)
    .nil

/-! ## Inputs whose digit runs fit, and progress of the tokenizer -/

/-- At every position of the text, the run of digits that starts there has a value that fits
in `int64_t`. The runs that start inside a maximal run are its suffixes, whose values are not
greater, so this says that every maximal run of digits fits. -/
def runsFit : List Char → Bool
  | [] => true
  | c :: r =>
    decide ((decimalValue ((c :: r).takeWhile isDigit) : Int) ≤ INT64_MAX) && runsFit r

/-- A stream on which no extraction has overflowed: `failbit` is set only together with
`eofbit`, and the digit runs still to be read fit in `int64_t`. -/
def StreamOk (s : IStream) : Prop :=
  (s.failbit = true → s.eofbit = true) ∧ runsFit s.rest = true

/-- From `tok` to `tok'` the stream stays in order and does not grow, and either it got
shorter or the current token is `End`. -/
def Progress (tok tok' : Tokenizer) : Prop :=
  StreamOk tok'.in_ ∧ tok'.in_.rest.length ≤ tok.in_.rest.length ∧
    (tok'.GetType = .kEnd ∨ tok'.in_.rest.length < tok.in_.rest.length)

/-- On every tokenizer whose stream is in order and holds at most `n` characters, each of the
five parsing functions returns, with any fuel from the stated bound on, and makes progress;
a loop may also return the tokenizer it was given. -/
def Terminates (n : Nat) : Prop :=
  ∀ tok : Tokenizer, StreamOk tok.in_ → tok.in_.rest.length ≤ n →
    (∀ fuel, 3 * n + 1 ≤ fuel → ∃ r, ParseUnit fuel tok = some r ∧ Progress tok r.2) ∧
    (∀ lhs fuel, 3 * n + 2 ≤ fuel →
      ∃ r, ParseTermLoop fuel lhs tok = some r ∧ (r.2 = tok ∨ Progress tok r.2)) ∧
    (∀ fuel, 3 * n + 2 ≤ fuel → ∃ r, ParseTerm fuel tok = some r ∧ Progress tok r.2) ∧
    (∀ lhs fuel, 3 * n + 3 ≤ fuel →
      ∃ r, ParseExpressionLoop fuel lhs tok = some r ∧ (r.2 = tok ∨ Progress tok r.2)) ∧
    (∀ fuel, 3 * n + 3 ≤ fuel → ∃ r, ParseExpression fuel tok = some r ∧ Progress tok r.2)

/-! ## Texts that differ in their trailing closing parentheses -/

/-- A run of `a` closing parentheses. -/
def closers (a : Nat) : List Char := List.replicate a ')'

/-- A stream that holds nothing but closing parentheses and has not failed before its end:
from here on every `Consume` yields `End`. -/
def EndRegion (s : IStream) : Prop :=
  (s.eofbit = true ∨ s.failbit = false) ∧ ∃ a, s.rest = closers a

/-- Two tokenizers with the same token kind, number and symbol, whose streams are good and
hold the same text `X` followed by closing parentheses only, possibly not as many, or have
both reached the closing parentheses. -/
def Sim (t t' : Tokenizer) : Prop :=
  t.type_ = t'.type_ ∧ t.number_ = t'.number_ ∧ t.symbol_ = t'.symbol_ ∧
    ((∃ X a j, runsFit X = true ∧ t.in_ = ⟨X ++ closers a, false, false⟩ ∧
        t'.in_ = ⟨X ++ closers j, false, false⟩) ∨
      (EndRegion t.in_ ∧ EndRegion t'.in_))

/-- Two results of a parsing function that agree: both out of fuel, or the same tree with
tokenizers that still correspond. -/
def SimResult (r r' : Option (Expression × Tokenizer)) : Prop :=
  match r, r' with
  | none, none => True
  | some (e, u), some (e', u') => e = e' ∧ Sim u u'
  | _, _ => False

/-! ## The tokenizer on each kind of token -/

theorem skipSpacesFrom_spaces_cons (k : Nat) (c : Char) (r : List Char) (hc : c ≠ ' ') :
    skipSpacesFrom false false (spaces k ++ c :: r) = ⟨c :: r, false, false⟩ := by
  induction k with
  | zero => simp [spaces, skipSpacesFrom, IStream.peek, IStream.good, hc]
  | succ k ih =>
    simp only [spaces, List.replicate_succ, List.cons_append] at ih ⊢
    simp [skipSpacesFrom, IStream.peek, IStream.good, ih]

theorem skipSpacesFrom_spaces (k : Nat) :
    skipSpacesFrom false false (spaces k) = ⟨[], true, false⟩ := by
  induction k with
  | zero => simp [spaces, skipSpacesFrom, IStream.peek, IStream.good]
  | succ k ih =>
    simp only [spaces, List.replicate_succ] at ih ⊢
    simp [skipSpacesFrom, IStream.peek, IStream.good, ih]

theorem peekAny_cons (cs : List Char) (c : Char) (r : List Char) :
    peekAny cs ⟨c :: r, false, false⟩ = (decide (c ∈ cs), ⟨c :: r, false, false⟩) := by
  induction cs with
  | nil => simp [peekAny]
  | cons d cs ih =>
    by_cases h : c = d
    · simp [peekAny, IStream.peek, IStream.good, h]
    · simp [peekAny, IStream.peek, IStream.good, h, ih]

theorem peekDigit_cons (c : Char) (r : List Char) :
    peekDigit ⟨c :: r, false, false⟩ = (isDigit c, ⟨c :: r, false, false⟩) := by
  by_cases h : 48 ≤ c.toNat
  · simp [peekDigit, IStream.peek, IStream.good, isDigit, h]
  · simp [peekDigit, IStream.peek, IStream.good, isDigit, h]

theorem isDigit_not_symbol {c : Char} (h : isDigit c = true) :
    c ∉ ['+', '-', '*', '/', '('] ∧ c ≠ ' ' ∧ c ≠ ')' := by
  refine ⟨?_, ?_, ?_⟩
  · intro hm
    simp only [List.mem_cons, List.mem_singleton, List.not_mem_nil, or_false] at hm
    rcases hm with rfl | rfl | rfl | rfl | rfl <;> revert h <;> decide
  · rintro rfl; revert h; decide
  · rintro rfl; revert h; decide

/-- What `Consume` does on a symbol character. -/
theorem Consume_symbol (t : Tokenizer) (k : Nat) (c : Char) (r : List Char)
    (hin : t.in_ = ⟨spaces k ++ c :: r, false, false⟩) (hc : c ∈ ['+', '-', '*', '/', '(']) :
    t.Consume = { t with type_ := .kSymbol, symbol_ := c, in_ := ⟨r, false, false⟩ } := by
  have hsp : c ≠ ' ' := by
    simp only [List.mem_cons, List.mem_singleton, List.not_mem_nil, or_false] at hc
    rcases hc with rfl | rfl | rfl | rfl | rfl <;> decide
  simp [Tokenizer.Consume, IStream.skipSpaces, hin, skipSpacesFrom_spaces_cons k c r hsp,
    peekAny_cons, hc, IStream.get, IStream.good, charOfInt]
  
/-- What `Consume` does on a closing parenthesis. -/
theorem Consume_close (t : Tokenizer) (k : Nat) (r : List Char)
    (hin : t.in_ = ⟨spaces k ++ ')' :: r, false, false⟩) :
    t.Consume = { t with type_ := .kEnd, symbol_ := ')', in_ := ⟨r, false, false⟩ } := by
  simp [Tokenizer.Consume, IStream.skipSpaces, hin,
    skipSpacesFrom_spaces_cons k ')' r (by decide),
    peekAny_cons, peekDigit_cons, isDigit, IStream.get, IStream.good, IStream.eof]

/-- What `Consume` does at the end of the stream. -/
theorem Consume_end (t : Tokenizer) (k : Nat) (b : Bool)
    (hin : t.in_ = ⟨spaces k, b, false⟩) (hb : b = true → k = 0) :
    t.Consume = { t with type_ := .kEnd, symbol_ := ')', in_ := ⟨[], true, true⟩ } := by
  cases b with
  | false =>
    simp [Tokenizer.Consume, IStream.skipSpaces, hin, skipSpacesFrom_spaces,
      peekAny, peekDigit, IStream.peek, IStream.good, IStream.eof]
  | true =>
    obtain rfl := hb rfl
    simp [Tokenizer.Consume, IStream.skipSpaces, hin, spaces, skipSpacesFrom,
      peekAny, peekDigit, IStream.peek, IStream.good, IStream.eof]


theorem takeWhile_run {α : Type} (p : α → Bool) (ds r : List α) (hds : ∀ c ∈ ds, p c = true)
    (hr : ∀ c r', r = c :: r' → p c = false) :
    (ds ++ r).takeWhile p = ds ∧ (ds ++ r).dropWhile p = r := by
  induction ds with
  | nil =>
    cases r with
    | nil => simp
    | cons c r' => simp [List.takeWhile, List.dropWhile, hr c r' rfl]
  | cons d ds ih =>
    have hd : p d = true := hds d (List.mem_cons_self _ _)
    have := ih (fun c hc => hds c (List.mem_cons_of_mem _ hc))
    simp [List.takeWhile, List.dropWhile, hd, this]

/-- What `Consume` does on a run of digits. -/
theorem Consume_number (t : Tokenizer) (k : Nat) (ds r : List Char)
    (hin : t.in_ = ⟨spaces k ++ (ds ++ r), false, false⟩) (hne : ds ≠ [])
    (hds : ∀ c ∈ ds, isDigit c = true) (hr : ∀ c r', r = c :: r' → isDigit c = false)
    (hfit : (decimalValue ds : Int) ≤ INT64_MAX) :
    t.Consume = { t with type_ := .kNumber, number_ := (decimalValue ds : Nat),
                         in_ := ⟨r, r.isEmpty, false⟩ } := by
  obtain ⟨d, ds', rfl⟩ := List.exists_cons_of_ne_nil hne
  have hd : isDigit d = true := hds d (List.mem_cons_self _ _)
  obtain ⟨hsym, hsp, -⟩ := isDigit_not_symbol hd
  obtain ⟨htw, hdw⟩ := takeWhile_run isDigit (d :: ds') r hds hr
  simp only [List.cons_append] at hin htw hdw
  simp [Tokenizer.Consume, IStream.skipSpaces, hin, skipSpacesFrom_spaces_cons k d _ hsp,
    peekAny_cons, peekDigit_cons, hd, IStream.extractInt64, htw, hdw, hfit]
  simpa only [List.mem_cons, List.mem_singleton, List.not_mem_nil, or_false, not_or] using hsym


/-! ## Stopping tokens -/

theorem int64_inRange (x : Int) : InRange (int64 x) := by
  intro v hv
  unfold int64 at hv
  split at hv
  · cases hv; assumption
  · cases hv

theorem noDigitHead_spaces_cons (k : Nat) (c : Char) (r : List Char) (hc : isDigit c = false) :
    NoDigitHead (spaces k ++ c :: r) := by
  intro d r' h
  cases k with
  | zero => simp [spaces] at h; rw [← h.1]; exact hc
  | succ k => simp [spaces, List.replicate_succ] at h; rw [← h.1]; decide

theorem noDigitHead_spaces (k : Nat) : NoDigitHead (spaces k) := by
  intro d r' h
  cases k with
  | zero => simp [spaces] at h
  | succ k => simp [spaces, List.replicate_succ] at h; rw [← h.1]; decide

theorem StopsAt.noDigitHead {cs F} (h : StopsAt cs F) (hcs : ∀ c ∈ cs, isDigit c = false) :
    NoDigitHead F := by
  obtain ⟨k, rfl | ⟨c, r, hc, rfl⟩⟩ := h
  · exact noDigitHead_spaces k
  · exact noDigitHead_spaces_cons k c r (hcs c hc)

theorem StopsAt.mono {cs cs' F} (h : StopsAt cs F) (hsub : ∀ c ∈ cs, c ∈ cs') : StopsAt cs' F := by
  obtain ⟨k, rfl | ⟨c, r, hc, rfl⟩⟩ := h
  · exact ⟨k, Or.inl rfl⟩
  · exact ⟨k, Or.inr ⟨c, r, hsub c hc, rfl⟩⟩

theorem spaces_cons_ne_nil (k : Nat) (c : Char) (r : List Char) : spaces k ++ c :: r ≠ [] := by
  simp

/-- At the end of an expression the next token is `End`. -/
theorem Consume_stop_expr (t : Tokenizer) (F : List Char) (b : Bool)
    (hin : t.in_ = ⟨F, b, false⟩) (hb : b = true → F = []) (hF : StopsAt [')'] F) :
    t.Consume.type_ = .kEnd := by
  obtain ⟨k, rfl | ⟨c, r, hc, rfl⟩⟩ := hF
  · rw [Consume_end t k b hin]
    intro h
    have := hb h
    cases k with
    | zero => rfl
    | succ k => simp [spaces, List.replicate_succ] at this
  · have hb' : b = false := by
      cases b with
      | false => rfl
      | true => exact absurd (hb rfl) (spaces_cons_ne_nil k c r)
    subst hb'
    simp only [List.mem_singleton] at hc
    subst hc
    rw [Consume_close t k r hin]

/-- At the end of a term the next token is `End`, `+` or `-`. -/
theorem Consume_stop_term (t : Tokenizer) (F : List Char) (b : Bool)
    (hin : t.in_ = ⟨F, b, false⟩) (hb : b = true → F = []) (hF : StopsAt ['+', '-', ')'] F) :
    ¬ (t.Consume.GetType ≠ .kEnd ∧ t.Consume.GetSymbol ≠ '+' ∧ t.Consume.GetSymbol ≠ '-') := by
  obtain ⟨k, rfl | ⟨c, r, hc, rfl⟩⟩ := hF
  · have := Consume_stop_expr t (spaces k) b hin hb ⟨k, Or.inl rfl⟩
    simp [Tokenizer.GetType, this]
  · have hb' : b = false := by
      cases b with
      | false => rfl
      | true => exact absurd (hb rfl) (spaces_cons_ne_nil k c r)
    subst hb'
    simp only [List.mem_cons, List.mem_singleton, List.not_mem_nil, or_false] at hc
    rcases hc with rfl | rfl | rfl
    · rw [Consume_symbol t k '+' r hin (by decide)]; simp [Tokenizer.GetSymbol]
    · rw [Consume_symbol t k '-' r hin (by decide)]; simp [Tokenizer.GetSymbol]
    · rw [Consume_close t k r hin]; simp [Tokenizer.GetType]


/-! ## The parser on well-formed text -/

theorem literalOk_iff {ds : List Char} (h : literalOk ds = true) :
    ds ≠ [] ∧ (∀ c ∈ ds, isDigit c = true) ∧ (decimalValue ds : Int) ≤ INT64_MAX := by
  simp only [literalOk, Bool.and_eq_true, Bool.not_eq_true', List.isEmpty_eq_false,
    List.all_eq_true, decide_eq_true_eq] at h
  exact ⟨h.1.1, h.1.2, h.2⟩

theorem flag_false_of_cons {b : Bool} {k : Nat} {c : Char} {r : List Char}
    (hb : b = true → spaces k ++ c :: r = []) : b = false := by
  cases b with
  | false => rfl
  | true => exact absurd (hb rfl) (spaces_cons_ne_nil k c r)

/-- The unit built from a number token. -/
theorem ParseUnit_lit (neg : Bool) (sp1 sp2 : Nat) (ds F : List Char) (tok : Tokenizer)
    (fuel : Nat) (hwf : literalOk ds = true) (hF : NoDigitHead F)
    (hin : tok.in_ = ⟨(GUnit.lit neg sp1 sp2 ds).text ++ F, false, false⟩) (hfuel : 1 ≤ fuel) :
    Parsed (ParseUnit fuel tok) F (GUnit.lit neg sp1 sp2 ds).tree := by
  obtain ⟨hne, hds, hfit⟩ := literalOk_iff hwf
  obtain ⟨f, rfl⟩ : ∃ f, fuel = f + 1 := ⟨fuel - 1, by omega⟩
  cases neg with
  | false =>
    have hin' : tok.in_ = ⟨spaces sp2 ++ (ds ++ F), false, false⟩ := by
      simpa [GUnit.text, signText] using hin
    have h1 := Consume_number tok sp2 ds F hin' hne hds hF hfit
    refine ⟨tok.Consume, F.isEmpty, ?_, ?_, ?_⟩
    · simp [ParseUnit, h1, Tokenizer.GetType, Tokenizer.GetSymbol, Tokenizer.GetNumber,
        GUnit.tree, signOf]
    · rw [h1]
    · simp
  | true =>
    have hin' : tok.in_ = ⟨spaces sp1 ++ '-' :: (spaces sp2 ++ (ds ++ F)), false, false⟩ := by
      simpa [GUnit.text, signText] using hin
    have h1 := Consume_symbol tok sp1 '-' _ hin' (by decide)
    have h2 := Consume_number tok.Consume sp2 ds F (by rw [h1]) hne hds hF hfit
    refine ⟨tok.Consume.Consume, F.isEmpty, ?_, ?_, ?_⟩
    · rw [h1] at h2
      simp [ParseUnit, h1, h2, Tokenizer.GetType, Tokenizer.GetSymbol, Tokenizer.GetNumber,
        GUnit.tree, signOf]
    · rw [h2]
    · simp

/-- The unit built from a parenthesised expression, given what `ParseExpression` does on the
expression inside. -/
theorem ParseUnit_paren (neg : Bool) (sp1 sp2 sp3 : Nat) (e : GExpr) (F : List Char)
    (tok : Tokenizer) (f : Nat)
    (hin : tok.in_ = ⟨(GUnit.paren neg sp1 sp2 e sp3).text ++ F, false, false⟩)
    (ih : ∀ tok2 : Tokenizer, tok2.in_ = ⟨e.text ++ (spaces sp3 ++ ')' :: F), false, false⟩ →
      Parsed (ParseExpression f tok2) (spaces sp3 ++ ')' :: F) e.tree) :
    Parsed (ParseUnit (f + 1) tok) F (GUnit.paren neg sp1 sp2 e sp3).tree := by
  cases neg with
  | false =>
    have hin' : tok.in_ =
        ⟨spaces sp2 ++ '(' :: (e.text ++ (spaces sp3 ++ ')' :: F)), false, false⟩ := by
      simpa [GUnit.text, signText] using hin
    have h1 := Consume_symbol tok sp2 '(' _ hin' (by decide)
    obtain ⟨tok', b, hres, hin2, hb⟩ := ih tok.Consume (by rw [h1])
    have hb' : b = false := flag_false_of_cons hb
    subst hb'
    have h3 := Consume_close tok' sp3 F hin2
    refine ⟨tok'.Consume, false, ?_, ?_, ?_⟩
    · rw [h1] at hres
      simp [ParseUnit, h1, hres, Tokenizer.GetType, Tokenizer.GetSymbol, GUnit.tree, signOf]
    · rw [h3]
    · simp
  | true =>
    have hin' : tok.in_ = ⟨spaces sp1 ++ '-' ::
        (spaces sp2 ++ '(' :: (e.text ++ (spaces sp3 ++ ')' :: F))), false, false⟩ := by
      simpa [GUnit.text, signText] using hin
    have h1 := Consume_symbol tok sp1 '-' _ hin' (by decide)
    have h2 := Consume_symbol tok.Consume sp2 '(' _ (by rw [h1]) (by decide)
    obtain ⟨tok', b, hres, hin2, hb⟩ := ih tok.Consume.Consume (by rw [h2])
    have hb' : b = false := flag_false_of_cons hb
    subst hb'
    have h3 := Consume_close tok' sp3 F hin2
    refine ⟨tok'.Consume, false, ?_, ?_, ?_⟩
    · rw [h1] at h2
      rw [h1, h2] at hres
      simp [ParseUnit, h1, h2, hres, Tokenizer.GetType, Tokenizer.GetSymbol, GUnit.tree, signOf]
    · rw [h3]
    · simp

/-- The loop of `ParseTerm` leaves at the end of the term. -/
theorem ParseTermLoop_nil (F : List Char) (lhs : Expression) (tok' : Tokenizer) (b : Bool)
    (f : Nat) (hF : StopsAt ['+', '-', ')'] F) (hin : tok'.in_ = ⟨F, b, false⟩)
    (hb : b = true → F = []) :
    Parsed (ParseTermLoop (f + 1) lhs tok'.Consume) F (.Operation ' ' lhs .nullptr) := by
  have hstop := Consume_stop_term tok' F b hin hb hF
  refine ⟨tok', b, ?_, hin, hb⟩
  rw [ParseTermLoop, if_neg hstop]

/-- One turn of the loop of `ParseTerm`, given what `ParseUnit` does on the next unit and what
the loop does on the rest. -/
theorem ParseTermLoop_cons (sp : Nat) (div : Bool) (u : GUnit) (rest : GTermTail)
    (F : List Char) (lhs : Expression) (tok' : Tokenizer) (b : Bool) (f : Nat)
    (hin : tok'.in_ = ⟨(GTermTail.cons sp div u rest).text ++ F, b, false⟩)
    (hb : b = true → (GTermTail.cons sp div u rest).text ++ F = [])
    (ihu : ∀ tok : Tokenizer, tok.in_ = ⟨u.text ++ (rest.text ++ F), false, false⟩ →
      Parsed (ParseUnit f tok) (rest.text ++ F) u.tree)
    (ihr : ∀ (lhs' : Expression) (tok'' : Tokenizer) (b' : Bool),
      tok''.in_ = ⟨rest.text ++ F, b', false⟩ → (b' = true → rest.text ++ F = []) →
      Parsed (ParseTermLoop f lhs' tok''.Consume) F (.Operation ' ' (rest.fold lhs') .nullptr)) :
    Parsed (ParseTermLoop (f + 1) lhs tok'.Consume) F
      (.Operation ' ' ((GTermTail.cons sp div u rest).fold lhs) .nullptr) := by
  have htext : (GTermTail.cons sp div u rest).text ++ F =
      spaces sp ++ mulChar div :: (u.text ++ (rest.text ++ F)) := by
    simp [GTermTail.text]
  rw [htext] at hin hb
  have hb' : b = false := flag_false_of_cons hb
  subst hb'
  have h1 := Consume_symbol tok' sp (mulChar div) _ hin (by cases div <;> decide)
  obtain ⟨tok1, b1, hres, hin1, hb1⟩ := ihu tok'.Consume (by rw [h1])
  have hcond : tok'.Consume.GetType ≠ .kEnd ∧ tok'.Consume.GetSymbol ≠ '+' ∧
      tok'.Consume.GetSymbol ≠ '-' := by
    rw [h1]; cases div <;> simp [Tokenizer.GetType, Tokenizer.GetSymbol, mulChar]
  have hsym : tok'.Consume.GetSymbol = mulChar div := by rw [h1]; rfl
  have hstep : ParseTermLoop (f + 1) lhs tok'.Consume =
      ParseTermLoop f (.Operation (mulChar div) lhs u.tree) tok1.Consume := by
    rw [ParseTermLoop, if_pos hcond, hres, hsym]
  rw [hstep]
  simpa [GTermTail.fold] using ihr (.Operation (mulChar div) lhs u.tree) tok1 b1 hin1 hb1

/-- What `ParseTerm` does, given what `ParseUnit` does on the first unit and the loop on the rest. -/
theorem ParseTerm_mk (u : GUnit) (rest : GTermTail) (F : List Char) (tok : Tokenizer) (f : Nat)
    (hin : tok.in_ = ⟨(GTerm.mk u rest).text ++ F, false, false⟩)
    (ihu : ∀ tok : Tokenizer, tok.in_ = ⟨u.text ++ (rest.text ++ F), false, false⟩ →
      Parsed (ParseUnit f tok) (rest.text ++ F) u.tree)
    (ihr : ∀ (lhs' : Expression) (tok'' : Tokenizer) (b' : Bool),
      tok''.in_ = ⟨rest.text ++ F, b', false⟩ → (b' = true → rest.text ++ F = []) →
      Parsed (ParseTermLoop f lhs' tok''.Consume) F (.Operation ' ' (rest.fold lhs') .nullptr)) :
    Parsed (ParseTerm (f + 1) tok) F (GTerm.mk u rest).tree := by
  have htext : (GTerm.mk u rest).text ++ F = u.text ++ (rest.text ++ F) := by
    simp [GTerm.text]
  rw [htext] at hin
  obtain ⟨tok1, b1, hres, hin1, hb1⟩ := ihu tok hin
  have hstep : ParseTerm (f + 1) tok = ParseTermLoop f u.tree tok1.Consume := by
    rw [ParseTerm, hres]
  rw [hstep]
  simpa [GTerm.tree] using ihr u.tree tok1 b1 hin1 hb1

/-- The loop of `ParseExpression` leaves at the end of the expression. -/
theorem ParseExpressionLoop_nil (F : List Char) (lhs : Expression) (tok' : Tokenizer) (b : Bool)
    (f : Nat) (hF : StopsAt [')'] F) (hin : tok'.in_ = ⟨F, b, false⟩)
    (hb : b = true → F = []) :
    Parsed (ParseExpressionLoop (f + 1) lhs tok'.Consume) F (.Operation ' ' lhs .nullptr) := by
  have hstop := Consume_stop_expr tok' F b hin hb hF
  refine ⟨tok', b, ?_, hin, hb⟩
  rw [ParseExpressionLoop, if_neg (by simp [Tokenizer.GetType, hstop])]

/-- One turn of the loop of `ParseExpression`, given what `ParseTerm` does on the next term and
what the loop does on the rest. -/
theorem ParseExpressionLoop_cons (sp : Nat) (minus : Bool) (t : GTerm) (rest : GExprTail)
    (F : List Char) (lhs : Expression) (tok' : Tokenizer) (b : Bool) (f : Nat)
    (hin : tok'.in_ = ⟨(GExprTail.cons sp minus t rest).text ++ F, b, false⟩)
    (hb : b = true → (GExprTail.cons sp minus t rest).text ++ F = [])
    (iht : ∀ tok : Tokenizer, tok.in_ = ⟨t.text ++ (rest.text ++ F), false, false⟩ →
      Parsed (ParseTerm f tok) (rest.text ++ F) t.tree)
    (ihr : ∀ (lhs' : Expression) (tok'' : Tokenizer) (b' : Bool),
      tok''.in_ = ⟨rest.text ++ F, b', false⟩ → (b' = true → rest.text ++ F = []) →
      Parsed (ParseExpressionLoop f lhs' tok''.Consume) F
        (.Operation ' ' (rest.fold lhs') .nullptr)) :
    Parsed (ParseExpressionLoop (f + 1) lhs tok'.Consume) F
      (.Operation ' ' ((GExprTail.cons sp minus t rest).fold lhs) .nullptr) := by
  have htext : (GExprTail.cons sp minus t rest).text ++ F =
      spaces sp ++ addChar minus :: (t.text ++ (rest.text ++ F)) := by
    simp [GExprTail.text]
  rw [htext] at hin hb
  have hb' : b = false := flag_false_of_cons hb
  subst hb'
  have h1 := Consume_symbol tok' sp (addChar minus) _ hin (by cases minus <;> decide)
  obtain ⟨tok1, b1, hres, hin1, hb1⟩ := iht tok'.Consume (by rw [h1])
  have hcond : tok'.Consume.GetType ≠ .kEnd := by
    rw [h1]; simp [Tokenizer.GetType]
  have hsym : tok'.Consume.GetSymbol = addChar minus := by rw [h1]; rfl
  have hstep : ParseExpressionLoop (f + 1) lhs tok'.Consume =
      ParseExpressionLoop f (.Operation (addChar minus) lhs t.tree) tok1.Consume := by
    rw [ParseExpressionLoop, if_pos hcond, hres, hsym]
  rw [hstep]
  simpa [GExprTail.fold] using ihr (.Operation (addChar minus) lhs t.tree) tok1 b1 hin1 hb1

/-- What `ParseExpression` does, given what `ParseTerm` does on the first term and the loop on the
rest. -/
theorem ParseExpression_mk (t : GTerm) (rest : GExprTail) (F : List Char) (tok : Tokenizer)
    (f : Nat) (hin : tok.in_ = ⟨(GExpr.mk t rest).text ++ F, false, false⟩)
    (iht : ∀ tok : Tokenizer, tok.in_ = ⟨t.text ++ (rest.text ++ F), false, false⟩ →
      Parsed (ParseTerm f tok) (rest.text ++ F) t.tree)
    (ihr : ∀ (lhs' : Expression) (tok'' : Tokenizer) (b' : Bool),
      tok''.in_ = ⟨rest.text ++ F, b', false⟩ → (b' = true → rest.text ++ F = []) →
      Parsed (ParseExpressionLoop f lhs' tok''.Consume) F
        (.Operation ' ' (rest.fold lhs') .nullptr)) :
    Parsed (ParseExpression (f + 1) tok) F (GExpr.mk t rest).tree := by
  have htext : (GExpr.mk t rest).text ++ F = t.text ++ (rest.text ++ F) := by
    simp [GExpr.text]
  rw [htext] at hin
  obtain ⟨tok1, b1, hres, hin1, hb1⟩ := iht tok hin
  have hstep : ParseExpression (f + 1) tok = ParseExpressionLoop f t.tree tok1.Consume := by
    rw [ParseExpression, hres]
  rw [hstep]
  simpa [GExpr.tree] using ihr t.tree tok1 b1 hin1 hb1

theorem stopsAt_close (sp : Nat) (F : List Char) : StopsAt [')'] (spaces sp ++ ')' :: F) :=
  ⟨sp, Or.inr ⟨')', F, by simp, rfl⟩⟩

theorem termTail_stops (rest : GTermTail) {F : List Char} (hF : StopsAt ['+', '-', ')'] F) :
    NoDigitHead (rest.text ++ F) := by
  cases rest with
  | nil => simpa [GTermTail.text] using hF.noDigitHead (by decide)
  | cons sp div u rest =>
    simp only [GTermTail.text, List.append_assoc, List.cons_append]
    exact noDigitHead_spaces_cons sp _ _ (by cases div <;> decide)

theorem exprTail_stops (rest : GExprTail) {F : List Char} (hF : StopsAt [')'] F) :
    StopsAt ['+', '-', ')'] (rest.text ++ F) := by
  cases rest with
  | nil => simpa [GExprTail.text] using hF.mono (by decide)
  | cons sp minus t rest =>
    simp only [GExprTail.text, List.append_assoc, List.cons_append]
    exact ⟨sp, Or.inr ⟨addChar minus, _, by cases minus <;> decide, rfl⟩⟩

mutual

/-- On the text of a well-formed unit `ParseUnit` returns the tree of the unit. -/
theorem ParseUnit_correct : ∀ (u : GUnit), u.wf = true → ∀ (F : List Char) (tok : Tokenizer)
    (fuel : Nat), NoDigitHead F → tok.in_ = ⟨u.text ++ F, false, false⟩ → u.size ≤ fuel →
    Parsed (ParseUnit fuel tok) F u.tree
  | .lit neg sp1 sp2 ds, hwf, F, tok, fuel, hF, hin, hfuel =>
    ParseUnit_lit neg sp1 sp2 ds F tok fuel (by simpa [GUnit.wf] using hwf) hF hin
      (by simp only [GUnit.size] at hfuel; exact hfuel)
  | .paren neg sp1 sp2 e sp3, hwf, F, tok, fuel, _, hin, hfuel => by
    simp only [GUnit.size] at hfuel
    obtain ⟨f, rfl⟩ : ∃ f, fuel = f + 1 := ⟨fuel - 1, by omega⟩
    exact ParseUnit_paren neg sp1 sp2 sp3 e F tok f hin fun tok2 h2 =>
      ParseExpression_correct e (by simpa [GUnit.wf] using hwf) _ tok2 f
        (stopsAt_close sp3 F) h2 (by omega)

/-- The loop of `ParseTerm` on the text of a well-formed multiplicative tail folds the tail
onto the tree it starts from. -/
theorem ParseTermLoop_correct : ∀ (rest : GTermTail), rest.wf = true → ∀ (F : List Char)
    (lhs : Expression) (tok' : Tokenizer) (b : Bool) (fuel : Nat), StopsAt ['+', '-', ')'] F →
    tok'.in_ = ⟨rest.text ++ F, b, false⟩ → (b = true → rest.text ++ F = []) →
    rest.size ≤ fuel →
    Parsed (ParseTermLoop fuel lhs tok'.Consume) F (.Operation ' ' (rest.fold lhs) .nullptr)
  | .nil, _, F, lhs, tok', b, fuel, hF, hin, hb, hfuel => by
    simp only [GTermTail.size] at hfuel
    obtain ⟨f, rfl⟩ : ∃ f, fuel = f + 1 := ⟨fuel - 1, by omega⟩
    simp only [GTermTail.text, List.nil_append] at hin hb
    exact ParseTermLoop_nil F lhs tok' b f hF hin hb
  | .cons sp div u rest, hwf, F, lhs, tok', b, fuel, hF, hin, hb, hfuel => by
    simp only [GTermTail.size] at hfuel
    simp only [GTermTail.wf, Bool.and_eq_true] at hwf
    obtain ⟨f, rfl⟩ : ∃ f, fuel = f + 1 := ⟨fuel - 1, by omega⟩
    exact ParseTermLoop_cons sp div u rest F lhs tok' b f hin hb
      (fun tok h => ParseUnit_correct u hwf.1 _ tok f (termTail_stops rest hF) h (by omega))
      (fun lhs' tok'' b' h1 h2 =>
        ParseTermLoop_correct rest hwf.2 F lhs' tok'' b' f hF h1 h2 (by omega))

/-- On the text of a well-formed term `ParseTerm` returns the tree of the term. -/
theorem ParseTerm_correct : ∀ (t : GTerm), t.wf = true → ∀ (F : List Char) (tok : Tokenizer)
    (fuel : Nat), StopsAt ['+', '-', ')'] F → tok.in_ = ⟨t.text ++ F, false, false⟩ →
    t.size ≤ fuel → Parsed (ParseTerm fuel tok) F t.tree
  | .mk u rest, hwf, F, tok, fuel, hF, hin, hfuel => by
    simp only [GTerm.size] at hfuel
    simp only [GTerm.wf, Bool.and_eq_true] at hwf
    obtain ⟨f, rfl⟩ : ∃ f, fuel = f + 1 := ⟨fuel - 1, by omega⟩
    exact ParseTerm_mk u rest F tok f hin
      (fun tok h => ParseUnit_correct u hwf.1 _ tok f (termTail_stops rest hF) h (by omega))
      (fun lhs' tok'' b' h1 h2 =>
        ParseTermLoop_correct rest hwf.2 F lhs' tok'' b' f hF h1 h2 (by omega))

/-- The loop of `ParseExpression` on the text of a well-formed additive tail folds the tail
onto the tree it starts from. -/
theorem ParseExpressionLoop_correct : ∀ (rest : GExprTail), rest.wf = true → ∀ (F : List Char)
    (lhs : Expression) (tok' : Tokenizer) (b : Bool) (fuel : Nat), StopsAt [')'] F →
    tok'.in_ = ⟨rest.text ++ F, b, false⟩ → (b = true → rest.text ++ F = []) →
    rest.size ≤ fuel →
    Parsed (ParseExpressionLoop fuel lhs tok'.Consume) F
      (.Operation ' ' (rest.fold lhs) .nullptr)
  | .nil, _, F, lhs, tok', b, fuel, hF, hin, hb, hfuel => by
    simp only [GExprTail.size] at hfuel
    obtain ⟨f, rfl⟩ : ∃ f, fuel = f + 1 := ⟨fuel - 1, by omega⟩
    simp only [GExprTail.text, List.nil_append] at hin hb
    exact ParseExpressionLoop_nil F lhs tok' b f hF hin hb
  | .cons sp minus t rest, hwf, F, lhs, tok', b, fuel, hF, hin, hb, hfuel => by
    simp only [GExprTail.size] at hfuel
    simp only [GExprTail.wf, Bool.and_eq_true] at hwf
    obtain ⟨f, rfl⟩ : ∃ f, fuel = f + 1 := ⟨fuel - 1, by omega⟩
    exact ParseExpressionLoop_cons sp minus t rest F lhs tok' b f hin hb
      (fun tok h => ParseTerm_correct t hwf.1 _ tok f (exprTail_stops rest hF) h (by omega))
      (fun lhs' tok'' b' h1 h2 =>
        ParseExpressionLoop_correct rest hwf.2 F lhs' tok'' b' f hF h1 h2 (by omega))

/-- On the text of a well-formed expression `ParseExpression` returns the tree of the
expression. -/
theorem ParseExpression_correct : ∀ (e : GExpr), e.wf = true → ∀ (F : List Char)
    (tok : Tokenizer) (fuel : Nat), StopsAt [')'] F → tok.in_ = ⟨e.text ++ F, false, false⟩ →
    e.size ≤ fuel → Parsed (ParseExpression fuel tok) F e.tree
  | .mk t rest, hwf, F, tok, fuel, hF, hin, hfuel => by
    simp only [GExpr.size] at hfuel
    simp only [GExpr.wf, Bool.and_eq_true] at hwf
    obtain ⟨f, rfl⟩ : ∃ f, fuel = f + 1 := ⟨fuel - 1, by omega⟩
    exact ParseExpression_mk t rest F tok f hin
      (fun tok h => ParseTerm_correct t hwf.1 _ tok f (exprTail_stops rest hF) h (by omega))
      (fun lhs' tok'' b' h1 h2 =>
        ParseExpressionLoop_correct rest hwf.2 F lhs' tok'' b' f hF h1 h2 (by omega))

end
/-! ## The value of the expected tree -/

theorem Evaluate_binary (op : Char) (l r : Expression) (hr : r.isNull = false) :
    Evaluate (.Operation op l r) =
      (Evaluate l).bind fun a => (Evaluate r).bind fun b => applyOperation op a b := by
  simp [Evaluate, hr]

theorem Evaluate_wrapper (op : Char) (l : Expression) :
    Evaluate (.Operation op l .nullptr) = Evaluate l := by
  simp [Evaluate, Expression.isNull]

theorem applyOperation_inRange (op : Char) (a b : Int) : InRange (applyOperation op a b) := by
  unfold applyOperation
  split_ifs
  · exact int64_inRange _
  · exact int64_inRange _
  · exact int64_inRange _
  · intro v hv; cases hv
  · exact int64_inRange _

theorem Evaluate_binary_inRange (op : Char) (l r : Expression) (hr : r.isNull = false) :
    InRange (Evaluate (.Operation op l r)) := by
  rw [Evaluate_binary op l r hr]
  intro v hv
  cases hl : Evaluate l with
  | none => simp [hl] at hv
  | some a =>
    cases hr : Evaluate r with
    | none => simp [hl, hr] at hv
    | some b =>
      simp only [hl, hr, Option.some_bind] at hv
      exact applyOperation_inRange op a b v hv

theorem Evaluate_sign (neg : Bool) (e : Expression) (he : e.isNull = false)
    (hrange : InRange (Evaluate e)) :
    Evaluate (.Operation '*' (.Number (signOf neg)) e) = refNeg neg (Evaluate e) := by
  rw [Evaluate_binary _ _ _ he]
  cases h : Evaluate e with
  | none => cases neg <;> simp [Evaluate, refNeg]
  | some v =>
    have := hrange v h
    cases neg <;> simp [Evaluate, refNeg, signOf, applyOperation, int64, this]

theorem applyOperation_mulChar (div : Bool) (x y : Option Int) :
    (x.bind fun a => y.bind fun b => applyOperation (mulChar div) a b) = refMul div x y := by
  cases div <;> simp [refMul, mulChar, applyOperation]

theorem applyOperation_addChar (minus : Bool) (x y : Option Int) :
    (x.bind fun a => y.bind fun b => applyOperation (addChar minus) a b) = refAdd minus x y := by
  cases minus <;> simp [refAdd, addChar, applyOperation]

theorem unit_tree_isNull (u : GUnit) : u.tree.isNull = false := by
  cases u <;> rfl

theorem term_tree_isNull (t : GTerm) : t.tree.isNull = false := by
  cases t; rfl

theorem expr_tree_isNull (e : GExpr) : e.tree.isNull = false := by
  cases e; rfl

theorem unit_tree_inRange (u : GUnit) : InRange (Evaluate u.tree) := by
  cases u with
  | lit neg sp1 sp2 ds => exact Evaluate_binary_inRange _ _ _ rfl
  | paren neg sp1 sp2 e sp3 => exact Evaluate_binary_inRange _ _ _ (expr_tree_isNull e)

theorem termTail_fold_inRange : ∀ (rest : GTermTail) (lhs : Expression),
    InRange (Evaluate lhs) → InRange (Evaluate (rest.fold lhs))
  | .nil, lhs, h => by simpa [GTermTail.fold] using h
  | .cons _ div u rest, lhs, _ => by
    simp only [GTermTail.fold]
    exact termTail_fold_inRange rest _ (Evaluate_binary_inRange _ _ _ (unit_tree_isNull u))

theorem term_tree_inRange (t : GTerm) : InRange (Evaluate t.tree) := by
  cases t with
  | mk u rest =>
    simp only [GTerm.tree, Evaluate_wrapper]
    exact termTail_fold_inRange rest _ (unit_tree_inRange u)

theorem exprTail_fold_inRange : ∀ (rest : GExprTail) (lhs : Expression),
    InRange (Evaluate lhs) → InRange (Evaluate (rest.fold lhs))
  | .nil, lhs, h => by simpa [GExprTail.fold] using h
  | .cons _ minus t rest, lhs, _ => by
    simp only [GExprTail.fold]
    exact exprTail_fold_inRange rest _ (Evaluate_binary_inRange _ _ _ (term_tree_isNull t))

theorem expr_tree_inRange (e : GExpr) : InRange (Evaluate e.tree) := by
  cases e with
  | mk t rest =>
    simp only [GExpr.tree, Evaluate_wrapper]
    exact exprTail_fold_inRange rest _ (term_tree_inRange t)

theorem literal_inRange {ds : List Char} (h : literalOk ds = true) :
    InRange (Evaluate (.Number (decimalValue ds : Nat))) := by
  intro v hv
  simp only [Evaluate, Option.some.injEq] at hv
  subst hv
  have := (literalOk_iff h).2.2
  have hnn : (0 : Int) ≤ (decimalValue ds : Nat) := Int.ofNat_nonneg _
  exact ⟨by unfold INT64_MIN; omega, this⟩

mutual

/-- Evaluating the tree of a well-formed unit gives the reference value of the unit. -/
theorem unit_Evaluate_tree : ∀ (u : GUnit), u.wf = true → Evaluate u.tree = u.value
  | .lit neg _ _ ds, hwf => by
    simp only [GUnit.tree, GUnit.value]
    rw [Evaluate_sign neg (.Number _) rfl (literal_inRange (by simpa [GUnit.wf] using hwf))]
    simp [Evaluate]
  | .paren neg _ _ e _, hwf => by
    simp only [GUnit.tree, GUnit.value]
    rw [Evaluate_sign neg _ (expr_tree_isNull e) (expr_tree_inRange e),
      expr_Evaluate_tree e (by simpa [GUnit.wf] using hwf)]

/-- Evaluating the fold of a well-formed multiplicative tail gives its reference value. -/
theorem termTail_Evaluate_fold : ∀ (rest : GTermTail), rest.wf = true →
    ∀ lhs : Expression, Evaluate (rest.fold lhs) = rest.value (Evaluate lhs)
  | .nil, _, lhs => by simp [GTermTail.fold, GTermTail.value]
  | .cons _ div u rest, hwf, lhs => by
    simp only [GTermTail.wf, Bool.and_eq_true] at hwf
    simp only [GTermTail.fold, GTermTail.value]
    rw [termTail_Evaluate_fold rest hwf.2, Evaluate_binary _ _ _ (unit_tree_isNull u),
      unit_Evaluate_tree u hwf.1, applyOperation_mulChar]

/-- Evaluating the tree of a well-formed term gives the reference value of the term. -/
theorem term_Evaluate_tree : ∀ (t : GTerm), t.wf = true → Evaluate t.tree = t.value
  | .mk u rest, hwf => by
    simp only [GTerm.wf, Bool.and_eq_true] at hwf
    simp only [GTerm.tree, GTerm.value, Evaluate_wrapper]
    rw [termTail_Evaluate_fold rest hwf.2, unit_Evaluate_tree u hwf.1]

/-- Evaluating the fold of a well-formed additive tail gives its reference value. -/
theorem exprTail_Evaluate_fold : ∀ (rest : GExprTail), rest.wf = true →
    ∀ lhs : Expression, Evaluate (rest.fold lhs) = rest.value (Evaluate lhs)
  | .nil, _, lhs => by simp [GExprTail.fold, GExprTail.value]
  | .cons _ minus t rest, hwf, lhs => by
    simp only [GExprTail.wf, Bool.and_eq_true] at hwf
    simp only [GExprTail.fold, GExprTail.value]
    rw [exprTail_Evaluate_fold rest hwf.2, Evaluate_binary _ _ _ (term_tree_isNull t),
      term_Evaluate_tree t hwf.1, applyOperation_addChar]

/-- Evaluating the tree of a well-formed expression gives the reference value of the
expression. -/
theorem expr_Evaluate_tree : ∀ (e : GExpr), e.wf = true → Evaluate e.tree = e.value
  | .mk t rest, hwf => by
    simp only [GExpr.wf, Bool.and_eq_true] at hwf
    simp only [GExpr.tree, GExpr.value, Evaluate_wrapper]
    rw [exprTail_Evaluate_fold rest hwf.2, term_Evaluate_tree t hwf.1]

end

/-- On the text of a well-formed expression, followed by any number of spaces,
`ParseExpression` returns the tree of the expression. -/
theorem ParseExpression_text (e : GExpr) (hwf : e.wf = true) (k fuel : Nat)
    (hfuel : e.size ≤ fuel) (number0 : Int) (symbol0 : Char) :
    ∃ tok, ParseExpression fuel (Tokenizer.new (e.text ++ spaces k) number0 symbol0) =
      some (e.tree, tok) := by
  obtain ⟨tok', b, hres, -, -⟩ :=
    ParseExpression_correct e hwf (spaces k)
      (Tokenizer.new (e.text ++ spaces k) number0 symbol0) fuel ⟨k, Or.inl rfl⟩ rfl hfuel
  exact ⟨_, hres⟩

/-- Parsing and evaluating the text of a well-formed expression, followed by any number of
spaces, gives its reference value. -/
theorem ParseAndEvaluate_text (e : GExpr) (hwf : e.wf = true) (k fuel : Nat)
    (hfuel : e.size ≤ fuel) (number0 : Int) (symbol0 : Char) :
    ParseAndEvaluate fuel (String.mk (e.text ++ spaces k)) number0 symbol0 = some e.value := by
  obtain ⟨tok, hres⟩ := ParseExpression_text e hwf k fuel hfuel number0 symbol0
  have : (String.mk (e.text ++ spaces k)).toList = e.text ++ spaces k := rfl
  simp [ParseAndEvaluate, this, hres, expr_Evaluate_tree e hwf]

/-! ## Decimal numerals are literals -/

theorem digitChar_decimal (d : Nat) (h : d < 10) :
    isDigit (Nat.digitChar d) = true ∧ (Nat.digitChar d).toNat - 48 = d := by
  interval_cases d <;> exact ⟨by decide, by decide⟩

theorem decimalValue_toDigitsCore (fuel : Nat) : ∀ (n : Nat) (ds : List Char), n < fuel →
    decimalValue (Nat.toDigitsCore 10 fuel n ds) =
      ds.foldl (fun acc c => 10 * acc + (c.toNat - 48)) n := by
  induction fuel with
  | zero => intro n ds h; omega
  | succ f ih =>
    intro n ds h
    have hd := (digitChar_decimal (n % 10) (Nat.mod_lt _ (by decide))).2
    rw [Nat.toDigitsCore]
    by_cases h0 : n / 10 = 0
    · simp only [h0, if_true, decimalValue, List.foldl_cons, hd]
      have : n % 10 = n := Nat.mod_eq_of_lt (by omega)
      simp [this]
    · simp only [h0, if_false]
      rw [ih (n / 10) _ (by omega), List.foldl_cons, hd]
      have : 10 * (n / 10) + n % 10 = n := Nat.div_add_mod n 10
      rw [this]

theorem isDigit_toDigitsCore (fuel : Nat) : ∀ (n : Nat) (ds : List Char),
    (∀ c ∈ ds, isDigit c = true) → ∀ c ∈ Nat.toDigitsCore 10 fuel n ds, isDigit c = true := by
  induction fuel with
  | zero => intro n ds hds c hc; exact hds c (by simpa [Nat.toDigitsCore] using hc)
  | succ f ih =>
    intro n ds hds c hc
    have hd := (digitChar_decimal (n % 10) (Nat.mod_lt _ (by decide))).1
    have hds' : ∀ c ∈ Nat.digitChar (n % 10) :: ds, isDigit c = true := by
      intro c hc
      rcases List.mem_cons.mp hc with rfl | hc
      · exact hd
      · exact hds c hc
    rw [Nat.toDigitsCore] at hc
    by_cases h0 : n / 10 = 0
    · simp only [h0, if_true] at hc
      exact hds' c hc
    · simp only [h0, if_false] at hc
      exact ih _ _ hds' c hc

theorem toDigitsCore_ne_nil (fuel n : Nat) (ds : List Char) :
    Nat.toDigitsCore 10 (fuel + 1) n ds ≠ [] := by
  induction fuel generalizing n ds with
  | zero =>
    rw [Nat.toDigitsCore]
    by_cases h0 : n / 10 = 0 <;> simp [h0, Nat.toDigitsCore]
  | succ f ih =>
    rw [Nat.toDigitsCore]
    by_cases h0 : n / 10 = 0
    · simp [h0]
    · simp only [h0, if_false]
      exact ih _ _

/-- The decimal numeral of a natural number has that number as its value. -/
theorem decimalValue_toDigits (n : Nat) : decimalValue (Nat.toDigits 10 n) = n := by
  rw [Nat.toDigits, decimalValue_toDigitsCore (n + 1) n [] (by omega)]
  rfl

/-- The decimal numeral of a natural number up to `INT64_MAX` is a literal that fits in
`int64_t`. -/
theorem literalOk_toDigits (n : Nat) (h : (n : Int) ≤ INT64_MAX) :
    literalOk (Nat.toDigits 10 n) = true := by
  simp only [literalOk, Bool.and_eq_true, Bool.not_eq_true', List.isEmpty_eq_false,
    List.all_eq_true, decide_eq_true_eq, decimalValue_toDigits]
  exact ⟨⟨toDigitsCore_ne_nil n n [], isDigit_toDigitsCore (n + 1) n [] (by simp)⟩, h⟩

/-! ## Claims -/

theorem int64_of_inRange {x : Int} (h1 : INT64_MIN ≤ x) (h2 : x ≤ INT64_MAX) :
    int64 x = some x := by
  simp [int64, h1, h2]

theorem literalOk_le {ds : List Char} (h : literalOk ds = true) :
    (decimalValue ds : Int) ≤ INT64_MAX := (literalOk_iff h).2.2

/-- Running the parser and the evaluator on a text that is the text of a well-formed
expression of known value. -/
theorem ParseAndEvaluate_of_text (e : GExpr) (s : List Char) (x : Option Int) (fuel : Nat)
    (number0 : Int) (symbol0 : Char) (hwf : e.wf = true) (hfuel : e.size ≤ fuel)
    (htext : e.text = s) (hval : e.value = x) :
    ParseAndEvaluate fuel (String.mk s) number0 symbol0 = some x := by
  have key := ParseAndEvaluate_text e hwf 0 fuel hfuel number0 symbol0
  simpa [spaces, htext, hval] using key

/-- C1: for every expression `e` of the grammar `E := T (('+'|'-') T)*`, `T := U (('*'|'/') U)*`,
`U := ['-'] (literal | '(' E ')')` whose literals fit in `int64_t` (`e.wf`) and whose reference
value is defined (`e.value = some v`: no zero divisor and no overflow), `ParseExpression` on the
text of `e` followed by `Evaluate` returns `v`, with any fuel from `e.size` on and whatever the
first contents of `number_` and `symbol_`. The reference value folds `*` and `/` inside a
term before `+` and `-`, left to right, and divides with truncation toward zero. -/
theorem C1_parse_evaluate_reference (e : GExpr) (hwf : e.wf = true) (v : Int)
    (hv : e.value = some v) (k fuel : Nat) (hfuel : e.size ≤ fuel) (number0 : Int)
    (symbol0 : Char) :
    ParseAndEvaluate fuel (String.mk (e.text ++ spaces k)) number0 symbol0 = some (some v) := by
  rw [ParseAndEvaluate_text e hwf k fuel hfuel number0 symbol0, hv]

/-- C1 at `-(1+ 2)*3 /2 - 4`, followed by one space: the value is `-8`. -/
theorem C1_parse_evaluate_reference_witness :
    sampleExpr.wf = true ∧ sampleExpr.value = some (-8) ∧ sampleExpr.size ≤ 30 ∧
    ParseAndEvaluate 30 "-(1+ 2)*3 /2 - 4 " 0 'x' = some (some (-8)) :=
  ⟨by decide, by decide, by decide,
    C1_parse_evaluate_reference sampleExpr (by decide) (-8) (by decide) 1 30 (by decide) 0 'x'⟩

theorem sumProduct_eval (da db dc : List Char) (ha : literalOk da = true)
    (hb : literalOk db = true) (hc : literalOk dc = true) (fuel : Nat) (hfuel : 11 ≤ fuel)
    (number0 : Int) (symbol0 : Char)
    (h : (decimalValue da : Int) + decimalValue db * decimalValue dc ≤ INT64_MAX) :
    ParseAndEvaluate fuel (String.mk (da ++ '+' :: (db ++ '*' :: dc))) number0 symbol0 =
      some (some ((decimalValue da : Int) + decimalValue db * decimalValue dc)) := by
  have ha0 : (0 : Int) ≤ (decimalValue da : Nat) := Int.ofNat_nonneg _
  have hbc0 : (0 : Int) ≤ (decimalValue db : Int) * decimalValue dc :=
    Int.mul_nonneg (Int.ofNat_nonneg _) (Int.ofNat_nonneg _)
  refine ParseAndEvaluate_of_text (sumProduct da db dc) _ _ fuel number0 symbol0 ?_ ?_ ?_ ?_
  · simp [sumProduct, litTerm, litUnit, GExpr.wf, GTerm.wf, GUnit.wf, GTermTail.wf,
      GExprTail.wf, ha, hb, hc]
  · simpa [sumProduct, litTerm, litUnit, GExpr.size, GTerm.size, GUnit.size, GTermTail.size,
      GExprTail.size] using hfuel
  · simp [sumProduct, litTerm, litUnit, GExpr.text, GTerm.text, GUnit.text, GTermTail.text,
      GExprTail.text, signText, spaces, addChar, mulChar]
  · simp only [sumProduct, litTerm, litUnit, GExpr.value, GTerm.value, GUnit.value,
      GTermTail.value, GExprTail.value, refNeg, refMul, refAdd, Option.some_bind,
      Bool.false_eq_true, if_false]
    rw [int64_of_inRange (by unfold INT64_MIN; omega) (by omega)]
    simp only [Option.some_bind]
    rw [int64_of_inRange (by unfold INT64_MIN; omega) h]

theorem productOfSum_eval (da db dc : List Char) (ha : literalOk da = true)
    (hb : literalOk db = true) (hc : literalOk dc = true) (fuel : Nat) (hfuel : 16 ≤ fuel)
    (number0 : Int) (symbol0 : Char)
    (h1 : (decimalValue da : Int) + decimalValue db ≤ INT64_MAX)
    (h2 : ((decimalValue da : Int) + decimalValue db) * decimalValue dc ≤ INT64_MAX) :
    ParseAndEvaluate fuel (String.mk ('(' :: (da ++ '+' :: (db ++ ')' :: '*' :: dc))))
        number0 symbol0 =
      some (some (((decimalValue da : Int) + decimalValue db) * decimalValue dc)) := by
  have ha0 : (0 : Int) ≤ (decimalValue da : Nat) := Int.ofNat_nonneg _
  have hb0 : (0 : Int) ≤ (decimalValue db : Nat) := Int.ofNat_nonneg _
  have hp0 : (0 : Int) ≤ ((decimalValue da : Int) + decimalValue db) * decimalValue dc :=
    Int.mul_nonneg (by omega) (Int.ofNat_nonneg _)
  refine ParseAndEvaluate_of_text (productOfSum da db dc) _ _ fuel number0 symbol0 ?_ ?_ ?_ ?_
  · simp [productOfSum, litTerm, litUnit, GExpr.wf, GTerm.wf, GUnit.wf, GTermTail.wf,
      GExprTail.wf, ha, hb, hc]
  · simpa [productOfSum, litTerm, litUnit, GExpr.size, GTerm.size, GUnit.size, GTermTail.size,
      GExprTail.size] using hfuel
  · simp [productOfSum, litTerm, litUnit, GExpr.text, GTerm.text, GUnit.text, GTermTail.text,
      GExprTail.text, signText, spaces, addChar, mulChar]
  · simp only [productOfSum, litTerm, litUnit, GExpr.value, GTerm.value, GUnit.value,
      GTermTail.value, GExprTail.value, refNeg, refMul, refAdd, Option.some_bind,
      Bool.false_eq_true, if_false]
    rw [int64_of_inRange (by unfold INT64_MIN; omega) h1]
    simp only [Option.some_bind]
    rw [int64_of_inRange (by unfold INT64_MIN; omega) h2]

/-- C2: precedence. For all literals `a`, `b`, `c` that fit in `int64_t`, the text `a+b*c`
evaluates to `a + b*c` when that value does not overflow, and the text `(a+b)*c` evaluates to
`(a+b)*c` when neither `a+b` nor the product overflows; `2+3*4` gives 14 and `(2+3)*4`
gives 20. -/
theorem C2_precedence (da db dc : List Char) (ha : literalOk da = true)
    (hb : literalOk db = true) (hc : literalOk dc = true) (fuel : Nat) (hfuel : 16 ≤ fuel)
    (number0 : Int) (symbol0 : Char) :
    ((decimalValue da : Int) + decimalValue db * decimalValue dc ≤ INT64_MAX →
      ParseAndEvaluate fuel (String.mk (da ++ '+' :: (db ++ '*' :: dc))) number0 symbol0 =
        some (some ((decimalValue da : Int) + decimalValue db * decimalValue dc))) ∧
    ((decimalValue da : Int) + decimalValue db ≤ INT64_MAX →
      ((decimalValue da : Int) + decimalValue db) * decimalValue dc ≤ INT64_MAX →
      ParseAndEvaluate fuel (String.mk ('(' :: (da ++ '+' :: (db ++ ')' :: '*' :: dc))))
          number0 symbol0 =
        some (some (((decimalValue da : Int) + decimalValue db) * decimalValue dc))) ∧
    ParseAndEvaluate fuel "2+3*4" number0 symbol0 = some (some 14) ∧
    ParseAndEvaluate fuel "(2+3)*4" number0 symbol0 = some (some 20) :=
  ⟨sumProduct_eval da db dc ha hb hc fuel (by omega) number0 symbol0,
    productOfSum_eval da db dc ha hb hc fuel hfuel number0 symbol0,
    sumProduct_eval ['2'] ['3'] ['4'] (by decide) (by decide) (by decide) fuel (by omega)
      number0 symbol0 (by decide),
    productOfSum_eval ['2'] ['3'] ['4'] (by decide) (by decide) (by decide) fuel hfuel
      number0 symbol0 (by decide) (by decide)⟩

/-- C2 at the literals `12`, `5`, `7`: `12+5*7` gives 47 and `(12+5)*7` gives 119. -/
theorem C2_precedence_witness :
    ParseAndEvaluate 16 "12+5*7" 0 ' ' = some (some 47) ∧
    ParseAndEvaluate 16 "(12+5)*7" 0 ' ' = some (some 119) :=
  ⟨(C2_precedence ['1', '2'] ['5'] ['7'] (by decide) (by decide) (by decide) 16 (by decide)
      0 ' ').1 (by decide),
    (C2_precedence ['1', '2'] ['5'] ['7'] (by decide) (by decide) (by decide) 16 (by decide)
      0 ' ').2.1 (by decide) (by decide)⟩

theorem termTail_fold_eq_leftFold : ∀ (rest : GTermTail) (lhs : Expression),
    rest.fold lhs = leftFold lhs rest.items
  | .nil, lhs => by simp [GTermTail.fold, GTermTail.items, leftFold]
  | .cons _ div u rest, lhs => by
    simp only [GTermTail.fold, GTermTail.items, leftFold, List.foldl_cons]
    exact termTail_fold_eq_leftFold rest _

theorem exprTail_fold_eq_leftFold : ∀ (rest : GExprTail) (lhs : Expression),
    rest.fold lhs = leftFold lhs rest.items
  | .nil, lhs => by simp [GExprTail.fold, GExprTail.items, leftFold]
  | .cons _ minus t rest, lhs => by
    simp only [GExprTail.fold, GExprTail.items, leftFold, List.foldl_cons]
    exact exprTail_fold_eq_leftFold rest _

theorem differenceChain_eval (da db dc : List Char) (ha : literalOk da = true)
    (hb : literalOk db = true) (hc : literalOk dc = true) (fuel : Nat) (hfuel : 13 ≤ fuel)
    (number0 : Int) (symbol0 : Char)
    (h : INT64_MIN ≤ (decimalValue da : Int) - decimalValue db - decimalValue dc) :
    ParseAndEvaluate fuel (String.mk (da ++ '-' :: (db ++ '-' :: dc))) number0 symbol0 =
      some (some ((decimalValue da : Int) - decimalValue db - decimalValue dc)) := by
  have ha0 : (0 : Int) ≤ (decimalValue da : Nat) := Int.ofNat_nonneg _
  have hb0 : (0 : Int) ≤ (decimalValue db : Nat) := Int.ofNat_nonneg _
  have hc0 : (0 : Int) ≤ (decimalValue dc : Nat) := Int.ofNat_nonneg _
  have ha1 := literalOk_le ha
  have hb1 := literalOk_le hb
  refine ParseAndEvaluate_of_text (differenceChain da db dc) _ _ fuel number0 symbol0
    ?_ ?_ ?_ ?_
  · simp [differenceChain, litTerm, litUnit, GExpr.wf, GTerm.wf, GUnit.wf, GTermTail.wf,
      GExprTail.wf, ha, hb, hc]
  · simpa [differenceChain, litTerm, litUnit, GExpr.size, GTerm.size, GUnit.size,
      GTermTail.size, GExprTail.size] using hfuel
  · simp [differenceChain, litTerm, litUnit, GExpr.text, GTerm.text, GUnit.text,
      GTermTail.text, GExprTail.text, signText, spaces, addChar, mulChar]
  · simp only [differenceChain, litTerm, litUnit, GExpr.value, GTerm.value, GUnit.value,
      GTermTail.value, GExprTail.value, refNeg, refMul, refAdd, Option.some_bind,
      Bool.false_eq_true, if_false, if_true]
    rw [int64_of_inRange (by unfold INT64_MIN INT64_MAX at *; omega) (by omega)]
    simp only [Option.some_bind]
    rw [int64_of_inRange h (by omega)]

theorem quotientChain_eval (da db dc : List Char) (ha : literalOk da = true)
    (hb : literalOk db = true) (hc : literalOk dc = true) (fuel : Nat) (hfuel : 9 ≤ fuel)
    (number0 : Int) (symbol0 : Char) (hb0 : decimalValue db ≠ 0) (hc0 : decimalValue dc ≠ 0) :
    ParseAndEvaluate fuel (String.mk (da ++ '/' :: (db ++ '/' :: dc))) number0 symbol0 =
      some (some ((decimalValue da / decimalValue db / decimalValue dc : Nat) : Int)) := by
  have ha1 := literalOk_le ha
  have h1 : decimalValue da / decimalValue db ≤ decimalValue da := Nat.div_le_self _ _
  have h2 : decimalValue da / decimalValue db / decimalValue dc ≤
      decimalValue da / decimalValue db := Nat.div_le_self _ _
  refine ParseAndEvaluate_of_text (quotientChain da db dc) _ _ fuel number0 symbol0
    ?_ ?_ ?_ ?_
  · simp [quotientChain, litTerm, litUnit, GExpr.wf, GTerm.wf, GUnit.wf, GTermTail.wf,
      GExprTail.wf, ha, hb, hc]
  · simpa [quotientChain, litTerm, litUnit, GExpr.size, GTerm.size, GUnit.size,
      GTermTail.size, GExprTail.size] using hfuel
  · simp [quotientChain, litTerm, litUnit, GExpr.text, GTerm.text, GUnit.text,
      GTermTail.text, GExprTail.text, signText, spaces, addChar, mulChar]
  · simp only [quotientChain, litTerm, litUnit, GExpr.value, GTerm.value, GUnit.value,
      GTermTail.value, GExprTail.value, refNeg, refMul, refAdd, Option.some_bind,
      Bool.false_eq_true, if_false, if_true, Int.natCast_eq_zero, hb0, hc0,
      ← Int.ofNat_tdiv]
    generalize decimalValue da / decimalValue db = q1 at h1 h2 ⊢
    rw [int64_of_inRange (by unfold INT64_MIN; omega) (by omega)]
    simp only [Option.some_bind, ← Int.ofNat_tdiv]
    generalize q1 / decimalValue dc = q2 at h2 ⊢
    rw [int64_of_inRange (by unfold INT64_MIN; omega) (by omega)]

/-- C3 as stated fails: on `0-9223372036854775807-9223372036854775807`, three literals that fit
in `int64_t`, the second subtraction overflows, so the evaluation has no defined result and
in particular not `(0-9223372036854775807)-9223372036854775807`. -/
theorem C3_left_associativity_counterexample :
    ParseAndEvaluate 20 "0-9223372036854775807-9223372036854775807" 0 ' ' = some none ∧
    ParseAndEvaluate 20 "0-9223372036854775807-9223372036854775807" 0 ' ' ≠
      some (some ((0 - 9223372036854775807) - 9223372036854775807)) := by
  constructor <;> decide

/-- C3, amended: left associativity. For all literals `a`, `b`, `c` that fit in `int64_t`, the
text `a-b-c` evaluates to `(a-b)-c` when that value is not below `INT64_MIN`, and, when `b`
and `c` are not zero, the text `a/b/c` evaluates to `(a/b)/c` with truncating division;
`10-3-2` gives 5 and `20/4/5` gives 1. For every well-formed expression, the tree that
`ParseExpression` returns holds each chain of same-tier operators as the left-leaning tree
`((u₁ op u₂) op u₃) ...`. -/
theorem C3_left_associativity (da db dc : List Char) (ha : literalOk da = true)
    (hb : literalOk db = true) (hc : literalOk dc = true) (fuel : Nat) (hfuel : 13 ≤ fuel)
    (number0 : Int) (symbol0 : Char) :
    (INT64_MIN ≤ (decimalValue da : Int) - decimalValue db - decimalValue dc →
      ParseAndEvaluate fuel (String.mk (da ++ '-' :: (db ++ '-' :: dc))) number0 symbol0 =
        some (some ((decimalValue da : Int) - decimalValue db - decimalValue dc))) ∧
    (decimalValue db ≠ 0 → decimalValue dc ≠ 0 →
      ParseAndEvaluate fuel (String.mk (da ++ '/' :: (db ++ '/' :: dc))) number0 symbol0 =
        some (some ((decimalValue da / decimalValue db / decimalValue dc : Nat) : Int))) ∧
    ParseAndEvaluate fuel "10-3-2" number0 symbol0 = some (some 5) ∧
    ParseAndEvaluate fuel "20/4/5" number0 symbol0 = some (some 1) ∧
    (∀ (u : GUnit) (rt : GTermTail) (re : GExprTail) (k n : Nat),
      (GExpr.mk (.mk u rt) re).wf = true → (GExpr.mk (.mk u rt) re).size ≤ n →
      ∃ tok, ParseExpression n
          (Tokenizer.new ((GExpr.mk (.mk u rt) re).text ++ spaces k) number0 symbol0) =
        some (.Operation ' '
          (leftFold (.Operation ' ' (leftFold u.tree rt.items) .nullptr) re.items) .nullptr,
          tok)) := by
  refine ⟨differenceChain_eval da db dc ha hb hc fuel hfuel number0 symbol0,
    quotientChain_eval da db dc ha hb hc fuel (by omega) number0 symbol0,
    differenceChain_eval ['1', '0'] ['3'] ['2'] (by decide) (by decide) (by decide) fuel hfuel
      number0 symbol0 (by decide),
    quotientChain_eval ['2', '0'] ['4'] ['5'] (by decide) (by decide) (by decide) fuel
      (by omega) number0 symbol0 (by decide) (by decide), ?_⟩
  intro u rt re k n hwf hn
  obtain ⟨tok, htok⟩ := ParseExpression_text _ hwf k n hn number0 symbol0
  refine ⟨tok, ?_⟩
  rw [htok]
  simp [GExpr.tree, GTerm.tree, termTail_fold_eq_leftFold, exprTail_fold_eq_leftFold]

/-- C3, amended, at the literals `100`, `7`, `3`: `100-7-3` gives 90 and `100/7/3` gives 4. -/
theorem C3_left_associativity_witness :
    literalOk ['1', '0', '0'] = true ∧ literalOk ['7'] = true ∧ literalOk ['3'] = true ∧
    ParseAndEvaluate 13 "100-7-3" 0 ' ' = some (some 90) ∧
    ParseAndEvaluate 13 "100/7/3" 0 ' ' = some (some 4) :=
  ⟨by decide, by decide, by decide,
    (C3_left_associativity ['1', '0', '0'] ['7'] ['3'] (by decide) (by decide) (by decide) 13
      (by decide) 0 ' ').1 (by decide),
    (C3_left_associativity ['1', '0', '0'] ['7'] ['3'] (by decide) (by decide) (by decide) 13
      (by decide) 0 ' ').2.1 (by decide) (by decide)⟩

theorem expr_value_inRange (e : GExpr) (hwf : e.wf = true) : InRange e.value := by
  rw [← expr_Evaluate_tree e hwf]; exact expr_tree_inRange e

theorem negParen_eval (e : GExpr) (hwf : e.wf = true) (v : Int) (hv : e.value = some v)
    (hmin : v ≠ INT64_MIN) (fuel : Nat) (hfuel : e.size + 5 ≤ fuel) (number0 : Int)
    (symbol0 : Char) :
    ParseAndEvaluate fuel (String.mk ('-' :: '(' :: (e.text ++ [')']))) number0 symbol0 =
      some (some (-v)) := by
  have hr := expr_value_inRange e hwf v hv
  refine ParseAndEvaluate_of_text (negParen e) _ _ fuel number0 symbol0 ?_ ?_ ?_ ?_
  · simp [negParen, GExpr.wf, GTerm.wf, GUnit.wf, GTermTail.wf, GExprTail.wf, hwf]
  · simp only [negParen, GExpr.size, GTerm.size, GUnit.size, GTermTail.size, GExprTail.size]
    omega
  · simp [negParen, GExpr.text, GTerm.text, GUnit.text, GTermTail.text, GExprTail.text,
      signText, spaces]
  · simp only [negParen, GExpr.value, GTerm.value, GUnit.value, GTermTail.value,
      GExprTail.value, refNeg, hv, Option.some_bind, if_true]
    exact int64_of_inRange (by unfold INT64_MIN INT64_MAX at *; omega)
      (by unfold INT64_MIN INT64_MAX at *; omega)

theorem negProduct_eval (da db : List Char) (ha : literalOk da = true)
    (hb : literalOk db = true) (fuel : Nat) (hfuel : 7 ≤ fuel) (number0 : Int)
    (symbol0 : Char) (h : (decimalValue da : Int) * decimalValue db ≤ INT64_MAX) :
    ParseAndEvaluate fuel (String.mk ('-' :: (da ++ '*' :: '-' :: db))) number0 symbol0 =
      some (some ((decimalValue da : Int) * decimalValue db)) := by
  have ha0 : (0 : Int) ≤ (decimalValue da : Nat) := Int.ofNat_nonneg _
  have hb0 : (0 : Int) ≤ (decimalValue db : Nat) := Int.ofNat_nonneg _
  have ha1 := literalOk_le ha
  have hb1 := literalOk_le hb
  have hp0 : (0 : Int) ≤ (decimalValue da : Int) * decimalValue db := Int.mul_nonneg ha0 hb0
  refine ParseAndEvaluate_of_text (negProduct da db) _ _ fuel number0 symbol0 ?_ ?_ ?_ ?_
  · simp [negProduct, GExpr.wf, GTerm.wf, GUnit.wf, GTermTail.wf, GExprTail.wf, ha, hb]
  · simpa [negProduct, GExpr.size, GTerm.size, GUnit.size, GTermTail.size, GExprTail.size]
      using hfuel
  · simp [negProduct, GExpr.text, GTerm.text, GUnit.text, GTermTail.text, GExprTail.text,
      signText, spaces, mulChar]
  · simp only [negProduct, GExpr.value, GTerm.value, GUnit.value, GTermTail.value,
      GExprTail.value, refNeg, refMul, Option.some_bind, if_true, Bool.false_eq_true, if_false]
    rw [int64_of_inRange (x := -(decimalValue da : Int))
        (by unfold INT64_MIN INT64_MAX at *; omega) (by omega),
      int64_of_inRange (x := -(decimalValue db : Int))
        (by unfold INT64_MIN INT64_MAX at *; omega) (by omega)]
    simp only [Option.some_bind, neg_mul_neg]
    exact int64_of_inRange (by unfold INT64_MIN; omega) h

/-- The node that `ParseUnit` returns: `sign * inner`, where `inner` is the tree of the
parenthesised expression when the token after the optional `-` is `(`, and otherwise the leaf
holding the tokenizer's number. -/
theorem ParseUnit_shape (fuel : Nat) (tok : Tokenizer) (tree : Expression) (tok' : Tokenizer)
    (h : ParseUnit fuel tok = some (tree, tok')) :
    ∃ inner, tree = .Operation '*'
      (.Number (if tok.Consume.GetType = .kSymbol ∧ tok.Consume.GetSymbol = '-' then -1 else 1))
      inner ∧
      (if (if tok.Consume.GetType = .kSymbol ∧ tok.Consume.GetSymbol = '-'
              then tok.Consume.Consume else tok.Consume).GetType = .kSymbol ∧
            (if tok.Consume.GetType = .kSymbol ∧ tok.Consume.GetSymbol = '-'
              then tok.Consume.Consume else tok.Consume).GetSymbol = '('
        then ∃ tok3, ParseExpression (fuel - 1)
          (if tok.Consume.GetType = .kSymbol ∧ tok.Consume.GetSymbol = '-'
            then tok.Consume.Consume else tok.Consume) = some (inner, tok3)
        else inner = .Number
          (if tok.Consume.GetType = .kSymbol ∧ tok.Consume.GetSymbol = '-'
            then tok.Consume.Consume else tok.Consume).GetNumber) := by
  cases fuel with
  | zero => simp [ParseUnit] at h
  | succ f =>
    simp only [ParseUnit] at h
    by_cases hparen :
        (if tok.Consume.GetType = .kSymbol ∧ tok.Consume.GetSymbol = '-' then tok.Consume.Consume
          else tok.Consume).GetType = .kSymbol ∧
        (if tok.Consume.GetType = .kSymbol ∧ tok.Consume.GetSymbol = '-' then tok.Consume.Consume
          else tok.Consume).GetSymbol = '('
    · rw [if_pos hparen] at h
      split at h
      · cases h
      · rename_i e tok3 hpe
        simp only [Option.some.injEq, Prod.mk.injEq] at h
        refine ⟨e, h.1.symm, ?_⟩
        rw [if_pos hparen]
        exact ⟨tok3, by simpa using hpe⟩
    · rw [if_neg hparen] at h
      simp only [Option.some.injEq, Prod.mk.injEq] at h
      refine ⟨_, h.1.symm, ?_⟩
      rw [if_neg hparen]

/-- C4 as stated fails: on `-4294967296*-4294967296`, two literals that fit in `int64_t`, the
product `4294967296 * 4294967296` overflows, so the evaluation has no defined result and in
particular not the product. -/
theorem C4_unary_minus_counterexample :
    ParseAndEvaluate 20 "-4294967296*-4294967296" 0 ' ' = some none ∧
    ParseAndEvaluate 20 "-4294967296*-4294967296" 0 ' ' ≠
      some (some (4294967296 * 4294967296)) := by
  constructor <;> decide

/-- C4, amended: unary minus. Every node that `ParseUnit` returns is an `Operation` with
operator `*` and left child `Number(sign)`, where `sign` is `-1` exactly when the first token
of the unit is the symbol `-`, and `1` otherwise; its right child is the tree of the
parenthesised expression, or the leaf of the number. For every well-formed expression `e` with
value `v` other than `INT64_MIN`, the text `-(e)` evaluates to `-v`; for all literals `a`, `b`
that fit in `int64_t` and whose product fits too, the text `-a*-b` evaluates to `a*b`.
`-(3+4)` gives -7 and `-5*-5` gives 25. -/
theorem C4_unary_minus (e : GExpr) (hwf : e.wf = true) (v : Int) (hv : e.value = some v)
    (da db : List Char) (ha : literalOk da = true) (hb : literalOk db = true) (fuel : Nat)
    (hfuel : e.size + 14 ≤ fuel) (number0 : Int) (symbol0 : Char) :
    (∀ (n : Nat) (tok : Tokenizer) (tree : Expression) (tok' : Tokenizer),
      ParseUnit n tok = some (tree, tok') →
      ∃ inner, tree = .Operation '*'
        (.Number (if tok.Consume.GetType = .kSymbol ∧ tok.Consume.GetSymbol = '-' then -1
          else 1)) inner ∧
        (if (if tok.Consume.GetType = .kSymbol ∧ tok.Consume.GetSymbol = '-'
                then tok.Consume.Consume else tok.Consume).GetType = .kSymbol ∧
              (if tok.Consume.GetType = .kSymbol ∧ tok.Consume.GetSymbol = '-'
                then tok.Consume.Consume else tok.Consume).GetSymbol = '('
          then ∃ tok3, ParseExpression (n - 1)
            (if tok.Consume.GetType = .kSymbol ∧ tok.Consume.GetSymbol = '-'
              then tok.Consume.Consume else tok.Consume) = some (inner, tok3)
          else inner = .Number
            (if tok.Consume.GetType = .kSymbol ∧ tok.Consume.GetSymbol = '-'
              then tok.Consume.Consume else tok.Consume).GetNumber)) ∧
    (v ≠ INT64_MIN →
      ParseAndEvaluate fuel (String.mk ('-' :: '(' :: (e.text ++ [')']))) number0 symbol0 =
        some (some (-v))) ∧
    ((decimalValue da : Int) * decimalValue db ≤ INT64_MAX →
      ParseAndEvaluate fuel (String.mk ('-' :: (da ++ '*' :: '-' :: db))) number0
          symbol0 = some (some ((decimalValue da : Int) * decimalValue db))) ∧
    ParseAndEvaluate fuel "-(3+4)" number0 symbol0 = some (some (-7)) ∧
    ParseAndEvaluate fuel "-5*-5" number0 symbol0 = some (some 25) :=
  ⟨ParseUnit_shape,
    fun hmin => negParen_eval e hwf v hv hmin fuel (by omega) number0 symbol0,
    negProduct_eval da db ha hb fuel (by omega) number0 symbol0,
    negParen_eval (.mk (litTerm ['3']) (.cons 0 false (litTerm ['4']) .nil)) (by decide) 7
      (by decide) (by decide) fuel
      (by
        have : (GExpr.mk (litTerm ['3']) (.cons 0 false (litTerm ['4']) .nil)).size = 9 := by
          decide
        rw [this]; omega) number0 symbol0,
    negProduct_eval ['5'] ['5'] (by decide) (by decide) fuel (by omega) number0 symbol0
      (by decide)⟩

/-- C4, amended, at `e = 2+3*4` and the literals `6`, `7`: `-(2+3*4)` gives -14 and `-6*-7`
gives 42. -/
theorem C4_unary_minus_witness :
    (sumProduct ['2'] ['3'] ['4']).wf = true ∧
    (sumProduct ['2'] ['3'] ['4']).value = some 14 ∧
    ParseAndEvaluate 25 "-(2+3*4)" 0 ' ' = some (some (-14)) ∧
    ParseAndEvaluate 25 "-6*-7" 0 ' ' = some (some 42) :=
  ⟨by decide, by decide,
    (C4_unary_minus (sumProduct ['2'] ['3'] ['4']) (by decide) 14 (by decide) ['6'] ['7']
      (by decide) (by decide) 25 (by decide) 0 ' ').2.1 (by decide),
    (C4_unary_minus (sumProduct ['2'] ['3'] ['4']) (by decide) 14 (by decide) ['6'] ['7']
      (by decide) (by decide) 25 (by decide) 0 ' ').2.2.1 (by decide)⟩

theorem quotient_eval (neg : Bool) (da db : List Char) (ha : literalOk da = true)
    (hb : literalOk db = true) (fuel : Nat) (hfuel : 7 ≤ fuel) (number0 : Int)
    (symbol0 : Char) (hb0 : decimalValue db ≠ 0) :
    ParseAndEvaluate fuel (String.mk (signText neg 0 ++ (da ++ '/' :: db))) number0 symbol0 =
      some (some (Int.tdiv (if neg then -(decimalValue da : Int) else decimalValue da)
        (decimalValue db))) := by
  have ha1 := literalOk_le ha
  have h1 : decimalValue da / decimalValue db ≤ decimalValue da := Nat.div_le_self _ _
  refine ParseAndEvaluate_of_text (quotient neg da db) _ _ fuel number0 symbol0 ?_ ?_ ?_ ?_
  · simp [quotient, litUnit, GExpr.wf, GTerm.wf, GUnit.wf, GTermTail.wf, GExprTail.wf, ha, hb]
  · simpa [quotient, litUnit, GExpr.size, GTerm.size, GUnit.size, GTermTail.size,
      GExprTail.size] using hfuel
  · simp [quotient, litUnit, GExpr.text, GTerm.text, GUnit.text, GTermTail.text,
      GExprTail.text, signText, spaces, mulChar]
  · cases neg with
    | false =>
      simp only [quotient, litUnit, GExpr.value, GTerm.value, GUnit.value, GTermTail.value,
        GExprTail.value, refNeg, refMul, Option.some_bind, Bool.false_eq_true, if_false,
        if_true, Int.natCast_eq_zero, hb0, ← Int.ofNat_tdiv]
      generalize decimalValue da / decimalValue db = q at h1 ⊢
      rw [int64_of_inRange (by unfold INT64_MIN; omega) (by omega)]
    | true =>
      simp only [quotient, litUnit, GExpr.value, GTerm.value, GUnit.value, GTermTail.value,
        GExprTail.value, refNeg, refMul, Option.some_bind, Bool.false_eq_true, if_false,
        if_true]
      rw [int64_of_inRange (x := -(decimalValue da : Int))
        (by unfold INT64_MIN INT64_MAX at *; omega) (by omega)]
      simp only [Option.some_bind, Int.natCast_eq_zero, hb0, if_false, Int.neg_tdiv,
        ← Int.ofNat_tdiv]
      generalize decimalValue da / decimalValue db = q at h1 ⊢
      rw [int64_of_inRange (by unfold INT64_MIN INT64_MAX at *; omega) (by omega)]

/-- C5: division truncates toward zero. For all literals `a` and `b` that fit in `int64_t`, `b`
not zero, the text `a/b` evaluates to the quotient of `a` by `b` rounded toward zero, which is
`⌊a/b⌋`, and the text `-a/b` evaluates to the quotient of `-a` by `b` rounded toward zero,
which is `-⌊a/b⌋`; `7/2` gives 3 and `-7/2` gives -3, where flooring would give -4. -/
theorem C5_division_truncates (da db : List Char) (ha : literalOk da = true)
    (hb : literalOk db = true) (hb0 : decimalValue db ≠ 0) (fuel : Nat) (hfuel : 7 ≤ fuel)
    (number0 : Int) (symbol0 : Char) :
    ParseAndEvaluate fuel (String.mk (da ++ '/' :: db)) number0 symbol0 =
      some (some (Int.tdiv (decimalValue da) (decimalValue db))) ∧
    Int.tdiv (decimalValue da) (decimalValue db) = ((decimalValue da / decimalValue db : Nat) : Int) ∧
    ParseAndEvaluate fuel (String.mk ('-' :: (da ++ '/' :: db))) number0 symbol0 =
      some (some (Int.tdiv (-(decimalValue da : Int)) (decimalValue db))) ∧
    Int.tdiv (-(decimalValue da : Int)) (decimalValue db) =
      -((decimalValue da / decimalValue db : Nat) : Int) ∧
    ParseAndEvaluate fuel "7/2" number0 symbol0 = some (some 3) ∧
    ParseAndEvaluate fuel "-7/2" number0 symbol0 = some (some (-3)) ∧
    Int.fdiv (-7) 2 = -4 := by
  refine ⟨?_, ?_, ?_, ?_, ?_, ?_, by decide⟩
  · simpa [signText] using quotient_eval false da db ha hb fuel hfuel number0 symbol0 hb0
  · rw [Int.ofNat_tdiv]
  · simpa [signText, spaces] using
      quotient_eval true da db ha hb fuel hfuel number0 symbol0 hb0
  · rw [Int.neg_tdiv, Int.ofNat_tdiv]
  · exact quotient_eval false ['7'] ['2'] (by decide) (by decide) fuel hfuel number0 symbol0
      (by decide)
  · exact quotient_eval true ['7'] ['2'] (by decide) (by decide) fuel hfuel number0 symbol0
      (by decide)

/-- C5 at the literals `17` and `5`: `17/5` gives 3 and `-17/5` gives -3. -/
theorem C5_division_truncates_witness :
    literalOk ['1', '7'] = true ∧ literalOk ['5'] = true ∧ decimalValue ['5'] ≠ 0 ∧
    ParseAndEvaluate 7 "17/5" 0 ' ' = some (some 3) ∧
    ParseAndEvaluate 7 "-17/5" 0 ' ' = some (some (-3)) :=
  ⟨by decide, by decide, by decide,
    (C5_division_truncates ['1', '7'] ['5'] (by decide) (by decide) (by decide) 7 (by decide)
      0 ' ').1,
    (C5_division_truncates ['1', '7'] ['5'] (by decide) (by decide) (by decide) 7 (by decide)
      0 ' ').2.2.1⟩

mutual

theorem unit_compact_tree : ∀ u : GUnit, u.compact.tree = u.tree
  | .lit _ _ _ _ => rfl
  | .paren neg _ _ e _ => by simp only [GUnit.compact, GUnit.tree, expr_compact_tree e]

theorem termTail_compact_fold : ∀ (rest : GTermTail) (lhs : Expression),
    rest.compact.fold lhs = rest.fold lhs
  | .nil, _ => rfl
  | .cons _ div u rest, lhs => by
    simp only [GTermTail.compact, GTermTail.fold, unit_compact_tree u,
      termTail_compact_fold rest]

theorem term_compact_tree : ∀ t : GTerm, t.compact.tree = t.tree
  | .mk u rest => by
    simp only [GTerm.compact, GTerm.tree, unit_compact_tree u, termTail_compact_fold rest]

theorem exprTail_compact_fold : ∀ (rest : GExprTail) (lhs : Expression),
    rest.compact.fold lhs = rest.fold lhs
  | .nil, _ => rfl
  | .cons _ minus t rest, lhs => by
    simp only [GExprTail.compact, GExprTail.fold, term_compact_tree t,
      exprTail_compact_fold rest]

theorem expr_compact_tree : ∀ e : GExpr, e.compact.tree = e.tree
  | .mk t rest => by
    simp only [GExpr.compact, GExpr.tree, term_compact_tree t, exprTail_compact_fold rest]

end

mutual

theorem unit_compact_wf : ∀ u : GUnit, u.compact.wf = u.wf
  | .lit _ _ _ _ => rfl
  | .paren neg _ _ e _ => by simp only [GUnit.compact, GUnit.wf, expr_compact_wf e]

theorem termTail_compact_wf : ∀ rest : GTermTail, rest.compact.wf = rest.wf
  | .nil => rfl
  | .cons _ div u rest => by
    simp only [GTermTail.compact, GTermTail.wf, unit_compact_wf u, termTail_compact_wf rest]

theorem term_compact_wf : ∀ t : GTerm, t.compact.wf = t.wf
  | .mk u rest => by
    simp only [GTerm.compact, GTerm.wf, unit_compact_wf u, termTail_compact_wf rest]

theorem exprTail_compact_wf : ∀ rest : GExprTail, rest.compact.wf = rest.wf
  | .nil => rfl
  | .cons _ minus t rest => by
    simp only [GExprTail.compact, GExprTail.wf, term_compact_wf t, exprTail_compact_wf rest]

theorem expr_compact_wf : ∀ e : GExpr, e.compact.wf = e.wf
  | .mk t rest => by
    simp only [GExpr.compact, GExpr.wf, term_compact_wf t, exprTail_compact_wf rest]

end

/-- Two well-formed writings of the same tokens have the same value. -/
theorem value_of_same_tokens (e e' : GExpr) (hwf : e.wf = true)
    (hsame : e.compact = e'.compact) : e'.wf = true ∧ e'.value = e.value := by
  have hwf' : e'.wf = true := by
    rw [← expr_compact_wf e', ← hsame, expr_compact_wf e, hwf]
  refine ⟨hwf', ?_⟩
  rw [← expr_Evaluate_tree e hwf, ← expr_Evaluate_tree e' hwf', ← expr_compact_tree e,
    ← expr_compact_tree e', hsame]

/-- C6: whitespace is insignificant. Let `e` and `e'` be two writings of the same well-formed
expression that differ only in the number of spaces before each token (`e.compact =
e'.compact`), each followed by any number of spaces. Parsing and evaluating the two texts
returns the same result, the reference value of the expression; `1 + 2 * 3` and `1+2*3`
give the same result, 7. -/
theorem C6_whitespace_insignificant (e e' : GExpr) (hwf : e.wf = true)
    (hsame : e.compact = e'.compact) (k k' fuel fuel' : Nat) (hfuel : e.size ≤ fuel)
    (hfuel' : e'.size ≤ fuel') (number0 number0' : Int) (symbol0 symbol0' : Char) :
    ParseAndEvaluate fuel (String.mk (e.text ++ spaces k)) number0 symbol0 =
      ParseAndEvaluate fuel' (String.mk (e'.text ++ spaces k')) number0' symbol0' ∧
    ParseAndEvaluate fuel (String.mk (e.text ++ spaces k)) number0 symbol0 = some e.value ∧
    (11 ≤ fuel → ParseAndEvaluate fuel "1 + 2 * 3" number0 symbol0 =
      ParseAndEvaluate fuel "1+2*3" number0 symbol0 ∧
      ParseAndEvaluate fuel "1+2*3" number0 symbol0 = some (some 7)) := by
  obtain ⟨hwf', hval⟩ := value_of_same_tokens e e' hwf hsame
  refine ⟨?_, ParseAndEvaluate_text e hwf k fuel hfuel number0 symbol0, fun h11 => ?_⟩
  · rw [ParseAndEvaluate_text e hwf k fuel hfuel number0 symbol0,
      ParseAndEvaluate_text e' hwf' k' fuel' hfuel' number0' symbol0', hval]
  · have h1 : ParseAndEvaluate fuel "1 + 2 * 3" number0 symbol0 = some (some 7) :=
      ParseAndEvaluate_of_text spacedExpr _ _ fuel number0 symbol0 (by decide)
        (by have : spacedExpr.size = 11 := by decide
            omega) (by decide) (by decide)
    have h2 : ParseAndEvaluate fuel "1+2*3" number0 symbol0 = some (some 7) :=
      ParseAndEvaluate_of_text spacedExpr.compact _ _ fuel number0 symbol0 (by decide)
        (by have : spacedExpr.compact.size = 11 := by decide
            omega) (by decide) (by decide)
    exact ⟨h1.trans h2.symm, h2⟩

/-- C6 at `-(1+ 2)*3 /2 - 4` followed by one space, and the same tokens without any space:
both texts give -8. -/
theorem C6_whitespace_insignificant_witness :
    sampleExpr.wf = true ∧ sampleExpr.compact = sampleExpr.compact.compact ∧
    ParseAndEvaluate 30 "-(1+ 2)*3 /2 - 4 " 0 'x' = ParseAndEvaluate 40 "-(1+2)*3/2-4" 5 'y' ∧
    ParseAndEvaluate 30 "-(1+ 2)*3 /2 - 4 " 0 'x' = some (some (-8)) :=
  ⟨by decide, rfl,
    (C6_whitespace_insignificant sampleExpr sampleExpr.compact (by decide) rfl 1 0 30 40
      (by decide) (by decide) 0 5 'x' 'y').1,
    (C6_whitespace_insignificant sampleExpr sampleExpr.compact (by decide) rfl 1 0 30 40
      (by decide) (by decide) 0 5 'x' 'y').2.1⟩

/-! ## More fuel never changes a result -/

/-- A parsing function that returns with some fuel returns the same with one more unit. -/
theorem Parse_fuel_succ (fuel : Nat) :
    (∀ tok r, ParseUnit fuel tok = some r → ParseUnit (fuel + 1) tok = some r) ∧
    (∀ lhs tok r, ParseTermLoop fuel lhs tok = some r →
      ParseTermLoop (fuel + 1) lhs tok = some r) ∧
    (∀ tok r, ParseTerm fuel tok = some r → ParseTerm (fuel + 1) tok = some r) ∧
    (∀ lhs tok r, ParseExpressionLoop fuel lhs tok = some r →
      ParseExpressionLoop (fuel + 1) lhs tok = some r) ∧
    (∀ tok r, ParseExpression fuel tok = some r → ParseExpression (fuel + 1) tok = some r) := by
  induction fuel with
  | zero => simp [ParseUnit, ParseTermLoop, ParseTerm, ParseExpressionLoop, ParseExpression]
  | succ f ih =>
    obtain ⟨ihU, ihTL, ihT, ihEL, ihE⟩ := ih
    refine ⟨?_, ?_, ?_, ?_, ?_⟩
    · intro tok r h
      simp only [ParseUnit] at h ⊢
      generalize (if tok.Consume.GetType = .kSymbol ∧ tok.Consume.GetSymbol = '-'
        then (-1 : Int) else 1) = sign at h ⊢
      generalize (if tok.Consume.GetType = .kSymbol ∧ tok.Consume.GetSymbol = '-'
        then tok.Consume.Consume else tok.Consume) = tok2 at h ⊢
      by_cases hparen : tok2.GetType = .kSymbol ∧ tok2.GetSymbol = '('
      · rw [if_pos hparen] at h ⊢
        split at h
        · cases h
        · rename_i e tok3 hpe
          rw [ihE _ _ hpe]
          exact h
      · rw [if_neg hparen] at h ⊢
        exact h
    · intro lhs tok r h
      rw [ParseTermLoop] at h ⊢
      split
      · rename_i hc
        rw [if_pos hc] at h
        split at h
        · cases h
        · rename_i rhs tok1 hpu
          rw [ihU _ _ hpu]
          exact ihTL _ _ _ h
      · rename_i hc
        rw [if_neg hc] at h
        exact h
    · intro tok r h
      rw [ParseTerm] at h ⊢
      split at h
      · cases h
      · rename_i unit tok1 hpu
        rw [ihU _ _ hpu]
        exact ihTL _ _ _ h
    · intro lhs tok r h
      rw [ParseExpressionLoop] at h ⊢
      split
      · rename_i hc
        rw [if_pos hc] at h
        split at h
        · cases h
        · rename_i rhs tok1 hpt
          rw [ihT _ _ hpt]
          exact ihEL _ _ _ h
      · rename_i hc
        rw [if_neg hc] at h
        exact h
    · intro tok r h
      rw [ParseExpression] at h ⊢
      split at h
      · cases h
      · rename_i term tok1 hpt
        rw [ihT _ _ hpt]
        exact ihEL _ _ _ h

/-- With any larger fuel `ParseExpression` returns the same. -/
theorem ParseExpression_fuel_mono (fuel fuel' : Nat) (h : fuel ≤ fuel') (tok : Tokenizer)
    (r : Expression × Tokenizer) (hr : ParseExpression fuel tok = some r) :
    ParseExpression fuel' tok = some r := by
  induction fuel', h using Nat.le_induction with
  | base => exact hr
  | succ n _ ih => exact (Parse_fuel_succ n).2.2.2.2 tok r ih

/-- A run that returns with some fuel returns the same with any larger fuel. -/
theorem ParseAndEvaluate_fuel_mono (fuel fuel' : Nat) (h : fuel ≤ fuel') (input : String)
    (number0 : Int) (symbol0 : Char) (x : Option Int)
    (hx : ParseAndEvaluate fuel input number0 symbol0 = some x) :
    ParseAndEvaluate fuel' input number0 symbol0 = some x := by
  unfold ParseAndEvaluate at hx ⊢
  cases hp : ParseExpression fuel (Tokenizer.new input.toList number0 symbol0) with
  | none => rw [hp] at hx; cases hx
  | some r =>
    rw [ParseExpression_fuel_mono fuel fuel' h _ r hp]
    rw [hp] at hx
    exact hx

/-- What `ParseUnit` does on a number followed by a symbol: the tokenizer fields that the two `Consume`
calls do not set are no longer read. -/
theorem ParseUnit_number_symbol (f : Nat) (t : Tokenizer) (ds : List Char) (op : Char)
    (r : List Char) (hin : t.in_ = ⟨ds ++ op :: r, false, false⟩) (hds : literalOk ds = true)
    (hop : op ∈ ['+', '-', '*', '/', '(']) :
    ParseUnit (f + 1) t = some (.Operation '*' (.Number 1) (.Number (decimalValue ds : Nat)),
      ⟨⟨r, false, false⟩, .kSymbol, (decimalValue ds : Nat), op⟩) := by
  obtain ⟨hne, hdig, hfit⟩ := literalOk_iff hds
  have hnd : isDigit op = false := by
    simp only [List.mem_cons, List.mem_singleton, List.not_mem_nil, or_false] at hop
    rcases hop with rfl | rfl | rfl | rfl | rfl <;> decide
  have h1 := Consume_number t 0 ds (op :: r) (by simpa [spaces] using hin) hne hdig
    (by intro c r' h; cases h; exact hnd) hfit
  simp only [List.isEmpty_cons] at h1
  have h2 := Consume_symbol t.Consume 0 op r (by rw [h1]; rfl) hop
  rw [h1] at h2
  simp [ParseUnit, h1, h2, Tokenizer.GetType, Tokenizer.GetSymbol, Tokenizer.GetNumber]

theorem eval_missing_operand (number0 : Int) (symbol0 : Char) :
    ParseAndEvaluate 10 "2+" number0 symbol0 = some (some 4) := by
  have hU := ParseUnit_number_symbol 7 (Tokenizer.new ['2', '+'] number0 symbol0) ['2'] '+' []
    rfl (by decide) (by decide)
  have hs : "2+".toList = ['2', '+'] := rfl
  simp only [ParseAndEvaluate, hs, ParseExpression, ParseTerm, hU]
  decide

theorem eval_doubled_operator (number0 : Int) (symbol0 : Char) :
    ParseAndEvaluate 10 "2++3" number0 symbol0 = some (some 7) := by
  have hU := ParseUnit_number_symbol 7 (Tokenizer.new ['2', '+', '+', '3'] number0 symbol0)
    ['2'] '+' ['+', '3'] rfl (by decide) (by decide)
  have hs : "2++3".toList = ['2', '+', '+', '3'] := rfl
  simp only [ParseAndEvaluate, hs, ParseExpression, ParseTerm, hU]
  decide

theorem eval_unbalanced (number0 : Int) (symbol0 : Char) :
    ParseAndEvaluate 10 "(2+3" number0 symbol0 = some (some 5) := by
  have h0 : (Tokenizer.new ['(', '2', '+', '3'] number0 symbol0).Consume =
      ⟨⟨['2', '+', '3'], false, false⟩, .kSymbol, number0, '('⟩ :=
    Consume_symbol _ 0 '(' ['2', '+', '3'] rfl (by decide)
  have hU := ParseUnit_number_symbol 4
    ⟨⟨['2', '+', '3'], false, false⟩, .kSymbol, number0, '('⟩ ['2'] '+' ['3']
    rfl (by decide) (by decide)
  have hU' := ParseUnit_number_symbol 4
    ⟨⟨['2', '+', '3'], false, false⟩, .kSymbol, 0, '('⟩ ['2'] '+' ['3']
    rfl (by decide) (by decide)
  have hE : ParseExpression 7 ⟨⟨['2', '+', '3'], false, false⟩, .kSymbol, number0, '('⟩ =
      ParseExpression 7 ⟨⟨['2', '+', '3'], false, false⟩, .kSymbol, 0, '('⟩ := by
    simp only [ParseExpression, ParseTerm, hU, hU']
  have hU0 : ParseUnit 8 (Tokenizer.new ['(', '2', '+', '3'] number0 symbol0) =
      match ParseExpression 7 ⟨⟨['2', '+', '3'], false, false⟩, .kSymbol, 0, '('⟩ with
      | none => none
      | some (e, tok3) => some (.Operation '*' (.Number 1) e, tok3.Consume) := by
    rw [← hE]
    simp [ParseUnit, h0, Tokenizer.GetType, Tokenizer.GetSymbol]
  have hs : "(2+3".toList = ['(', '2', '+', '3'] := rfl
  simp only [ParseAndEvaluate, hs, ParseExpression, ParseTerm, hU0]
  decide

/-- C7 as stated fails: on `2+` the run returns the integer 4, not a failure. -/
theorem C7_malformed_input_counterexample :
    ParseAndEvaluate 10 "2+" 0 ' ' = some (some 4) := by
  decide

/-- C7, amended: the code reports no `SyntaxError`. On each of the inputs `2+`, `(2+3` and
`2++3` the parser returns, with any fuel from 10 on and whatever the first contents of
`number_` and `symbol_`, and the evaluation returns an integer: 4, 5 and 7. -/
theorem C7_malformed_input (fuel : Nat) (hfuel : 10 ≤ fuel) (number0 : Int) (symbol0 : Char) :
    ParseAndEvaluate fuel "2+" number0 symbol0 = some (some 4) ∧
    ParseAndEvaluate fuel "(2+3" number0 symbol0 = some (some 5) ∧
    ParseAndEvaluate fuel "2++3" number0 symbol0 = some (some 7) :=
  ⟨ParseAndEvaluate_fuel_mono 10 fuel hfuel _ _ _ _ (eval_missing_operand number0 symbol0),
    ParseAndEvaluate_fuel_mono 10 fuel hfuel _ _ _ _ (eval_unbalanced number0 symbol0),
    ParseAndEvaluate_fuel_mono 10 fuel hfuel _ _ _ _ (eval_doubled_operator number0 symbol0)⟩

/-- C7, amended, with fuel 12 and the first contents 99 and `?`. -/
theorem C7_malformed_input_witness :
    10 ≤ 12 ∧ ParseAndEvaluate 12 "2+" 99 '?' = some (some 4) ∧
    ParseAndEvaluate 12 "(2+3" 99 '?' = some (some 5) ∧
    ParseAndEvaluate 12 "2++3" 99 '?' = some (some 7) :=
  ⟨by decide, C7_malformed_input 12 (by decide) 99 '?'⟩

theorem Evaluate_dividesByZero (tree : Expression) (h : DividesByZero tree) :
    Evaluate tree = none := by
  induction h with
  | here op l r hr hadd hsub hmul hzero =>
    rw [Evaluate_binary op l r hr, hzero]
    cases Evaluate l with
    | none => rfl
    | some a => simp [applyOperation, hadd, hsub, hmul]
  | left op l r _ ih =>
    cases hr : r.isNull with
    | true =>
      have : r = .nullptr := by cases r <;> simp_all [Expression.isNull]
      rw [this, Evaluate_wrapper, ih]
    | false => rw [Evaluate_binary op l r hr, ih]; rfl
  | right op l r hd ih =>
    have hr : r.isNull = false := by cases hd <;> rfl
    rw [Evaluate_binary op l r hr, ih]
    cases Evaluate l <;> rfl

theorem quotient_by_zero_eval (da dz : List Char) (ha : literalOk da = true)
    (hz : literalOk dz = true) (hz0 : decimalValue dz = 0) (fuel : Nat) (hfuel : 7 ≤ fuel)
    (number0 : Int) (symbol0 : Char) :
    ParseAndEvaluate fuel (String.mk (da ++ '/' :: dz)) number0 symbol0 = some none := by
  refine ParseAndEvaluate_of_text (quotient false da dz) _ _ fuel number0 symbol0 ?_ ?_ ?_ ?_
  · simp [quotient, litUnit, GExpr.wf, GTerm.wf, GUnit.wf, GTermTail.wf, GExprTail.wf, ha, hz]
  · simpa [quotient, litUnit, GExpr.size, GTerm.size, GUnit.size, GTermTail.size,
      GExprTail.size] using hfuel
  · simp [quotient, litUnit, GExpr.text, GTerm.text, GUnit.text, GTermTail.text,
      GExprTail.text, signText, spaces, mulChar]
  · simp [quotient, litUnit, GExpr.value, GTerm.value, GUnit.value, GTermTail.value,
      GExprTail.value, refNeg, refMul, hz0]

theorem zeroDivisionTree_dividesByZero : DividesByZero zeroDivisionTree := by
  unfold zeroDivisionTree
  apply DividesByZero.here <;> decide

/-- C8 as stated fails: on `5/0` the evaluation reaches the 64-bit division with a zero
divisor, whose behaviour is undefined; the run has no defined result, so it does not report a
`DivisionByZero` failure. -/
theorem C8_division_by_zero_counterexample :
    ParseAndEvaluate 10 "5/0" 0 ' ' = some none := by
  decide

/-- C8, amended: the code has no `DivisionByZero` failure. A tree in which the right operand
of a division evaluates to 0 has no defined value: `Evaluate` never returns an integer for it,
and reports nothing. For every literal `a` and every literal of value 0 the text `a/0` is
parsed into such a tree; so is `5/0`. -/
theorem C8_division_by_zero (tree : Expression) (h : DividesByZero tree) (da dz : List Char)
    (ha : literalOk da = true) (hz : literalOk dz = true) (hz0 : decimalValue dz = 0)
    (fuel : Nat) (hfuel : 7 ≤ fuel) (number0 : Int) (symbol0 : Char) :
    Evaluate tree = none ∧
    ParseAndEvaluate fuel (String.mk (da ++ '/' :: dz)) number0 symbol0 = some none ∧
    ParseAndEvaluate fuel "5/0" number0 symbol0 = some none ∧
    DividesByZero (quotient false ['5'] ['0']).tree :=
  ⟨Evaluate_dividesByZero tree h,
    quotient_by_zero_eval da dz ha hz hz0 fuel hfuel number0 symbol0,
    quotient_by_zero_eval ['5'] ['0'] (by decide) (by decide) (by decide) fuel hfuel number0
      symbol0,
    by
      simp only [quotient, litUnit, GExpr.tree, GExprTail.fold, GTerm.tree, GTermTail.fold,
        GUnit.tree, mulChar, signOf]
      apply DividesByZero.left
      apply DividesByZero.left
      apply DividesByZero.here <;> decide⟩

/-- C8, amended, at the tree of `(1+2)/(3-3)` and at the text `12/00`. -/
theorem C8_division_by_zero_witness :
    DividesByZero zeroDivisionTree ∧ Evaluate zeroDivisionTree = none ∧
    ParseAndEvaluate 7 "12/00" 0 ' ' = some none :=
  ⟨zeroDivisionTree_dividesByZero,
    (C8_division_by_zero zeroDivisionTree zeroDivisionTree_dividesByZero
      ['1', '2'] ['0', '0'] (by decide) (by decide) (by decide) 7 (by decide) 0 ' ').1,
    (C8_division_by_zero zeroDivisionTree zeroDivisionTree_dividesByZero
      ['1', '2'] ['0', '0'] (by decide) (by decide) (by decide) 7 (by decide) 0 ' ').2.1⟩

theorem stream_of_good (s : IStream) (h : s.good = true) (l : List Char) (hl : s.rest = l) :
    s = ⟨l, false, false⟩ := by
  cases s with
  | mk rest eofbit failbit =>
    simp only [IStream.good, Bool.and_eq_true, Bool.not_eq_true'] at h
    simp only at hl
    simp [h.1, h.2, hl]

/-- C9: the number token. Let the stream be good and hold `k` spaces, then a non-empty run
`ds` of decimal digits that is maximal (what follows, `r`, does not start with a digit) and
whose value fits in `int64_t`. Then `Consume` sets the token kind to `Number` and the number
to the decimal value of `ds`, and leaves the stream at `r`, the first character after the run;
the symbol is unchanged. The three digits of `123+4` are read as the one token 123. -/
theorem C9_number_token (t : Tokenizer) (k : Nat) (ds r : List Char)
    (hgood : t.in_.good = true) (hrest : t.in_.rest = spaces k ++ (ds ++ r)) (hne : ds ≠ [])
    (hds : ∀ c ∈ ds, isDigit c = true) (hr : ∀ c r', r = c :: r' → isDigit c = false)
    (hfit : (decimalValue ds : Int) ≤ INT64_MAX) :
    t.Consume.GetType = .kNumber ∧ t.Consume.GetNumber = (decimalValue ds : Nat) ∧
    t.Consume.in_.rest = r ∧ t.Consume.in_.failbit = false ∧
    t.Consume.GetSymbol = t.GetSymbol ∧
    (∀ (number0 : Int) (symbol0 : Char),
      (Tokenizer.new ['1', '2', '3', '+', '4'] number0 symbol0).Consume =
        ⟨⟨['+', '4'], false, false⟩, .kNumber, 123, symbol0⟩) := by
  have h := Consume_number t k ds r (stream_of_good _ hgood _ hrest) hne hds hr hfit
  refine ⟨by rw [h]; rfl, by rw [h]; rfl, by rw [h], by rw [h], by rw [h]; rfl, ?_⟩
  intro number0 symbol0
  exact Consume_number _ 0 ['1', '2', '3'] ['+', '4'] rfl (by decide) (by decide)
    (by intro c r' h; cases h; decide) (by decide)

/-- C9 at the stream `  42*7`. -/
theorem C9_number_token_witness :
    (Tokenizer.new [' ', ' ', '4', '2', '*', '7'] 0 'x').Consume.GetType = .kNumber ∧
    (Tokenizer.new [' ', ' ', '4', '2', '*', '7'] 0 'x').Consume.GetNumber = 42 ∧
    (Tokenizer.new [' ', ' ', '4', '2', '*', '7'] 0 'x').Consume.in_.rest = ['*', '7'] :=
  ⟨(C9_number_token (Tokenizer.new [' ', ' ', '4', '2', '*', '7'] 0 'x') 2 ['4', '2']
      ['*', '7'] rfl rfl (by decide) (by decide) (by intro c r' h; cases h; decide)
      (by decide)).1,
    (C9_number_token (Tokenizer.new [' ', ' ', '4', '2', '*', '7'] 0 'x') 2 ['4', '2']
      ['*', '7'] rfl rfl (by decide) (by decide) (by intro c r' h; cases h; decide)
      (by decide)).2.1,
    (C9_number_token (Tokenizer.new [' ', ' ', '4', '2', '*', '7'] 0 'x') 2 ['4', '2']
      ['*', '7'] rfl rfl (by decide) (by decide) (by intro c r' h; cases h; decide)
      (by decide)).2.2.1⟩

/-- C10: the symbol token. Let the stream be good and hold `k` spaces, then a character `c`
among `+ - * / (`, then `r`. Then `Consume` sets the token kind to `Symbol` and the symbol to
`c`, leaves the stream at `r` (the `k` spaces and `c` are removed, nothing else) with its
flags as they were, and does not change the stored number. -/
theorem C10_symbol_token (t : Tokenizer) (k : Nat) (c : Char) (r : List Char)
    (hgood : t.in_.good = true) (hrest : t.in_.rest = spaces k ++ c :: r)
    (hc : c ∈ ['+', '-', '*', '/', '(']) :
    t.Consume.GetType = .kSymbol ∧ t.Consume.GetSymbol = c ∧ t.Consume.in_.rest = r ∧
    t.in_.rest = spaces k ++ c :: t.Consume.in_.rest ∧ t.Consume.in_.good = true ∧
    t.Consume.GetNumber = t.GetNumber := by
  have h := Consume_symbol t k c r (stream_of_good _ hgood _ hrest) hc
  refine ⟨by rw [h]; rfl, by rw [h]; rfl, by rw [h], by rw [h]; exact hrest, by rw [h]; rfl,
    by rw [h]; rfl⟩

/-- C10 at the stream ` (1`, with the stored number 5. -/
theorem C10_symbol_token_witness :
    (Tokenizer.new [' ', '(', '1'] 5 'x').Consume.GetType = .kSymbol ∧
    (Tokenizer.new [' ', '(', '1'] 5 'x').Consume.GetSymbol = '(' ∧
    (Tokenizer.new [' ', '(', '1'] 5 'x').Consume.in_.rest = ['1'] ∧
    (Tokenizer.new [' ', '(', '1'] 5 'x').Consume.GetNumber = 5 :=
  ⟨(C10_symbol_token (Tokenizer.new [' ', '(', '1'] 5 'x') 1 '(' ['1'] rfl rfl (by decide)).1,
    (C10_symbol_token (Tokenizer.new [' ', '(', '1'] 5 'x') 1 '(' ['1'] rfl rfl
      (by decide)).2.1,
    (C10_symbol_token (Tokenizer.new [' ', '(', '1'] 5 'x') 1 '(' ['1'] rfl rfl
      (by decide)).2.2.1,
    (C10_symbol_token (Tokenizer.new [' ', '(', '1'] 5 'x') 1 '(' ['1'] rfl rfl
      (by decide)).2.2.2.2.2⟩

/-! ## The tokenizer on the remaining kinds of stream -/

/-- What `Consume` does on a character that is no symbol, digit, space or closing
parenthesis: the character is extracted and the three fields keep their values. -/
theorem Consume_other (t : Tokenizer) (k : Nat) (c : Char) (r : List Char)
    (hin : t.in_ = ⟨spaces k ++ c :: r, false, false⟩) (hsym : c ∉ ['+', '-', '*', '/', '('])
    (hdig : isDigit c = false) (hclose : c ≠ ')') (hsp : c ≠ ' ') :
    t.Consume = { t with in_ := ⟨r, false, false⟩ } := by
  simp [Tokenizer.Consume, IStream.skipSpaces, hin, skipSpacesFrom_spaces_cons k c r hsp,
    peekAny_cons, hsym, peekDigit_cons, hdig, IStream.eof, IStream.get, IStream.good, hclose]

theorem skipSpacesFrom_eof (failbit : Bool) (l : List Char) :
    skipSpacesFrom true failbit l = ⟨l, true, true⟩ := by
  cases l <;> simp [skipSpacesFrom, IStream.peek, IStream.good]

/-- What `Consume` does once `eofbit` is set: the token is `End` and nothing is extracted. -/
theorem Consume_eof (t : Tokenizer) (heof : t.in_.eofbit = true) :
    t.Consume = { t with type_ := .kEnd, symbol_ := ')', in_ := ⟨t.in_.rest, true, true⟩ } := by
  have hin : t.in_ = ⟨t.in_.rest, true, t.in_.failbit⟩ := by
    cases h : t.in_ with
    | mk rest eofbit failbit => rw [h] at heof; simp only at heof; simp [heof]
  rw [Tokenizer.Consume, IStream.skipSpaces, hin]
  simp [skipSpacesFrom_eof, peekAny, peekDigit, IStream.peek, IStream.good, IStream.eof]

/-- Every list is a run of spaces followed by a list that does not start with a space. -/
theorem spaces_split (l : List Char) :
    ∃ k l', l = spaces k ++ l' ∧ ∀ c r, l' = c :: r → c ≠ ' ' := by
  induction l with
  | nil => exact ⟨0, [], rfl, by intro c r h; cases h⟩
  | cons d l ih =>
    by_cases hd : d = ' '
    · obtain ⟨k, l', hl, hl'⟩ := ih
      refine ⟨k + 1, l', ?_, hl'⟩
      rw [hl, hd]; simp [spaces, List.replicate_succ]
    · exact ⟨0, d :: l, rfl, by intro c r h; cases h; exact hd⟩

/-- Once both stream flags are set and the token is `End`, `Consume` changes nothing. -/
theorem Consume_iterate_end (n : Nat) (t : Tokenizer) (l : List Char)
    (hin : t.in_ = ⟨l, true, true⟩) (htype : t.type_ = .kEnd) (hsym : t.symbol_ = ')') :
    Tokenizer.Consume^[n] t = t := by
  induction n with
  | zero => rfl
  | succ n ih =>
    rw [Function.iterate_succ_apply, Consume_eof t (by rw [hin])]
    have : ({ t with type_ := .kEnd, symbol_ := ')', in_ := ⟨t.in_.rest, true, true⟩ } :
        Tokenizer) = t := by
      cases t with
      | mk in_ type_ number_ symbol_ =>
        simp only at hin htype hsym
        simp [hin, htype, hsym]
    rw [this, ih]

/-- What two calls of `Consume` do on a literal that ends the input: the first reads the number
and leaves the stream exhausted with `eofbit` set, the second yields `End`. -/
theorem Consume_number_end (t : Tokenizer) (k : Nat) (ds : List Char)
    (hds : literalOk ds = true) (hin : t.in_ = ⟨spaces k ++ ds, false, false⟩) :
    t.Consume = { t with type_ := .kNumber, number_ := (decimalValue ds : Nat),
                         in_ := ⟨[], true, false⟩ } ∧
    t.Consume.Consume = { t with type_ := .kEnd, number_ := (decimalValue ds : Nat),
                                 symbol_ := ')', in_ := ⟨[], true, true⟩ } := by
  obtain ⟨hne, hdig, hfit⟩ := literalOk_iff hds
  have h1 := Consume_number t k ds [] (by simpa using hin) hne hdig
    (by intro c r h; cases h) hfit
  refine ⟨by rw [h1]; rfl, ?_⟩
  rw [Consume_eof t.Consume (by rw [h1]; rfl), h1]

/-- C11: the end token. On a good stream that holds `k` spaces and then a `)`, `Consume` sets
the token kind to `End` and the symbol to `)` and removes the `)` (the stream is left at what
follows it). On a good stream that holds nothing but `k` spaces, `Consume` sets the kind to
`End` and the symbol to `)`, and no character other than the spaces is removed. On a stream
whose `eofbit` is already set, the state in which a literal that ends the input leaves it,
`Consume` sets the kind to `End` and the symbol to `)` and removes nothing. In each of the two
exhausted cases every later `Consume` leaves the tokenizer as it is, so it yields `End` again;
the stored number is kept throughout. In particular, on a stream that holds `k` spaces and a
literal that ends the input, the first `Consume` yields the number and sets `eofbit`, and the
second and every later one yield `End`. -/
theorem C11_end_token (t : Tokenizer) (k : Nat) :
    (t.in_.good = true → ∀ r : List Char, t.in_.rest = spaces k ++ ')' :: r →
      t.Consume.GetType = .kEnd ∧ t.Consume.GetSymbol = ')' ∧ t.Consume.in_.rest = r ∧
      t.Consume.GetNumber = t.GetNumber) ∧
    (t.in_.good = true → t.in_.rest = spaces k →
      t.Consume.GetType = .kEnd ∧ t.Consume.GetSymbol = ')' ∧ t.Consume.in_.rest = [] ∧
      t.Consume.GetNumber = t.GetNumber ∧
      ∀ n : Nat, Tokenizer.Consume^[n] t.Consume = t.Consume ∧
        (Tokenizer.Consume^[n] t.Consume).GetType = .kEnd) ∧
    (t.in_.eofbit = true →
      t.Consume.GetType = .kEnd ∧ t.Consume.GetSymbol = ')' ∧
      t.Consume.in_.rest = t.in_.rest ∧ t.Consume.GetNumber = t.GetNumber ∧
      ∀ n : Nat, Tokenizer.Consume^[n] t.Consume = t.Consume ∧
        (Tokenizer.Consume^[n] t.Consume).GetType = .kEnd) ∧
    (∀ ds : List Char, literalOk ds = true → t.in_.good = true → t.in_.rest = spaces k ++ ds →
      t.Consume.GetType = .kNumber ∧ t.Consume.GetNumber = (decimalValue ds : Nat) ∧
      t.Consume.in_.rest = [] ∧ t.Consume.in_.eofbit = true ∧ t.Consume.in_.good = false ∧
      t.Consume.Consume.GetType = .kEnd ∧ t.Consume.Consume.GetSymbol = ')' ∧
      t.Consume.Consume.GetNumber = (decimalValue ds : Nat) ∧
      ∀ n : Nat, (Tokenizer.Consume^[n] t.Consume.Consume).GetType = .kEnd) := by
  refine ⟨?_, ?_, ?_, ?_⟩
  · intro hgood r hrest
    have h := Consume_close t k r (stream_of_good _ hgood _ hrest)
    exact ⟨by rw [h]; rfl, by rw [h]; rfl, by rw [h], by rw [h]; rfl⟩
  · intro hgood hrest
    have h := Consume_end t k false (stream_of_good _ hgood _ hrest) (by intro h; cases h)
    have hit : ∀ n : Nat, Tokenizer.Consume^[n] t.Consume = t.Consume := fun n =>
      Consume_iterate_end n t.Consume [] (by rw [h]) (by rw [h]) (by rw [h])
    refine ⟨by rw [h]; rfl, by rw [h]; rfl, by rw [h], by rw [h]; rfl, fun n => ⟨hit n, ?_⟩⟩
    rw [hit n, h]; rfl
  · intro heof
    have h := Consume_eof t heof
    have hit : ∀ n : Nat, Tokenizer.Consume^[n] t.Consume = t.Consume := fun n =>
      Consume_iterate_end n t.Consume t.in_.rest (by rw [h]) (by rw [h]) (by rw [h])
    refine ⟨by rw [h]; rfl, by rw [h]; rfl, by rw [h], by rw [h]; rfl, fun n => ⟨hit n, ?_⟩⟩
    rw [hit n, h]; rfl
  · intro ds hds hgood hrest
    obtain ⟨h1, h2⟩ := Consume_number_end t k ds hds (stream_of_good _ hgood _ hrest)
    have hit : ∀ n : Nat, Tokenizer.Consume^[n] t.Consume.Consume = t.Consume.Consume :=
      fun n => Consume_iterate_end n t.Consume.Consume [] (by rw [h2]) (by rw [h2])
        (by rw [h2])
    refine ⟨by rw [h1]; rfl, by rw [h1]; rfl, by rw [h1], by rw [h1], by rw [h1]; rfl,
      by rw [h2]; rfl, by rw [h2]; rfl, by rw [h2]; rfl, fun n => ?_⟩
    rw [hit n, h2]; rfl

/-- C11 at the streams ` )+1` and of two spaces, at the exhausted stream with `eofbit` set that
the three tokens of `1+2` leave behind, and at the stream ` 42`. -/
theorem C11_end_token_witness :
    (Tokenizer.new [' ', ')', '+', '1'] 7 'x').Consume.GetType = .kEnd ∧
    (Tokenizer.new [' ', ')', '+', '1'] 7 'x').Consume.in_.rest = ['+', '1'] ∧
    (Tokenizer.new [' ', ' '] 7 'x').Consume.GetType = .kEnd ∧
    (Tokenizer.Consume^[3] (Tokenizer.new [' ', ' '] 7 'x').Consume).GetType = .kEnd ∧
    (Tokenizer.Consume^[3] (Tokenizer.new ['1', '+', '2'] 7 'x')).in_ = ⟨[], true, false⟩ ∧
    (Tokenizer.Consume^[3] (Tokenizer.new ['1', '+', '2'] 7 'x')).Consume.GetType = .kEnd ∧
    (Tokenizer.Consume^[3] (Tokenizer.new ['1', '+', '2'] 7 'x')).Consume.GetSymbol = ')' ∧
    (Tokenizer.new [' ', '4', '2'] 7 'x').Consume.GetType = .kNumber ∧
    (Tokenizer.new [' ', '4', '2'] 7 'x').Consume.Consume.GetType = .kEnd :=
  ⟨((C11_end_token (Tokenizer.new [' ', ')', '+', '1'] 7 'x') 1).1 rfl ['+', '1'] rfl).1,
    ((C11_end_token (Tokenizer.new [' ', ')', '+', '1'] 7 'x') 1).1 rfl ['+', '1'] rfl).2.2.1,
    ((C11_end_token (Tokenizer.new [' ', ' '] 7 'x') 2).2.1 rfl rfl).1,
    (((C11_end_token (Tokenizer.new [' ', ' '] 7 'x') 2).2.1 rfl rfl).2.2.2.2 3).2,
    by decide,
    ((C11_end_token (Tokenizer.Consume^[3] (Tokenizer.new ['1', '+', '2'] 7 'x')) 0).2.2.1
      (by decide)).1,
    ((C11_end_token (Tokenizer.Consume^[3] (Tokenizer.new ['1', '+', '2'] 7 'x')) 0).2.2.1
      (by decide)).2.1,
    ((C11_end_token (Tokenizer.new [' ', '4', '2'] 7 'x') 1).2.2.2 ['4', '2'] (by decide) rfl
      rfl).1,
    ((C11_end_token (Tokenizer.new [' ', '4', '2'] 7 'x') 1).2.2.2 ['4', '2'] (by decide) rfl
      rfl).2.2.2.2.2.1⟩

/-- C12: an unrecognized character. On a good stream that holds `k` spaces and then a
character `c` that is none of `+ - * / ( )`, no decimal digit and no space, `Consume` leaves
the token kind, the stored number and the stored symbol at their prior values; the character
itself is extracted from the stream. -/
theorem C12_unrecognized_character (t : Tokenizer) (k : Nat) (c : Char) (r : List Char)
    (hgood : t.in_.good = true) (hrest : t.in_.rest = spaces k ++ c :: r)
    (hsym : c ∉ ['+', '-', '*', '/', '(', ')']) (hdig : isDigit c = false) (hsp : c ≠ ' ') :
    t.Consume.GetType = t.GetType ∧ t.Consume.GetNumber = t.GetNumber ∧
    t.Consume.GetSymbol = t.GetSymbol ∧ t.Consume.in_.rest = r := by
  have hsym' : c ∉ ['+', '-', '*', '/', '('] := by
    intro h; apply hsym
    simp only [List.mem_cons, List.mem_singleton, List.not_mem_nil, or_false] at h ⊢
    tauto
  have hclose : c ≠ ')' := by
    rintro rfl; exact hsym (by decide)
  have h := Consume_other t k c r (stream_of_good _ hgood _ hrest) hsym' hdig hclose hsp
  exact ⟨by rw [h]; rfl, by rw [h]; rfl, by rw [h]; rfl, by rw [h]⟩

/-- C12 at the stream ` a+1` after the token `7`. -/
theorem C12_unrecognized_character_witness :
    (Tokenizer.mk ⟨[' ', 'a', '+', '1'], false, false⟩ .kNumber 7 '*').Consume.GetType =
      .kNumber ∧
    (Tokenizer.mk ⟨[' ', 'a', '+', '1'], false, false⟩ .kNumber 7 '*').Consume.GetNumber = 7 ∧
    (Tokenizer.mk ⟨[' ', 'a', '+', '1'], false, false⟩ .kNumber 7 '*').Consume.GetSymbol =
      '*' ∧
    (Tokenizer.mk ⟨[' ', 'a', '+', '1'], false, false⟩ .kNumber 7 '*').Consume.in_.rest =
      ['+', '1'] :=
  C12_unrecognized_character (Tokenizer.mk ⟨[' ', 'a', '+', '1'], false, false⟩ .kNumber 7 '*')
    1 'a' ['+', '1'] rfl rfl (by decide) (by decide) (by decide)

/-! ## Determinism and wrapper nodes -/

/-- C13: determinism. For every well-formed expression `e` (literals in range), parsing the
text of `e`, followed by any number of spaces, returns the tree of `e` whatever the first
contents of `number_` and `symbol_` are: the two fields have no influence, as neither is read
before `Consume` has set it. Two runs on the same text, with any first contents and any
sufficient fuel, therefore return the same result, `e.value`. -/
theorem C13_determinism (e : GExpr) (hwf : e.wf = true) (k fuel fuel' : Nat)
    (hfuel : e.size ≤ fuel) (hfuel' : e.size ≤ fuel') (number0 number0' : Int)
    (symbol0 symbol0' : Char) :
    ParseAndEvaluate fuel (String.mk (e.text ++ spaces k)) number0 symbol0 =
      ParseAndEvaluate fuel' (String.mk (e.text ++ spaces k)) number0' symbol0' ∧
    ParseAndEvaluate fuel (String.mk (e.text ++ spaces k)) number0 symbol0 = some e.value ∧
    (∃ tok tok',
      ParseExpression fuel (Tokenizer.new (e.text ++ spaces k) number0 symbol0) =
        some (e.tree, tok) ∧
      ParseExpression fuel' (Tokenizer.new (e.text ++ spaces k) number0' symbol0') =
        some (e.tree, tok')) := by
  obtain ⟨tok, htok⟩ := ParseExpression_text e hwf k fuel hfuel number0 symbol0
  obtain ⟨tok', htok'⟩ := ParseExpression_text e hwf k fuel' hfuel' number0' symbol0'
  refine ⟨?_, ParseAndEvaluate_text e hwf k fuel hfuel number0 symbol0, tok, tok', htok, htok'⟩
  rw [ParseAndEvaluate_text e hwf k fuel hfuel number0 symbol0,
    ParseAndEvaluate_text e hwf k fuel' hfuel' number0' symbol0']

/-- C13 at `-(1+ 2)*3 /2 - 4`, followed by one space, with two different first contents. -/
theorem C13_determinism_witness :
    sampleExpr.wf = true ∧ sampleExpr.size ≤ 30 ∧
    ParseAndEvaluate 30 "-(1+ 2)*3 /2 - 4 " 0 'x' =
      ParseAndEvaluate 35 "-(1+ 2)*3 /2 - 4 " 12345 '+' :=
  ⟨by decide, by decide,
    (C13_determinism sampleExpr (by decide) 1 30 35 (by decide) (by decide) 0 12345 'x' '+').1⟩

/-- The tree that the loop of `ParseTerm` returns is a wrapper node: operator `' '`, no right
child. -/
theorem ParseTermLoop_wrapper (fuel : Nat) : ∀ (lhs : Expression) (tok : Tokenizer)
    (tree : Expression) (tok' : Tokenizer), ParseTermLoop fuel lhs tok = some (tree, tok') →
    ∃ inner, tree = .Operation ' ' inner .nullptr := by
  induction fuel with
  | zero => intro lhs tok tree tok' h; simp [ParseTermLoop] at h
  | succ f ih =>
    intro lhs tok tree tok' h
    rw [ParseTermLoop] at h
    split at h
    · split at h
      · cases h
      · exact ih _ _ _ _ h
    · simp only [Option.some.injEq, Prod.mk.injEq] at h
      exact ⟨lhs, h.1.symm⟩

/-- The tree that the loop of `ParseExpression` returns is a wrapper node. -/
theorem ParseExpressionLoop_wrapper (fuel : Nat) : ∀ (lhs : Expression) (tok : Tokenizer)
    (tree : Expression) (tok' : Tokenizer),
    ParseExpressionLoop fuel lhs tok = some (tree, tok') →
    ∃ inner, tree = .Operation ' ' inner .nullptr := by
  induction fuel with
  | zero => intro lhs tok tree tok' h; simp [ParseExpressionLoop] at h
  | succ f ih =>
    intro lhs tok tree tok' h
    rw [ParseExpressionLoop] at h
    split at h
    · split at h
      · cases h
      · exact ih _ _ _ _ h
    · simp only [Option.some.injEq, Prod.mk.injEq] at h
      exact ⟨lhs, h.1.symm⟩

theorem ParseTerm_wrapper (fuel : Nat) (tok : Tokenizer) (tree : Expression)
    (tok' : Tokenizer) (h : ParseTerm fuel tok = some (tree, tok')) :
    ∃ inner, tree = .Operation ' ' inner .nullptr := by
  cases fuel with
  | zero => simp [ParseTerm] at h
  | succ f =>
    rw [ParseTerm] at h
    split at h
    · cases h
    · exact ParseTermLoop_wrapper f _ _ _ _ h

theorem ParseExpression_wrapper (fuel : Nat) (tok : Tokenizer) (tree : Expression)
    (tok' : Tokenizer) (h : ParseExpression fuel tok = some (tree, tok')) :
    ∃ inner, tree = .Operation ' ' inner .nullptr := by
  cases fuel with
  | zero => simp [ParseExpression] at h
  | succ f =>
    rw [ParseExpression] at h
    split at h
    · cases h
    · exact ParseExpressionLoop_wrapper f _ _ _ _ h

/-- C14: pass-through evaluation. An `Operation` node without right child evaluates to exactly
what its left child evaluates to, whatever its operator character. Every tree that `ParseTerm`
or `ParseExpression` returns, on any input, is such a node around the unit or the finished
fold, so the wrapper does not change the value. -/
theorem C14_pass_through (op : Char) (l : Expression) :
    Evaluate (.Operation op l .nullptr) = Evaluate l ∧
    (∀ (fuel : Nat) (tok : Tokenizer) (tree : Expression) (tok' : Tokenizer),
      ParseTerm fuel tok = some (tree, tok') →
      ∃ inner, tree = .Operation ' ' inner .nullptr ∧ Evaluate tree = Evaluate inner) ∧
    (∀ (fuel : Nat) (tok : Tokenizer) (tree : Expression) (tok' : Tokenizer),
      ParseExpression fuel tok = some (tree, tok') →
      ∃ inner, tree = .Operation ' ' inner .nullptr ∧ Evaluate tree = Evaluate inner) := by
  refine ⟨Evaluate_wrapper op l, ?_, ?_⟩
  · intro fuel tok tree tok' h
    obtain ⟨inner, rfl⟩ := ParseTerm_wrapper fuel tok tree tok' h
    exact ⟨inner, rfl, Evaluate_wrapper _ _⟩
  · intro fuel tok tree tok' h
    obtain ⟨inner, rfl⟩ := ParseExpression_wrapper fuel tok tree tok' h
    exact ⟨inner, rfl, Evaluate_wrapper _ _⟩

/-- C14 at a wrapper with operator `/` around the leaf 5, and at the tree that `ParseTerm`
returns on `7`. -/
theorem C14_pass_through_witness :
    Evaluate (.Operation '/' (.Number 5) .nullptr) = some 5 ∧
    ∃ inner, Expression.Operation ' ' (.Operation '*' (.Number 1) (.Number 7)) .nullptr =
      .Operation ' ' inner .nullptr ∧
      Evaluate (.Operation ' ' (.Operation '*' (.Number 1) (.Number 7)) .nullptr) =
        Evaluate inner :=
  ⟨(C14_pass_through '/' (.Number 5)).1,
    (C14_pass_through '/' (.Number 5)).2.1 5 (Tokenizer.new ['7'] 0 ' ') _
      ⟨⟨[], true, true⟩, .kEnd, 7, ')'⟩ (by decide)⟩

/-! ## What the loops leave as current token -/

theorem AdditiveChain.trans {a b c : Expression} (hab : AdditiveChain a b)
    (hbc : AdditiveChain b c) : AdditiveChain a c := by
  induction hbc with
  | base => exact hab
  | step op x rhs _ hop ih => exact .step op x rhs ih hop

/-- When the loop of `ParseTerm` returns, the current token is `End`, or its symbol is `+`
or `-`. -/
theorem ParseTermLoop_stop (fuel : Nat) : ∀ (lhs : Expression) (tok : Tokenizer)
    (tree : Expression) (tok' : Tokenizer), ParseTermLoop fuel lhs tok = some (tree, tok') →
    tok'.GetType = .kEnd ∨ tok'.GetSymbol = '+' ∨ tok'.GetSymbol = '-' := by
  induction fuel with
  | zero => intro lhs tok tree tok' h; simp [ParseTermLoop] at h
  | succ f ih =>
    intro lhs tok tree tok' h
    rw [ParseTermLoop] at h
    split at h
    · split at h
      · cases h
      · exact ih _ _ _ _ h
    · rename_i hc
      simp only [Option.some.injEq, Prod.mk.injEq] at h
      rw [← h.2]
      by_cases h1 : tok.GetType = .kEnd
      · exact Or.inl h1
      · by_cases h2 : tok.GetSymbol = '+'
        · exact Or.inr (Or.inl h2)
        · by_cases h3 : tok.GetSymbol = '-'
          · exact Or.inr (Or.inr h3)
          · exact absurd ⟨h1, h2, h3⟩ hc

theorem ParseTerm_stop (fuel : Nat) (tok : Tokenizer) (tree : Expression) (tok' : Tokenizer)
    (h : ParseTerm fuel tok = some (tree, tok')) :
    tok'.GetType = .kEnd ∨ tok'.GetSymbol = '+' ∨ tok'.GetSymbol = '-' := by
  cases fuel with
  | zero => simp [ParseTerm] at h
  | succ f =>
    rw [ParseTerm] at h
    split at h
    · cases h
    · exact ParseTermLoop_stop f _ _ _ _ h

/-- When the loop of `ParseExpression` returns, the current token is `End`, and the tree is
the one it started from wrapped in nodes whose operators are `+` or `-`. -/
theorem ParseExpressionLoop_additive (fuel : Nat) : ∀ (lhs : Expression) (tok : Tokenizer)
    (tree : Expression) (tok' : Tokenizer),
    (tok.GetType = .kEnd ∨ tok.GetSymbol = '+' ∨ tok.GetSymbol = '-') →
    ParseExpressionLoop fuel lhs tok = some (tree, tok') →
    tok'.GetType = .kEnd ∧ ∃ x, tree = .Operation ' ' x .nullptr ∧ AdditiveChain lhs x := by
  induction fuel with
  | zero => intro lhs tok tree tok' _ h; simp [ParseExpressionLoop] at h
  | succ f ih =>
    intro lhs tok tree tok' htok h
    rw [ParseExpressionLoop] at h
    split at h
    · rename_i hc
      split at h
      · cases h
      · rename_i rhs tok1 hpt
        have hop : tok.GetSymbol = '+' ∨ tok.GetSymbol = '-' := by
          rcases htok with h1 | h2
          · exact absurd h1 hc
          · exact h2
        obtain ⟨hend, x, hx, hchain⟩ := ih _ _ _ _ (ParseTerm_stop f _ _ _ hpt) h
        exact ⟨hend, x, hx, (AdditiveChain.step _ lhs rhs .base hop).trans hchain⟩
    · rename_i hc
      simp only [Option.some.injEq, Prod.mk.injEq] at h
      refine ⟨?_, lhs, h.1.symm, .base⟩
      rw [← h.2]
      simpa using hc

/-- C17: additive operators only at expression level. On every input, whenever `ParseTerm`
returns, the current token is `End` or its symbol is `+` or `-`. Whenever `ParseExpression`
returns, the current token kind is `End`, and its tree is a wrapper around the tree of its
first term wrapped, as left child, in binary nodes whose operator characters are all `+` or
`-`: these are the nodes that `ParseExpression` stores. -/
theorem C17_additive_only (fuel : Nat) (tok : Tokenizer) (tree : Expression)
    (tok' : Tokenizer) :
    (ParseTerm fuel tok = some (tree, tok') →
      tok'.GetType = .kEnd ∨ tok'.GetSymbol = '+' ∨ tok'.GetSymbol = '-') ∧
    (ParseExpression fuel tok = some (tree, tok') →
      tok'.GetType = .kEnd ∧
      ∃ term tok1 x, ParseTerm (fuel - 1) tok = some (term, tok1) ∧
        tree = .Operation ' ' x .nullptr ∧ AdditiveChain term x) := by
  refine ⟨ParseTerm_stop fuel tok tree tok', ?_⟩
  intro h
  cases fuel with
  | zero => simp [ParseExpression] at h
  | succ f =>
    rw [ParseExpression] at h
    split at h
    · cases h
    · rename_i term tok1 hpt
      obtain ⟨hend, x, hx, hchain⟩ :=
        ParseExpressionLoop_additive f _ _ _ _ (ParseTerm_stop f _ _ _ hpt) h
      exact ⟨hend, term, tok1, x, by simpa using hpt, hx, hchain⟩

/-! ## Units that end a text, and units without a number -/

/-- What `ParseUnit` does on a number followed by a closing parenthesis. -/
theorem ParseUnit_number_close (f : Nat) (t : Tokenizer) (ds r : List Char)
    (hin : t.in_ = ⟨ds ++ ')' :: r, false, false⟩) (hds : literalOk ds = true) :
    ParseUnit (f + 1) t = some ((litUnit ds).tree,
      ⟨⟨r, false, false⟩, .kEnd, (decimalValue ds : Nat), ')'⟩) := by
  obtain ⟨hne, hdig, hfit⟩ := literalOk_iff hds
  have h1 := Consume_number t 0 ds (')' :: r) (by simpa [spaces] using hin) hne hdig
    (by intro c r' h; cases h; decide) hfit
  simp only [List.isEmpty_cons] at h1
  have h2 := Consume_close t.Consume 0 r (by rw [h1]; rfl)
  rw [h1] at h2
  simp [ParseUnit, h1, h2, Tokenizer.GetType, Tokenizer.GetSymbol, Tokenizer.GetNumber,
    litUnit, GUnit.tree, signOf]

/-- What `ParseUnit` does when the first token is not a number but the end of the stream, a
`)` or one of the operators `+`, `*`, `/`: the unit is built from the number that the
tokenizer already holds. -/
theorem ParseUnit_reuse (f : Nat) (t : Tokenizer) (k : Nat) (F0 : List Char)
    (hin : t.in_ = ⟨spaces k ++ F0, false, false⟩)
    (hF0 : F0 = [] ∨ ∃ c r, F0 = c :: r ∧ c ∈ ['+', '*', '/', ')']) :
    ParseUnit (f + 1) t =
      some (.Operation '*' (.Number 1) (.Number t.GetNumber), t.Consume.Consume) := by
  rcases hF0 with rfl | ⟨c, r, rfl, hc⟩
  · have h := Consume_end t k false (by simpa using hin) (by intro h; cases h)
    simp [ParseUnit, h, Tokenizer.GetType, Tokenizer.GetSymbol, Tokenizer.GetNumber]
  · simp only [List.mem_cons, List.mem_singleton, List.not_mem_nil, or_false] at hc
    rcases hc with rfl | rfl | rfl | rfl
    · have h := Consume_symbol t k '+' r hin (by decide)
      simp [ParseUnit, h, Tokenizer.GetType, Tokenizer.GetSymbol, Tokenizer.GetNumber]
    · have h := Consume_symbol t k '*' r hin (by decide)
      simp [ParseUnit, h, Tokenizer.GetType, Tokenizer.GetSymbol, Tokenizer.GetNumber]
    · have h := Consume_symbol t k '/' r hin (by decide)
      simp [ParseUnit, h, Tokenizer.GetType, Tokenizer.GetSymbol, Tokenizer.GetNumber]
    · have h := Consume_close t k r hin
      simp [ParseUnit, h, Tokenizer.GetType, Tokenizer.GetSymbol, Tokenizer.GetNumber]

/-- What `ParseUnit` does when a `-` is followed by no number but by the end of the stream, a
`)` or an operator: the unit is the negated number that the tokenizer already holds. -/
theorem ParseUnit_reuse_neg (f : Nat) (t : Tokenizer) (k k2 : Nat) (F0 : List Char)
    (hin : t.in_ = ⟨spaces k ++ '-' :: (spaces k2 ++ F0), false, false⟩)
    (hF0 : F0 = [] ∨ ∃ c r, F0 = c :: r ∧ c ∈ ['+', '-', '*', '/', ')']) :
    ParseUnit (f + 1) t =
      some (.Operation '*' (.Number (-1)) (.Number t.GetNumber), t.Consume.Consume.Consume) := by
  rcases hF0 with rfl | ⟨c, r, rfl, hc⟩
  · simp only [List.append_nil] at hin
    have h1 := Consume_symbol t k '-' _ hin (by decide)
    have h := Consume_end t.Consume k2 false (by rw [h1]) (by intro h; cases h)
    rw [h1] at h
    simp [ParseUnit, h1, h, Tokenizer.GetType, Tokenizer.GetSymbol, Tokenizer.GetNumber]
  · have h1 := Consume_symbol t k '-' _ hin (by decide)
    simp only [List.mem_cons, List.mem_singleton, List.not_mem_nil, or_false] at hc
    rcases hc with rfl | rfl | rfl | rfl | rfl
    · have h := Consume_symbol t.Consume k2 '+' r (by rw [h1]) (by decide)
      rw [h1] at h
      simp [ParseUnit, h1, h, Tokenizer.GetType, Tokenizer.GetSymbol, Tokenizer.GetNumber]
    · have h := Consume_symbol t.Consume k2 '-' r (by rw [h1]) (by decide)
      rw [h1] at h
      simp [ParseUnit, h1, h, Tokenizer.GetType, Tokenizer.GetSymbol, Tokenizer.GetNumber]
    · have h := Consume_symbol t.Consume k2 '*' r (by rw [h1]) (by decide)
      rw [h1] at h
      simp [ParseUnit, h1, h, Tokenizer.GetType, Tokenizer.GetSymbol, Tokenizer.GetNumber]
    · have h := Consume_symbol t.Consume k2 '/' r (by rw [h1]) (by decide)
      rw [h1] at h
      simp [ParseUnit, h1, h, Tokenizer.GetType, Tokenizer.GetSymbol, Tokenizer.GetNumber]
    · have h := Consume_close t.Consume k2 r (by rw [h1])
      rw [h1] at h
      simp [ParseUnit, h1, h, Tokenizer.GetType, Tokenizer.GetSymbol, Tokenizer.GetNumber]

/-- The tree that `ParseExpression` returns on `a(b)`: the `(` is the operator of a binary
node over the two units. -/
theorem ParseExpression_call (f : Nat) (da db : List Char) (ha : literalOk da = true)
    (hb : literalOk db = true) (number0 : Int) (symbol0 : Char) :
    ParseExpression (f + 4) (Tokenizer.new (da ++ '(' :: (db ++ [')'])) number0 symbol0) =
      some (.Operation ' ' (.Operation ' '
          (.Operation '(' (litUnit da).tree (litUnit db).tree) .nullptr) .nullptr,
        ⟨⟨[], false, false⟩, .kEnd, (decimalValue db : Nat), ')'⟩) := by
  have h1 := ParseUnit_number_symbol (f + 1)
    (Tokenizer.new (da ++ '(' :: (db ++ [')'])) number0 symbol0) da '(' (db ++ [')']) rfl ha
    (by decide)
  have h2 := ParseUnit_number_close f
    ⟨⟨db ++ [')'], false, false⟩, .kSymbol, (decimalValue da : Nat), '('⟩ db [] rfl hb
  simp [ParseExpression, ParseTerm, ParseTermLoop, ParseExpressionLoop, h1, h2,
    Tokenizer.GetType, Tokenizer.GetSymbol, litUnit, GUnit.tree, signOf]

/-- C17 at the input `2*3+4`: `ParseTerm` returns at the token `+`, `ParseExpression` at
`End`. -/
theorem C17_additive_only_witness :
    ((Tokenizer.mk ⟨['4'], false, false⟩ .kSymbol 3 '+').GetType = .kEnd ∨
      (Tokenizer.mk ⟨['4'], false, false⟩ .kSymbol 3 '+').GetSymbol = '+' ∨
      (Tokenizer.mk ⟨['4'], false, false⟩ .kSymbol 3 '+').GetSymbol = '-') ∧
    (Tokenizer.mk ⟨[], true, true⟩ .kEnd 4 ')').GetType = .kEnd :=
  ⟨(C17_additive_only 10 (Tokenizer.new ['2', '*', '3', '+', '4'] 0 ' ')
      (GTerm.mk (litUnit ['2']) (.cons 0 false (litUnit ['3']) .nil)).tree
      (Tokenizer.mk ⟨['4'], false, false⟩ .kSymbol 3 '+')).1 (by decide),
    ((C17_additive_only 10 (Tokenizer.new ['2', '*', '3', '+', '4'] 0 ' ') productPlus.tree
      (Tokenizer.mk ⟨[], true, true⟩ .kEnd 4 ')')).2 (by decide)).1⟩

/-! ## Operators that are not checked -/

/-- C15: the permissive multiplicative operator. At the head of its loop, `ParseTerm` takes
any current token that is not `End` and whose symbol is neither `+` nor `-` as an operator:
it parses one more unit and stores the current symbol, unchecked, as the operator of the
binary node. For all literals `a`, `b` that fit in `int64_t` the input `a(b)` is accepted:
the tree holds a binary node with operator `(` over the units `a` and `b`. -/
theorem C15_permissive_operator (f : Nat) (lhs : Expression) (tok : Tokenizer)
    (htype : tok.GetType ≠ .kEnd) (hadd : tok.GetSymbol ≠ '+') (hsub : tok.GetSymbol ≠ '-')
    (da db : List Char) (ha : literalOk da = true) (hb : literalOk db = true) (number0 : Int)
    (symbol0 : Char) :
    ParseTermLoop (f + 1) lhs tok =
      (match ParseUnit f tok with
        | none => none
        | some (rhs, tok1) => ParseTermLoop f (.Operation tok.GetSymbol lhs rhs) tok1) ∧
    ∃ tok', ParseExpression (f + 4)
        (Tokenizer.new (da ++ '(' :: (db ++ [')'])) number0 symbol0) =
      some (.Operation ' ' (.Operation ' '
        (.Operation '(' (.Operation '*' (.Number 1) (.Number (decimalValue da : Nat)))
          (.Operation '*' (.Number 1) (.Number (decimalValue db : Nat)))) .nullptr) .nullptr,
        tok') := by
  constructor
  · rw [ParseTermLoop, if_pos ⟨htype, hadd, hsub⟩]
  · exact ⟨_, ParseExpression_call f da db ha hb number0 symbol0⟩

/-- C15 at the current token `(` and at the input `6(3)`. -/
theorem C15_permissive_operator_witness :
    ParseTermLoop 3 (.Number 6) (Tokenizer.mk ⟨['3', ')'], false, false⟩ .kSymbol 6 '(') =
      (match ParseUnit 2 (Tokenizer.mk ⟨['3', ')'], false, false⟩ .kSymbol 6 '(') with
        | none => none
        | some (rhs, tok1) => ParseTermLoop 2
            (.Operation (Tokenizer.mk ⟨['3', ')'], false, false⟩ .kSymbol 6 '(').GetSymbol
              (.Number 6) rhs) tok1) ∧
    ∃ tok', ParseExpression 6 (Tokenizer.new ['6', '(', '3', ')'] 0 ' ') =
      some (.Operation ' ' (.Operation ' '
        (.Operation '(' (.Operation '*' (.Number 1) (.Number 6))
          (.Operation '*' (.Number 1) (.Number 3))) .nullptr) .nullptr, tok') :=
  C15_permissive_operator 2 (.Number 6)
    (Tokenizer.mk ⟨['3', ')'], false, false⟩ .kSymbol 6 '(') (by decide) (by decide)
    (by decide) ['6'] ['3'] (by decide) (by decide) 0 ' '

/-- The operator dispatch falls through to the division for every operator other than `+`,
`-`, `*`. -/
theorem Evaluate_division (op : Char) (l r : Expression) (a b : Int)
    (hr : r.isNull = false) (hadd : op ≠ '+') (hsub : op ≠ '-') (hmul : op ≠ '*')
    (hl : Evaluate l = some a) (hrv : Evaluate r = some b) (hb : b ≠ 0)
    (hmin : INT64_MIN ≤ Int.tdiv a b) (hmax : Int.tdiv a b ≤ INT64_MAX) :
    Evaluate (.Operation op l r) = some (Int.tdiv a b) := by
  rw [Evaluate_binary op l r hr, hl, hrv]
  simp [applyOperation, hadd, hsub, hmul, hb, int64, hmin, hmax]

theorem Evaluate_litUnit (ds : List Char) (h : literalOk ds = true) :
    Evaluate (litUnit ds).tree = some ((decimalValue ds : Nat) : Int) := by
  rw [unit_Evaluate_tree (litUnit ds) (by simpa [litUnit, GUnit.wf] using h)]
  simp [litUnit, GUnit.value, refNeg]

theorem call_eval (f : Nat) (da db : List Char) (ha : literalOk da = true)
    (hb : literalOk db = true) (hb0 : decimalValue db ≠ 0) (number0 : Int) (symbol0 : Char) :
    ParseAndEvaluate (f + 4) (String.mk (da ++ '(' :: (db ++ [')']))) number0 symbol0 =
      some (some ((decimalValue da / decimalValue db : Nat) : Int)) := by
  have hs : (String.mk (da ++ '(' :: (db ++ [')']))).toList = da ++ '(' :: (db ++ [')']) := rfl
  have ha1 := literalOk_le ha
  have h1 : decimalValue da / decimalValue db ≤ decimalValue da := Nat.div_le_self _ _
  rw [ParseAndEvaluate, hs, ParseExpression_call f da db ha hb number0 symbol0]
  simp only [Option.map_some', Evaluate_wrapper]
  rw [Evaluate_division '(' _ _ _ _ (unit_tree_isNull _) (by decide) (by decide) (by decide)
    (Evaluate_litUnit da ha) (Evaluate_litUnit db hb) (by exact_mod_cast hb0)
    (by rw [← Int.ofNat_tdiv]; exact le_trans (by decide) (Int.ofNat_nonneg _))
    (by rw [← Int.ofNat_tdiv]; generalize decimalValue da / decimalValue db = q at h1 ⊢; omega),
    ← Int.ofNat_tdiv]

/-- C18 as stated fails: a node with operator `(` over the values `INT64_MIN` and `-1`, and
the input `(-9223372036854775807-1)(-1)` that is parsed into such a node, have no defined
value, since the quotient `9223372036854775808` overflows; nor has a node with a right
operand of value 0, for which there is no quotient. -/
theorem C18_other_operator_divides_counterexample :
    Evaluate (.Operation '(' (.Number (-9223372036854775808)) (.Number (-1))) = none ∧
    Int.tdiv (-9223372036854775808) (-1) = 9223372036854775808 ∧
    ParseAndEvaluate 20 "(-9223372036854775807-1)(-1)" 0 ' ' = some none ∧
    Evaluate (.Operation '(' (.Number 6) (.Number 0)) = none := by
  refine ⟨by decide, by decide, by decide, by decide⟩

/-- C18, amended: any operator other than `+`, `-`, `*` is evaluated as division. For every
`Operation` node with both children and an operator character that is not `+`, `-` or `*`,
whose right child has a value other than 0 and for which the truncating quotient of the left
value by the right value fits in `int64_t`, `Evaluate` returns that quotient. For all
literals `a`, `b` that fit in `int64_t`, `b` not zero, the input `a(b)` evaluates to `a/b`;
`6(3)` gives 2. -/
theorem C18_other_operator_divides (op : Char) (l r : Expression) (a b : Int)
    (hr : r.isNull = false) (hadd : op ≠ '+') (hsub : op ≠ '-') (hmul : op ≠ '*')
    (hl : Evaluate l = some a) (hrv : Evaluate r = some b) (hb : b ≠ 0)
    (hmin : INT64_MIN ≤ Int.tdiv a b) (hmax : Int.tdiv a b ≤ INT64_MAX)
    (f : Nat) (da db : List Char) (hda : literalOk da = true) (hdb : literalOk db = true)
    (hdb0 : decimalValue db ≠ 0) (number0 : Int) (symbol0 : Char) :
    Evaluate (.Operation op l r) = some (Int.tdiv a b) ∧
    ParseAndEvaluate (f + 4) (String.mk (da ++ '(' :: (db ++ [')']))) number0 symbol0 =
      some (some ((decimalValue da / decimalValue db : Nat) : Int)) ∧
    ParseAndEvaluate (f + 4) "6(3)" number0 symbol0 = some (some 2) :=
  ⟨Evaluate_division op l r a b hr hadd hsub hmul hl hrv hb hmin hmax,
    call_eval f da db hda hdb hdb0 number0 symbol0,
    call_eval f ['6'] ['3'] (by decide) (by decide) (by decide) number0 symbol0⟩

/-- C18, amended, at the node with the initial operator `' '` over -7 and 2, and at the input
`17(5)`. -/
theorem C18_other_operator_divides_witness :
    Evaluate (.Operation ' ' (.Number (-7)) (.Number 2)) = some (-3) ∧
    ParseAndEvaluate 4 "17(5)" 0 ' ' = some (some 3) :=
  ⟨(C18_other_operator_divides ' ' (.Number (-7)) (.Number 2) (-7) 2 rfl (by decide)
      (by decide) (by decide) rfl rfl (by decide) (by decide) (by decide) 0 ['1', '7'] ['5']
      (by decide) (by decide) (by decide) 0 ' ').1,
    (C18_other_operator_divides ' ' (.Number (-7)) (.Number 2) (-7) 2 rfl (by decide)
      (by decide) (by decide) rfl rfl (by decide) (by decide) (by decide) 0 ['1', '7'] ['5']
      (by decide) (by decide) (by decide) 0 ' ').2.1⟩

/-! ## A missing operand -/

/-- The tree that `ParseExpression` returns on `n+`: the stored number `n` is both operands. -/
theorem ParseExpression_missing_operand (f : Nat) (ds : List Char) (hn : literalOk ds = true)
    (number0 : Int) (symbol0 : Char) :
    ParseExpression (f + 4) (Tokenizer.new (ds ++ ['+']) number0 symbol0) =
      some (.Operation ' ' (.Operation '+'
          (.Operation ' ' (.Operation '*' (.Number 1) (.Number (decimalValue ds : Nat)))
            .nullptr)
          (.Operation ' ' (.Operation '*' (.Number 1) (.Number (decimalValue ds : Nat)))
            .nullptr)) .nullptr,
        ⟨⟨[], true, true⟩, .kEnd, (decimalValue ds : Nat), ')'⟩) := by
  have h1 := ParseUnit_number_symbol (f + 1) (Tokenizer.new (ds ++ ['+']) number0 symbol0)
    ds '+' [] rfl hn (by decide)
  have h3 := Consume_end ⟨⟨[], false, false⟩, .kSymbol, (decimalValue ds : Nat), '+'⟩ 0 false
    rfl (by intro h; cases h)
  have h4 := Consume_eof ⟨⟨[], true, true⟩, .kEnd, (decimalValue ds : Nat), ')'⟩ rfl
  have h2 := ParseUnit_reuse f ⟨⟨[], false, false⟩, .kSymbol, (decimalValue ds : Nat), '+'⟩
    0 [] rfl (Or.inl rfl)
  rw [h3, h4] at h2
  simp [ParseExpression, ParseTerm, ParseTermLoop, ParseExpressionLoop, h1, h2,
    Tokenizer.GetType, Tokenizer.GetSymbol, Tokenizer.GetNumber]

theorem missing_operand_eval (f : Nat) (ds : List Char) (hn : literalOk ds = true)
    (hfit : (decimalValue ds : Int) + decimalValue ds ≤ INT64_MAX) (number0 : Int)
    (symbol0 : Char) :
    ParseAndEvaluate (f + 4) (String.mk (ds ++ ['+'])) number0 symbol0 =
      some (some ((decimalValue ds : Int) + decimalValue ds)) := by
  have hs : (String.mk (ds ++ ['+'])).toList = ds ++ ['+'] := rfl
  have h0 : (0 : Int) ≤ (decimalValue ds : Nat) := Int.ofNat_nonneg _
  have h1 := literalOk_le hn
  rw [ParseAndEvaluate, hs, ParseExpression_missing_operand f ds hn number0 symbol0]
  have hu : Evaluate (.Operation '*' (.Number 1) (.Number (decimalValue ds : Nat))) =
      some ((decimalValue ds : Nat) : Int) := by
    simpa [litUnit, GUnit.tree, signOf] using Evaluate_litUnit ds hn
  simp only [Option.map_some', Evaluate_wrapper]
  rw [Evaluate_binary '+' _ (.Operation ' ' _ .nullptr) rfl]
  simp only [Evaluate_wrapper, hu, Option.some_bind, applyOperation, if_true]
  rw [int64_of_inRange (by unfold INT64_MIN; omega) hfit]

/-- C19 as stated fails: on `9223372036854775807+`, a literal that fits in `int64_t`, the sum
of the literal with itself overflows, so the evaluation has no defined result and in
particular not `n+n`. -/
theorem C19_missing_operand_counterexample :
    ParseAndEvaluate 10 "9223372036854775807+" 0 ' ' = some none ∧
    ParseAndEvaluate 10 "9223372036854775807+" 0 ' ' ≠
      some (some (9223372036854775807 + 9223372036854775807)) := by
  constructor <;> decide

/-- C19, amended: a missing operand silently reuses the last number. When `ParseUnit` is
entered on a good stream and the token it reads, after an optional `-`, is not a number but
the end of the stream, a `)` or an operator (`+`, `*`, `/`, and `-` after a `-`), it returns
the unit `sign * n`, where `n` is the number that the tokenizer held on entry, instead of
failing. For every literal `n` that fits in `int64_t` and whose double fits too, the input
`n+` evaluates to `n+n`; `2+` gives 4 and `2++3` gives 7. -/
theorem C19_missing_operand (f : Nat) (t : Tokenizer) (k k2 : Nat) (F0 : List Char)
    (hF0 : F0 = [] ∨ ∃ c r, F0 = c :: r ∧ c ∈ ['+', '*', '/', ')']) (ds : List Char)
    (hn : literalOk ds = true) (number0 : Int) (symbol0 : Char) :
    (t.in_ = ⟨spaces k ++ F0, false, false⟩ →
      ParseUnit (f + 1) t =
        some (.Operation '*' (.Number 1) (.Number t.GetNumber), t.Consume.Consume)) ∧
    (t.in_ = ⟨spaces k ++ '-' :: (spaces k2 ++ F0), false, false⟩ →
      ParseUnit (f + 1) t =
        some (.Operation '*' (.Number (-1)) (.Number t.GetNumber),
          t.Consume.Consume.Consume)) ∧
    (t.in_ = ⟨spaces k ++ '-' :: (spaces k2 ++ '-' :: F0), false, false⟩ →
      ParseUnit (f + 1) t =
        some (.Operation '*' (.Number (-1)) (.Number t.GetNumber),
          t.Consume.Consume.Consume)) ∧
    ((decimalValue ds : Int) + decimalValue ds ≤ INT64_MAX →
      ParseAndEvaluate (f + 10) (String.mk (ds ++ ['+'])) number0 symbol0 =
        some (some ((decimalValue ds : Int) + decimalValue ds))) ∧
    ParseAndEvaluate (f + 10) "2+" number0 symbol0 = some (some 4) ∧
    ParseAndEvaluate (f + 10) "2++3" number0 symbol0 = some (some 7) := by
  have hF0' : F0 = [] ∨ ∃ c r, F0 = c :: r ∧ c ∈ ['+', '-', '*', '/', ')'] := by
    rcases hF0 with h | ⟨c, r, h, hc⟩
    · exact Or.inl h
    · refine Or.inr ⟨c, r, h, ?_⟩
      simp only [List.mem_cons, List.mem_singleton, List.not_mem_nil, or_false] at hc ⊢
      tauto
  refine ⟨fun hin => ParseUnit_reuse f t k F0 hin hF0,
    fun hin => ParseUnit_reuse_neg f t k k2 F0 hin hF0',
    fun hin => ParseUnit_reuse_neg f t k k2 ('-' :: F0) hin
      (Or.inr ⟨'-', F0, rfl, by decide⟩),
    fun hfit => missing_operand_eval (f + 6) ds hn hfit number0 symbol0,
    ParseAndEvaluate_fuel_mono 10 (f + 10) (by omega) _ _ _ _
      (eval_missing_operand number0 symbol0),
    ParseAndEvaluate_fuel_mono 10 (f + 10) (by omega) _ _ _ _
      (eval_doubled_operator number0 symbol0)⟩

/-- C19, amended, at the tokenizer that holds 5 and stands before `*3`, and at the input
`21+`. -/
theorem C19_missing_operand_witness :
    ParseUnit 1 (Tokenizer.mk ⟨['*', '3'], false, false⟩ .kSymbol 5 '+') =
      some (.Operation '*' (.Number 1)
        (.Number (Tokenizer.mk ⟨['*', '3'], false, false⟩ .kSymbol 5 '+').GetNumber),
        (Tokenizer.mk ⟨['*', '3'], false, false⟩ .kSymbol 5 '+').Consume.Consume) ∧
    ParseAndEvaluate 10 "21+" 0 ' ' = some (some 42) :=
  ⟨(C19_missing_operand 0 (Tokenizer.mk ⟨['*', '3'], false, false⟩ .kSymbol 5 '+') 0 0
      ['*', '3'] (Or.inr ⟨'*', ['3'], rfl, by decide⟩) ['2', '1'] (by decide) 0 ' ').1 rfl,
    (C19_missing_operand 0 (Tokenizer.mk ⟨['*', '3'], false, false⟩ .kSymbol 5 '+') 0 0
      ['*', '3'] (Or.inr ⟨'*', ['3'], rfl, by decide⟩) ['2', '1'] (by decide) 0 ' ').2.2.2.1
      (by decide)⟩

/-! ## Progress of `Consume` -/

theorem runsFit_suffix (p s : List Char) (h : runsFit (p ++ s) = true) : runsFit s = true := by
  induction p with
  | nil => exact h
  | cons c p ih =>
    simp only [List.cons_append, runsFit, Bool.and_eq_true] at h
    exact ih h.2

theorem runsFit_head (l : List Char) (h : runsFit l = true) :
    (decimalValue (l.takeWhile isDigit) : Int) ≤ INT64_MAX := by
  cases l with
  | nil => decide
  | cons c r =>
    simp only [runsFit, Bool.and_eq_true, decide_eq_true_eq] at h
    exact h.1

theorem length_spaces_append (k : Nat) (l : List Char) :
    (spaces k ++ l).length = k + l.length := by
  simp [spaces]

/-- Every `Consume` on a stream in order leaves the stream in order, and either extracts at
least one character or sets the token kind to `End`. -/
theorem Consume_progress (t : Tokenizer) (hok : StreamOk t.in_) : Progress t t.Consume := by
  obtain ⟨hflag, hfit⟩ := hok
  unfold Progress
  cases heof : t.in_.eofbit with
  | true =>
    rw [Consume_eof t heof]
    exact ⟨⟨fun _ => rfl, hfit⟩, le_refl _, Or.inl rfl⟩
  | false =>
    have hfail : t.in_.failbit = false := by
      cases hf : t.in_.failbit with
      | false => rfl
      | true => rw [hflag hf] at heof; cases heof
    obtain ⟨k, l', hl, hl'⟩ := spaces_split t.in_.rest
    have hin : t.in_ = ⟨spaces k ++ l', false, false⟩ := by
      cases h : t.in_ with
      | mk rest eofbit failbit =>
        rw [h] at heof hfail hl; simp only at heof hfail hl
        simp [heof, hfail, hl]
    have hfit' : runsFit l' = true := runsFit_suffix (spaces k) l' (by rw [← hl]; exact hfit)
    rw [hl]
    cases l' with
    | nil =>
      rw [Consume_end t k false (by simpa using hin) (by intro h; cases h)]
      exact ⟨⟨fun _ => rfl, rfl⟩, Nat.zero_le _, Or.inl rfl⟩
    | cons c r =>
      have hsp : c ≠ ' ' := hl' c r rfl
      have hfitr : runsFit r = true := runsFit_suffix [c] r hfit'
      have hlen : r.length < (spaces k ++ c :: r).length := by
        rw [length_spaces_append]; simp; omega
      by_cases hsym : c ∈ ['+', '-', '*', '/', '(']
      · rw [Consume_symbol t k c r hin hsym]
        exact ⟨⟨(fun h => by cases h), hfitr⟩, le_of_lt hlen, Or.inr hlen⟩
      · by_cases hdig : isDigit c = true
        · have hsplit : (c :: r).takeWhile isDigit ++ (c :: r).dropWhile isDigit = c :: r :=
            List.takeWhile_append_dropWhile _ _
          have hne : (c :: r).takeWhile isDigit ≠ [] := by
            rw [List.takeWhile_cons, if_pos hdig]; simp
          have hr : ∀ d r', (c :: r).dropWhile isDigit = d :: r' → isDigit d = false := by
            intro d r' h
            have := List.head_dropWhile_not isDigit (c :: r) (by rw [h]; simp)
            simpa [h] using this
          have hnum := Consume_number t k ((c :: r).takeWhile isDigit)
            ((c :: r).dropWhile isDigit) (by rw [hsplit]; exact hin) hne
            (fun d hd => List.mem_takeWhile_imp hd) hr (runsFit_head _ hfit')
          have hlen' : ((c :: r).dropWhile isDigit).length < (spaces k ++ c :: r).length := by
            rw [length_spaces_append]
            have h1 : ((c :: r).dropWhile isDigit).length ≤ r.length := by
              rw [List.dropWhile_cons, if_pos hdig]
              exact (List.dropWhile_suffix isDigit).length_le
            simp only [List.length_cons]; omega
          rw [hnum]
          refine ⟨⟨(fun h => by cases h), ?_⟩, le_of_lt hlen', Or.inr hlen'⟩
          exact runsFit_suffix ((c :: r).takeWhile isDigit) _ (by rw [hsplit]; exact hfit')
        · have hdig' : isDigit c = false := by simpa using hdig
          by_cases hclose : c = ')'
          · subst hclose
            rw [Consume_close t k r hin]
            exact ⟨⟨(fun h => by cases h), hfitr⟩, le_of_lt hlen, Or.inl rfl⟩
          · rw [Consume_other t k c r hin hsym hdig' hclose hsp]
            exact ⟨⟨(fun h => by cases h), hfitr⟩, le_of_lt hlen, Or.inr hlen⟩

/-! ## Termination on every input -/

theorem Progress.chain {a b c : Tokenizer} (h : Progress a b) (h' : c = b ∨ Progress b c) :
    Progress a c := by
  rcases h' with rfl | h'
  · exact h
  · obtain ⟨_, h2, h3⟩ := h
    obtain ⟨g1, g2, g3⟩ := h'
    refine ⟨g1, le_trans g2 h2, ?_⟩
    rcases g3 with g3 | g3
    · exact Or.inl g3
    · exact Or.inr (lt_of_lt_of_le g3 h2)

theorem Progress.consume {a b : Tokenizer} (h : Progress a b) : Progress a b.Consume :=
  h.chain (Or.inr (Consume_progress b h.1))

theorem Progress.lt_of_symbol {a b : Tokenizer} (h : Progress a b)
    (hb : b.GetType = .kSymbol) : b.in_.rest.length < a.in_.rest.length := by
  rcases h.2.2 with h1 | h1
  · rw [hb] at h1; cases h1
  · exact h1

theorem ParseTermLoop_end (f : Nat) (lhs : Expression) (tok : Tokenizer)
    (h : tok.GetType = .kEnd) :
    ParseTermLoop (f + 1) lhs tok = some (.Operation ' ' lhs .nullptr, tok) := by
  rw [ParseTermLoop, if_neg (by simp [h])]

theorem ParseExpressionLoop_end (f : Nat) (lhs : Expression) (tok : Tokenizer)
    (h : tok.GetType = .kEnd) :
    ParseExpressionLoop (f + 1) lhs tok = some (.Operation ' ' lhs .nullptr, tok) := by
  rw [ParseExpressionLoop, if_neg (by simp [h])]

/-- The function `ParseUnit` returns, given that `ParseExpression` returns on every shorter
stream. -/
theorem ParseUnit_terminates (n : Nat) (ih : ∀ m, m < n → Terminates m) (tok : Tokenizer)
    (hok : StreamOk tok.in_) (hlen : tok.in_.rest.length ≤ n) (fuel : Nat)
    (hfuel : 3 * n + 1 ≤ fuel) : ∃ r, ParseUnit fuel tok = some r ∧ Progress tok r.2 := by
  obtain ⟨f, rfl⟩ : ∃ f, fuel = f + 1 := ⟨fuel - 1, by omega⟩
  have h1 : Progress tok tok.Consume := Consume_progress tok hok
  have h2 : Progress tok (if tok.Consume.GetType = .kSymbol ∧ tok.Consume.GetSymbol = '-'
      then tok.Consume.Consume else tok.Consume) := by
    split
    · exact h1.consume
    · exact h1
  simp only [ParseUnit]
  generalize (if tok.Consume.GetType = .kSymbol ∧ tok.Consume.GetSymbol = '-'
    then (-1 : Int) else 1) = sign
  generalize (if tok.Consume.GetType = .kSymbol ∧ tok.Consume.GetSymbol = '-'
    then tok.Consume.Consume else tok.Consume) = tok2 at h2 ⊢
  by_cases hparen : tok2.GetType = .kSymbol ∧ tok2.GetSymbol = '('
  · rw [if_pos hparen]
    have hlt := h2.lt_of_symbol hparen.1
    obtain ⟨r, hr, hp⟩ := (ih tok2.in_.rest.length (by omega) tok2 h2.1 (le_refl _)).2.2.2.2 f
      (by omega)
    rw [hr]
    exact ⟨_, rfl, (h2.chain (Or.inr hp)).consume⟩
  · rw [if_neg hparen]
    exact ⟨_, rfl, h2.consume⟩

/-- A loop started on the tokenizer that `ParseUnit` or `ParseTerm` left returns: at once when
the token is `End`, and otherwise because the stream got shorter. -/
theorem loop_after (n : Nat) (ih : ∀ m, m < n → Terminates m) (tok tok1 : Tokenizer)
    (hlen : tok.in_.rest.length ≤ n) (hp : Progress tok tok1) (f : Nat) (hf : 3 * n ≤ f) :
    (∀ lhs, ∃ r, ParseTermLoop (f + 1) lhs tok1 = some r ∧ (r.2 = tok1 ∨ Progress tok1 r.2)) ∧
    (∀ lhs, ∃ r, ParseExpressionLoop (f + 1) lhs tok1 = some r ∧
      (r.2 = tok1 ∨ Progress tok1 r.2)) := by
  rcases hp.2.2 with hend | hlt
  · exact ⟨fun lhs => ⟨_, ParseTermLoop_end f lhs tok1 hend, Or.inl rfl⟩,
      fun lhs => ⟨_, ParseExpressionLoop_end f lhs tok1 hend, Or.inl rfl⟩⟩
  · have hT := ih tok1.in_.rest.length (by omega) tok1 hp.1 (le_refl _)
    exact ⟨fun lhs => hT.2.1 lhs (f + 1) (by omega), fun lhs => hT.2.2.2.1 lhs (f + 1) (by omega)⟩

/-- The five parsing functions return on every stream in order. -/
theorem Terminates_all (n : Nat) : Terminates n := by
  induction n using Nat.strong_induction_on with
  | _ n ih =>
    intro tok hok hlen
    have hU := ParseUnit_terminates n ih tok hok hlen
    have hTL : ∀ lhs fuel, 3 * n + 2 ≤ fuel →
        ∃ r, ParseTermLoop fuel lhs tok = some r ∧ (r.2 = tok ∨ Progress tok r.2) := by
      intro lhs fuel hfuel
      obtain ⟨f, rfl⟩ : ∃ f, fuel = f + 1 := ⟨fuel - 1, by omega⟩
      rw [ParseTermLoop]
      split
      · obtain ⟨⟨rhs, tok1⟩, hr, hp⟩ := hU f (by omega)
        obtain ⟨g, rfl⟩ : ∃ g, f = g + 1 := ⟨f - 1, by omega⟩
        obtain ⟨r2, hr2, hp2⟩ := (loop_after n ih tok tok1 hlen hp g (by omega)).1
          (.Operation tok.GetSymbol lhs rhs)
        rw [hr]
        exact ⟨r2, hr2, Or.inr (hp.chain hp2)⟩
      · exact ⟨_, rfl, Or.inl rfl⟩
    have hT : ∀ fuel, 3 * n + 2 ≤ fuel →
        ∃ r, ParseTerm fuel tok = some r ∧ Progress tok r.2 := by
      intro fuel hfuel
      obtain ⟨f, rfl⟩ : ∃ f, fuel = f + 1 := ⟨fuel - 1, by omega⟩
      obtain ⟨⟨unit, tok1⟩, hr, hp⟩ := hU f (by omega)
      obtain ⟨g, rfl⟩ : ∃ g, f = g + 1 := ⟨f - 1, by omega⟩
      obtain ⟨r2, hr2, hp2⟩ := (loop_after n ih tok tok1 hlen hp g (by omega)).1 unit
      rw [ParseTerm, hr]
      exact ⟨r2, hr2, hp.chain hp2⟩
    have hEL : ∀ lhs fuel, 3 * n + 3 ≤ fuel →
        ∃ r, ParseExpressionLoop fuel lhs tok = some r ∧ (r.2 = tok ∨ Progress tok r.2) := by
      intro lhs fuel hfuel
      obtain ⟨f, rfl⟩ : ∃ f, fuel = f + 1 := ⟨fuel - 1, by omega⟩
      rw [ParseExpressionLoop]
      split
      · obtain ⟨⟨rhs, tok1⟩, hr, hp⟩ := hT f (by omega)
        obtain ⟨g, rfl⟩ : ∃ g, f = g + 1 := ⟨f - 1, by omega⟩
        obtain ⟨r2, hr2, hp2⟩ := (loop_after n ih tok tok1 hlen hp g (by omega)).2
          (.Operation tok.GetSymbol lhs rhs)
        rw [hr]
        exact ⟨r2, hr2, Or.inr (hp.chain hp2)⟩
      · exact ⟨_, rfl, Or.inl rfl⟩
    have hE : ∀ fuel, 3 * n + 3 ≤ fuel →
        ∃ r, ParseExpression fuel tok = some r ∧ Progress tok r.2 := by
      intro fuel hfuel
      obtain ⟨f, rfl⟩ : ∃ f, fuel = f + 1 := ⟨fuel - 1, by omega⟩
      obtain ⟨⟨term, tok1⟩, hr, hp⟩ := hT f (by omega)
      obtain ⟨g, rfl⟩ : ∃ g, f = g + 1 := ⟨f - 1, by omega⟩
      obtain ⟨r2, hr2, hp2⟩ := (loop_after n ih tok tok1 hlen hp g (by omega)).2 term
      rw [ParseExpression, hr]
      exact ⟨r2, hr2, hp.chain hp2⟩
    exact ⟨hU, hTL, hT, hEL, hE⟩

theorem StreamOk_new (input : List Char) (h : runsFit input = true) (number0 : Int)
    (symbol0 : Char) : StreamOk (Tokenizer.new input number0 symbol0).in_ :=
  ⟨(fun hf => by cases hf), h⟩

/-- C16: termination on every input. For every input whose digit runs fit in `int64_t`,
well-formed or not, `ParseExpression` returns a tree as soon as the fuel, which bounds the
depth of the nested calls, is three times the length of the input plus three, whatever the
first contents of `number_` and `symbol_`; hence the run of parser and evaluator ends. The
reason is that every `Consume` on a stream in order either extracts at least one character or
sets the token kind to `End`, and that both loops return at once on `End`. -/
theorem C16_termination (input : List Char) (hfit : runsFit input = true) (number0 : Int)
    (symbol0 : Char) (fuel : Nat) (hfuel : 3 * input.length + 3 ≤ fuel) :
    (∃ tree tok',
      ParseExpression fuel (Tokenizer.new input number0 symbol0) = some (tree, tok')) ∧
    (∃ x, ParseAndEvaluate fuel (String.mk input) number0 symbol0 = some x) ∧
    (∀ t : Tokenizer, StreamOk t.in_ →
      StreamOk t.Consume.in_ ∧
      (t.Consume.in_.rest.length < t.in_.rest.length ∨
        (t.Consume.GetType = .kEnd ∧ t.Consume.in_.rest.length ≤ t.in_.rest.length))) ∧
    (∀ (f : Nat) (lhs : Expression) (tok : Tokenizer), tok.GetType = .kEnd →
      ParseTermLoop (f + 1) lhs tok = some (.Operation ' ' lhs .nullptr, tok) ∧
      ParseExpressionLoop (f + 1) lhs tok = some (.Operation ' ' lhs .nullptr, tok)) := by
  obtain ⟨⟨tree, tok'⟩, hr, -⟩ :=
    (Terminates_all input.length (Tokenizer.new input number0 symbol0)
      (StreamOk_new input hfit number0 symbol0) (le_refl _)).2.2.2.2 fuel hfuel
  refine ⟨⟨tree, tok', hr⟩, ⟨Evaluate tree, ?_⟩, ?_, ?_⟩
  · have hs : (String.mk input).toList = input := rfl
    rw [ParseAndEvaluate, hs, hr]; rfl
  · intro t hok
    obtain ⟨h1, h2, h3⟩ := Consume_progress t hok
    refine ⟨h1, ?_⟩
    rcases h3 with h3 | h3
    · exact Or.inr ⟨h3, h2⟩
    · exact Or.inl h3
  · intro f lhs tok h
    exact ⟨ParseTermLoop_end f lhs tok h, ParseExpressionLoop_end f lhs tok h⟩

/-- C16 at the malformed input `((2+a)7`, of 7 characters, with fuel 24. -/
theorem C16_termination_witness :
    runsFit ['(', '(', '2', '+', 'a', ')', '7'] = true ∧
    ∃ tree tok', ParseExpression 24
      (Tokenizer.new ['(', '(', '2', '+', 'a', ')', '7'] 0 ' ') = some (tree, tok') :=
  ⟨by decide,
    (C16_termination ['(', '(', '2', '+', 'a', ')', '7'] (by decide) 0 ' ' 24 (by decide)).1⟩

/-! ## Deleting trailing closing parentheses -/

theorem closers_noDigitHead (a : Nat) : NoDigitHead (closers a) := by
  intro c r h
  cases a with
  | zero => simp [closers] at h
  | succ a => simp [closers, List.replicate_succ] at h; rw [← h.1]; decide

/-- From a stream that holds closing parentheses only, `Consume` yields `End` and keeps the
number, and the stream still holds closing parentheses only. -/
theorem Consume_endRegion (t : Tokenizer) (h : EndRegion t.in_) :
    t.Consume.type_ = .kEnd ∧ t.Consume.symbol_ = ')' ∧ t.Consume.number_ = t.number_ ∧
    EndRegion t.Consume.in_ := by
  obtain ⟨hflag, a, ha⟩ := h
  cases heof : t.in_.eofbit with
  | true =>
    rw [Consume_eof t heof]
    exact ⟨rfl, rfl, rfl, Or.inl rfl, a, ha⟩
  | false =>
    have hfail : t.in_.failbit = false := by
      rcases hflag with h | h
      · rw [h] at heof; cases heof
      · exact h
    have hin : t.in_ = ⟨closers a, false, false⟩ := by
      cases h : t.in_ with
      | mk rest eofbit failbit =>
        rw [h] at heof hfail ha; simp only at heof hfail ha
        simp [heof, hfail, ha]
    cases a with
    | zero =>
      rw [Consume_end t 0 false (by simpa [closers, spaces] using hin) (by intro h; cases h)]
      exact ⟨rfl, rfl, rfl, Or.inl rfl, 0, rfl⟩
    | succ a =>
      rw [Consume_close t 0 (closers a)
        (by simpa [closers, spaces, List.replicate_succ] using hin)]
      exact ⟨rfl, rfl, rfl, Or.inr rfl, a, rfl⟩

/-- After some spaces and closing parentheses only, `Consume` yields `End`. -/
theorem Consume_spaces_closers (t : Tokenizer) (k a : Nat)
    (hin : t.in_ = ⟨spaces k ++ closers a, false, false⟩) :
    t.Consume.type_ = .kEnd ∧ t.Consume.symbol_ = ')' ∧ t.Consume.number_ = t.number_ ∧
    EndRegion t.Consume.in_ := by
  cases a with
  | zero =>
    rw [Consume_end t k false (by simpa [closers] using hin) (by intro h; cases h)]
    exact ⟨rfl, rfl, rfl, Or.inl rfl, 0, rfl⟩
  | succ a =>
    rw [Consume_close t k (closers a) (by simpa [closers, List.replicate_succ] using hin)]
    exact ⟨rfl, rfl, rfl, Or.inr rfl, a, rfl⟩

/-- After a text that ends, `Consume` on the two streams gives corresponding tokenizers. -/
theorem Sim_mid_or_end (t t' : Tokenizer) (X : List Char) (a j : Nat) (b b' : Bool)
    (hX : runsFit X = true) (hb : b = true → X ++ closers a = [])
    (hb' : b' = true → X ++ closers j = [])
    (hin : t.in_ = ⟨X ++ closers a, b, false⟩) (hin' : t'.in_ = ⟨X ++ closers j, b', false⟩) :
    (∃ X a j, runsFit X = true ∧ t.in_ = ⟨X ++ closers a, false, false⟩ ∧
        t'.in_ = ⟨X ++ closers j, false, false⟩) ∨
      (EndRegion t.in_ ∧ EndRegion t'.in_) := by
  cases X with
  | nil =>
    right
    exact ⟨by rw [hin]; exact ⟨Or.inr rfl, a, rfl⟩, by rw [hin']; exact ⟨Or.inr rfl, j, rfl⟩⟩
  | cons c r =>
    left
    have h1 : b = false := by
      cases b with
      | false => rfl
      | true => exact absurd (hb rfl) (by simp)
    have h2 : b' = false := by
      cases b' with
      | false => rfl
      | true => exact absurd (hb' rfl) (by simp)
    subst h1 h2
    exact ⟨c :: r, a, j, hX, hin, hin'⟩

/-- The function `Consume` keeps two corresponding tokenizers in correspondence. -/
theorem Sim_Consume (t t' : Tokenizer) (h : Sim t t') : Sim t.Consume t'.Consume := by
  obtain ⟨hty, hnum, hsym, hstream⟩ := h
  rcases hstream with ⟨X, a, j, hX, hin, hin'⟩ | ⟨he, he'⟩
  · obtain ⟨k, X', hsplit, hX'⟩ := spaces_split X
    subst hsplit
    have hfit' : runsFit X' = true := runsFit_suffix (spaces k) X' hX
    cases X' with
    | nil =>
      simp only [List.append_nil] at hin hin'
      obtain ⟨g1, g2, g3, g4⟩ := Consume_spaces_closers t k a hin
      obtain ⟨g1', g2', g3', g4'⟩ := Consume_spaces_closers t' k j hin'
      exact ⟨by rw [g1, g1'], by rw [g3, g3', hnum], by rw [g2, g2'], Or.inr ⟨g4, g4'⟩⟩
    | cons c r =>
      have hsp : c ≠ ' ' := hX' c r rfl
      have hfitr : runsFit r = true := runsFit_suffix [c] r hfit'
      simp only [List.append_assoc, List.cons_append] at hin hin'
      by_cases hsy : c ∈ ['+', '-', '*', '/', '(']
      · rw [Consume_symbol t k c _ hin hsy, Consume_symbol t' k c _ hin' hsy]
        exact ⟨rfl, hnum, rfl, Or.inl ⟨r, a, j, hfitr, rfl, rfl⟩⟩
      · by_cases hdig : isDigit c = true
        · have hsplit : (c :: r).takeWhile isDigit ++ (c :: r).dropWhile isDigit = c :: r :=
            List.takeWhile_append_dropWhile _ _
          have hne : (c :: r).takeWhile isDigit ≠ [] := by
            rw [List.takeWhile_cons, if_pos hdig]; simp
          have hr : ∀ (n : Nat) (d : Char) (r' : List Char),
              (c :: r).dropWhile isDigit ++ closers n = d :: r' → isDigit d = false := by
            intro n d r' h
            cases hd : (c :: r).dropWhile isDigit with
            | nil => rw [hd] at h; exact closers_noDigitHead n d r' (by simpa using h)
            | cons d' r'' =>
              have := List.head_dropWhile_not isDigit (c :: r) (by rw [hd]; simp)
              rw [hd] at h
              simp only [List.cons_append, List.cons.injEq] at h
              rw [← h.1]
              simpa [hd] using this
          have hrest : ∀ n : Nat, spaces k ++ c :: (r ++ closers n) =
              spaces k ++ ((c :: r).takeWhile isDigit ++
                ((c :: r).dropWhile isDigit ++ closers n)) := by
            intro n
            rw [← List.append_assoc ((c :: r).takeWhile isDigit), hsplit]; rfl
          have hnumber := Consume_number t k ((c :: r).takeWhile isDigit)
            ((c :: r).dropWhile isDigit ++ closers a) (by rw [← hrest]; exact hin) hne
            (fun d hd => List.mem_takeWhile_imp hd) (hr a) (runsFit_head _ hfit')
          have hnumber' := Consume_number t' k ((c :: r).takeWhile isDigit)
            ((c :: r).dropWhile isDigit ++ closers j) (by rw [← hrest]; exact hin') hne
            (fun d hd => List.mem_takeWhile_imp hd) (hr j) (runsFit_head _ hfit')
          have hfitd : runsFit ((c :: r).dropWhile isDigit) = true :=
            runsFit_suffix ((c :: r).takeWhile isDigit) _ (by rw [hsplit]; exact hfit')
          refine ⟨by rw [hnumber, hnumber'], by rw [hnumber, hnumber'],
            by rw [hnumber, hnumber']; exact hsym, ?_⟩
          exact Sim_mid_or_end t.Consume t'.Consume ((c :: r).dropWhile isDigit) a j
            ((c :: r).dropWhile isDigit ++ closers a).isEmpty
            ((c :: r).dropWhile isDigit ++ closers j).isEmpty hfitd
            (fun h => List.isEmpty_iff.mp h) (fun h => List.isEmpty_iff.mp h)
            (by rw [hnumber]) (by rw [hnumber'])
        · have hdig' : isDigit c = false := by simpa using hdig
          by_cases hclose : c = ')'
          · subst hclose
            rw [Consume_close t k _ hin, Consume_close t' k _ hin']
            exact ⟨rfl, hnum, rfl, Or.inl ⟨r, a, j, hfitr, rfl, rfl⟩⟩
          · rw [Consume_other t k c _ hin hsy hdig' hclose hsp,
              Consume_other t' k c _ hin' hsy hdig' hclose hsp]
            exact ⟨hty, hnum, hsym, Or.inl ⟨r, a, j, hfitr, rfl, rfl⟩⟩
  · obtain ⟨g1, g2, g3, g4⟩ := Consume_endRegion t he
    obtain ⟨g1', g2', g3', g4'⟩ := Consume_endRegion t' he'
    exact ⟨by rw [g1, g1'], by rw [g3, g3', hnum], by rw [g2, g2'], Or.inr ⟨g4, g4'⟩⟩

theorem SimResult_of_eq {r r' : Option (Expression × Tokenizer)} {e : Expression}
    {u u' : Tokenizer} (hr : r = some (e, u)) (hr' : r' = some (e, u')) (h : Sim u u') :
    SimResult r r' := by
  rw [hr, hr']; exact ⟨rfl, h⟩

theorem Sim.cond_iff {t t' : Tokenizer} (h : Sim t t') (c : Char) :
    (t.GetType = .kSymbol ∧ t.GetSymbol = c) ↔ (t'.GetType = .kSymbol ∧ t'.GetSymbol = c) := by
  simp only [Tokenizer.GetType, Tokenizer.GetSymbol, h.1, h.2.2.1]

/-- The part of `ParseUnit` after the optional sign, on two corresponding tokenizers. -/
theorem ParseUnit_sim_tail (f : Nat)
    (ihE : ∀ t t', Sim t t' → SimResult (ParseExpression f t) (ParseExpression f t'))
    (sign : Int) (tok2 tok2' : Tokenizer) (h : Sim tok2 tok2') :
    SimResult
      (if tok2.GetType = .kSymbol ∧ tok2.GetSymbol = '(' then
        match ParseExpression f tok2 with
        | none => none
        | some (e, tok3) => some (.Operation '*' (.Number sign) e, tok3.Consume)
      else some (.Operation '*' (.Number sign) (.Number tok2.GetNumber), tok2.Consume))
      (if tok2'.GetType = .kSymbol ∧ tok2'.GetSymbol = '(' then
        match ParseExpression f tok2' with
        | none => none
        | some (e, tok3) => some (.Operation '*' (.Number sign) e, tok3.Consume)
      else some (.Operation '*' (.Number sign) (.Number tok2'.GetNumber), tok2'.Consume)) := by
  by_cases hparen : tok2.GetType = .kSymbol ∧ tok2.GetSymbol = '('
  · rw [if_pos hparen, if_pos ((h.cond_iff '(').mp hparen)]
    have := ihE tok2 tok2' h
    cases hr : ParseExpression f tok2 with
    | none =>
      cases hr' : ParseExpression f tok2' with
      | none => trivial
      | some p => rw [hr, hr'] at this; exact this.elim
    | some p =>
      cases hr' : ParseExpression f tok2' with
      | none => rw [hr, hr'] at this; exact this.elim
      | some p' =>
        rw [hr, hr'] at this
        obtain ⟨e, u⟩ := p
        obtain ⟨e', u'⟩ := p'
        obtain ⟨he, hu⟩ := this
        subst he
        exact ⟨rfl, Sim_Consume u u' hu⟩
  · rw [if_neg hparen, if_neg (fun hp => hparen ((h.cond_iff '(').mpr hp))]
    refine ⟨?_, Sim_Consume _ _ h⟩
    simp only [Tokenizer.GetNumber, h.2.1]

/-- A loop step on two corresponding tokenizers: the sub-call agrees, then the loop does. -/
theorem loop_sim_step (sub loop sub' loop' : Option (Expression × Tokenizer))
    (k k' : Expression × Tokenizer → Option (Expression × Tokenizer))
    (hsub : SimResult sub sub')
    (hk : ∀ e u u', Sim u u' → SimResult (k (e, u)) (k' (e, u')))
    (hloop : loop = sub.bind k) (hloop' : loop' = sub'.bind k') :
    SimResult loop loop' := by
  subst hloop hloop'
  cases sub with
  | none =>
    cases sub' with
    | none => trivial
    | some p => exact hsub.elim
  | some p =>
    cases sub' with
    | none => exact hsub.elim
    | some p' =>
      obtain ⟨e, u⟩ := p
      obtain ⟨e', u'⟩ := p'
      obtain ⟨he, hu⟩ := hsub
      subst he
      exact hk e u u' hu

/-- The parsing functions return the same tree on two corresponding tokenizers. -/
theorem Parse_sim (fuel : Nat) :
    (∀ t t', Sim t t' → SimResult (ParseUnit fuel t) (ParseUnit fuel t')) ∧
    (∀ lhs t t', Sim t t' →
      SimResult (ParseTermLoop fuel lhs t) (ParseTermLoop fuel lhs t')) ∧
    (∀ t t', Sim t t' → SimResult (ParseTerm fuel t) (ParseTerm fuel t')) ∧
    (∀ lhs t t', Sim t t' →
      SimResult (ParseExpressionLoop fuel lhs t) (ParseExpressionLoop fuel lhs t')) ∧
    (∀ t t', Sim t t' → SimResult (ParseExpression fuel t) (ParseExpression fuel t')) := by
  induction fuel with
  | zero =>
    simp [ParseUnit, ParseTermLoop, ParseTerm, ParseExpressionLoop, ParseExpression, SimResult]
  | succ f ih =>
    obtain ⟨ihU, ihTL, ihT, ihEL, ihE⟩ := ih
    refine ⟨?_, ?_, ?_, ?_, ?_⟩
    · intro t t' h
      have h1 := Sim_Consume t t' h
      simp only [ParseUnit]
      by_cases hneg : t.Consume.GetType = .kSymbol ∧ t.Consume.GetSymbol = '-'
      · simp only [if_pos hneg, if_pos ((h1.cond_iff '-').mp hneg)]
        exact ParseUnit_sim_tail f ihE (-1) _ _ (Sim_Consume _ _ h1)
      · simp only [if_neg hneg, if_neg (fun hp => hneg ((h1.cond_iff '-').mpr hp))]
        exact ParseUnit_sim_tail f ihE 1 _ _ h1
    · intro lhs t t' h
      have hc : (t.GetType ≠ .kEnd ∧ t.GetSymbol ≠ '+' ∧ t.GetSymbol ≠ '-') ↔
          (t'.GetType ≠ .kEnd ∧ t'.GetSymbol ≠ '+' ∧ t'.GetSymbol ≠ '-') := by
        simp only [Tokenizer.GetType, Tokenizer.GetSymbol, h.1, h.2.2.1]
      rw [ParseTermLoop, ParseTermLoop]
      by_cases hcond : t.GetType ≠ .kEnd ∧ t.GetSymbol ≠ '+' ∧ t.GetSymbol ≠ '-'
      · rw [if_pos hcond, if_pos (hc.mp hcond)]
        have hs : t'.GetSymbol = t.GetSymbol := by
          simp only [Tokenizer.GetSymbol, h.2.2.1]
        rw [hs]
        exact loop_sim_step (ParseUnit f t) _ (ParseUnit f t') _
          (fun p => ParseTermLoop f (.Operation t.GetSymbol lhs p.1) p.2)
          (fun p => ParseTermLoop f (.Operation t.GetSymbol lhs p.1) p.2)
          (ihU t t' h) (fun e u u' hu => ihTL _ u u' hu)
          (by cases ParseUnit f t <;> rfl) (by cases ParseUnit f t' <;> rfl)
      · rw [if_neg hcond, if_neg (fun hp => hcond (hc.mpr hp))]
        exact ⟨rfl, h⟩
    · intro t t' h
      rw [ParseTerm, ParseTerm]
      exact loop_sim_step (ParseUnit f t) _ (ParseUnit f t') _
        (fun p => ParseTermLoop f p.1 p.2) (fun p => ParseTermLoop f p.1 p.2)
        (ihU t t' h) (fun e u u' hu => ihTL _ u u' hu)
        (by cases ParseUnit f t <;> rfl) (by cases ParseUnit f t' <;> rfl)
    · intro lhs t t' h
      have hc : (t.GetType ≠ .kEnd) ↔ (t'.GetType ≠ .kEnd) := by
        simp only [Tokenizer.GetType, h.1]
      rw [ParseExpressionLoop, ParseExpressionLoop]
      by_cases hcond : t.GetType ≠ .kEnd
      · rw [if_pos hcond, if_pos (hc.mp hcond)]
        have hs : t'.GetSymbol = t.GetSymbol := by
          simp only [Tokenizer.GetSymbol, h.2.2.1]
        rw [hs]
        exact loop_sim_step (ParseTerm f t) _ (ParseTerm f t') _
          (fun p => ParseExpressionLoop f (.Operation t.GetSymbol lhs p.1) p.2)
          (fun p => ParseExpressionLoop f (.Operation t.GetSymbol lhs p.1) p.2)
          (ihT t t' h) (fun e u u' hu => ihEL _ u u' hu)
          (by cases ParseTerm f t <;> rfl) (by cases ParseTerm f t' <;> rfl)
      · rw [if_neg hcond, if_neg (fun hp => hcond (hc.mpr hp))]
        exact ⟨rfl, h⟩
    · intro t t' h
      rw [ParseExpression, ParseExpression]
      exact loop_sim_step (ParseTerm f t) _ (ParseTerm f t') _
        (fun p => ParseExpressionLoop f p.1 p.2) (fun p => ParseExpressionLoop f p.1 p.2)
        (ihT t t' h) (fun e u u' hu => ihEL _ u u' hu)
        (by cases ParseTerm f t <;> rfl) (by cases ParseTerm f t' <;> rfl)

/-! ## The digit runs of a well-formed text fit -/

theorem foldl_digit_mono (l : List Char) : ∀ a b : Nat, a ≤ b →
    l.foldl (fun acc c => 10 * acc + (c.toNat - 48)) a ≤
      l.foldl (fun acc c => 10 * acc + (c.toNat - 48)) b := by
  induction l with
  | nil => intro a b h; exact h
  | cons c l ih =>
    intro a b h
    simp only [List.foldl_cons]
    exact ih _ _ (by omega)

theorem decimalValue_tail_le (d : Char) (ds : List Char) :
    decimalValue ds ≤ decimalValue (d :: ds) := by
  simp only [decimalValue, List.foldl_cons]
  exact foldl_digit_mono ds _ _ (Nat.zero_le _)

theorem runsFit_cons_nondigit (c : Char) (l : List Char) (hc : isDigit c = false)
    (h : runsFit l = true) : runsFit (c :: l) = true := by
  simp only [runsFit, Bool.and_eq_true, decide_eq_true_eq]
  refine ⟨?_, h⟩
  have htw : (c :: l).takeWhile isDigit = [] := by
    rw [List.takeWhile_cons, hc]
    rfl
  rw [htw]
  decide

theorem runsFit_spaces_append (k : Nat) (l : List Char) (h : runsFit l = true) :
    runsFit (spaces k ++ l) = true := by
  induction k with
  | zero => simpa [spaces] using h
  | succ k ih =>
    simp only [spaces, List.replicate_succ, List.cons_append] at ih ⊢
    exact runsFit_cons_nondigit ' ' _ (by decide) ih

theorem runsFit_digits_append (F : List Char) (hF : NoDigitHead F) (hfit : runsFit F = true) :
    ∀ ds : List Char, (∀ c ∈ ds, isDigit c = true) →
      (decimalValue ds : Int) ≤ INT64_MAX → runsFit (ds ++ F) = true := by
  intro ds
  induction ds with
  | nil => intro _ _; exact hfit
  | cons d ds ih =>
    intro hds hval
    have htw := (takeWhile_run isDigit (d :: ds) F hds hF).1
    simp only [List.cons_append] at htw ⊢
    simp only [runsFit, Bool.and_eq_true, decide_eq_true_eq]
    rw [htw]
    refine ⟨hval, ih (fun c hc => hds c (List.mem_cons_of_mem _ hc)) ?_⟩
    have := decimalValue_tail_le d ds
    omega

theorem runsFit_signText (neg : Bool) (sp1 : Nat) (l : List Char) (h : runsFit l = true) :
    runsFit (signText neg sp1 ++ l) = true := by
  cases neg with
  | false => simpa [signText] using h
  | true =>
    simp only [signText, if_true, List.append_assoc, List.singleton_append]
    exact runsFit_spaces_append sp1 _ (runsFit_cons_nondigit '-' _ (by decide) h)

mutual

theorem unit_runsFit : ∀ (u : GUnit), u.wf = true → ∀ (F : List Char), NoDigitHead F →
    runsFit F = true → runsFit (u.text ++ F) = true
  | .lit neg sp1 sp2 ds, hwf, F, hF, hfit => by
    obtain ⟨_, hds, hval⟩ := literalOk_iff (by simpa [GUnit.wf] using hwf)
    simp only [GUnit.text, List.append_assoc]
    exact runsFit_signText neg sp1 _
      (runsFit_spaces_append sp2 _ (runsFit_digits_append F hF hfit ds hds hval))
  | .paren neg sp1 sp2 e sp3, hwf, F, _, hfit => by
    simp only [GUnit.text, List.append_assoc, List.cons_append, List.singleton_append]
    refine runsFit_signText neg sp1 _
      (runsFit_spaces_append sp2 _ (runsFit_cons_nondigit '(' _ (by decide) ?_))
    exact expr_runsFit e (by simpa [GUnit.wf] using hwf) _ (stopsAt_close sp3 F)
      (runsFit_spaces_append sp3 _ (runsFit_cons_nondigit ')' _ (by decide) hfit))

theorem termTail_runsFit : ∀ (rest : GTermTail), rest.wf = true → ∀ (F : List Char),
    StopsAt ['+', '-', ')'] F → runsFit F = true → runsFit (rest.text ++ F) = true
  | .nil, _, F, _, hfit => by simpa [GTermTail.text] using hfit
  | .cons sp div u rest, hwf, F, hF, hfit => by
    simp only [GTermTail.wf, Bool.and_eq_true] at hwf
    simp only [GTermTail.text, List.append_assoc, List.cons_append]
    refine runsFit_spaces_append sp _
      (runsFit_cons_nondigit _ _ (by cases div <;> decide) ?_)
    exact unit_runsFit u hwf.1 _ (termTail_stops rest hF) (termTail_runsFit rest hwf.2 F hF hfit)

theorem term_runsFit : ∀ (t : GTerm), t.wf = true → ∀ (F : List Char),
    StopsAt ['+', '-', ')'] F → runsFit F = true → runsFit (t.text ++ F) = true
  | .mk u rest, hwf, F, hF, hfit => by
    simp only [GTerm.wf, Bool.and_eq_true] at hwf
    simp only [GTerm.text, List.append_assoc]
    exact unit_runsFit u hwf.1 _ (termTail_stops rest hF) (termTail_runsFit rest hwf.2 F hF hfit)

theorem exprTail_runsFit : ∀ (rest : GExprTail), rest.wf = true → ∀ (F : List Char),
    StopsAt [')'] F → runsFit F = true → runsFit (rest.text ++ F) = true
  | .nil, _, F, _, hfit => by simpa [GExprTail.text] using hfit
  | .cons sp minus t rest, hwf, F, hF, hfit => by
    simp only [GExprTail.wf, Bool.and_eq_true] at hwf
    simp only [GExprTail.text, List.append_assoc, List.cons_append]
    refine runsFit_spaces_append sp _
      (runsFit_cons_nondigit _ _ (by cases minus <;> decide) ?_)
    exact term_runsFit t hwf.1 _ (exprTail_stops rest hF) (exprTail_runsFit rest hwf.2 F hF hfit)

theorem expr_runsFit : ∀ (e : GExpr), e.wf = true → ∀ (F : List Char),
    StopsAt [')'] F → runsFit F = true → runsFit (e.text ++ F) = true
  | .mk t rest, hwf, F, hF, hfit => by
    simp only [GExpr.wf, Bool.and_eq_true] at hwf
    simp only [GExpr.text, List.append_assoc]
    exact term_runsFit t hwf.1 _ (exprTail_stops rest hF) (exprTail_runsFit rest hwf.2 F hF hfit)

end

/-- The digit runs of the text of a well-formed expression fit in `int64_t`. -/
theorem runsFit_text (e : GExpr) (hwf : e.wf = true) : runsFit e.text = true := by
  simpa using expr_runsFit e hwf [] ⟨0, Or.inl rfl⟩ rfl

theorem takeWhile_append_closers (s : List Char) (a : Nat) :
    (s ++ closers a).takeWhile isDigit = s.takeWhile isDigit := by
  induction s with
  | nil =>
    cases a with
    | zero => rfl
    | succ a => simp [closers, List.replicate_succ, List.takeWhile_cons]; decide
  | cons c s ih =>
    simp only [List.cons_append, List.takeWhile_cons, ih]

theorem runsFit_of_append_closers (X : List Char) (a : Nat)
    (h : runsFit (X ++ closers a) = true) : runsFit X = true := by
  induction X with
  | nil => rfl
  | cons c X ih =>
    have htw := takeWhile_append_closers (c :: X) a
    simp only [List.cons_append] at h htw
    simp only [runsFit, Bool.and_eq_true, decide_eq_true_eq] at h ⊢
    rw [htw] at h
    exact ⟨h.1, ih h.2⟩

/-! ## End of stream closes every open parenthesis -/

theorem Sim_new (X : List Char) (hX : runsFit X = true) (a j : Nat) (number0 : Int)
    (symbol0 : Char) :
    Sim (Tokenizer.new (X ++ closers a) number0 symbol0)
      (Tokenizer.new (X ++ closers j) number0 symbol0) :=
  ⟨rfl, rfl, rfl, Or.inl ⟨X, a, j, hX, rfl, rfl⟩⟩

theorem ParseAndEvaluate_sim (X : List Char) (hX : runsFit X = true) (a j fuel : Nat)
    (number0 : Int) (symbol0 : Char) :
    ParseAndEvaluate fuel (String.mk (X ++ closers j)) number0 symbol0 =
      ParseAndEvaluate fuel (String.mk (X ++ closers a)) number0 symbol0 := by
  have h := (Parse_sim fuel).2.2.2.2 _ _ (Sim_new X hX a j number0 symbol0)
  have h1 : (String.mk (X ++ closers j)).toList = X ++ closers j := rfl
  have h2 : (String.mk (X ++ closers a)).toList = X ++ closers a := rfl
  simp only [ParseAndEvaluate, h1, h2]
  cases hr : ParseExpression fuel (Tokenizer.new (X ++ closers a) number0 symbol0) with
  | none =>
    cases hr' : ParseExpression fuel (Tokenizer.new (X ++ closers j) number0 symbol0) with
    | none => rfl
    | some r' => rw [hr, hr'] at h; exact h.elim
  | some r =>
    cases hr' : ParseExpression fuel (Tokenizer.new (X ++ closers j) number0 symbol0) with
    | none => rw [hr, hr'] at h; exact h.elim
    | some r' =>
      rw [hr, hr'] at h
      obtain ⟨e, u⟩ := r
      obtain ⟨e', u'⟩ := r'
      have he : e = e' := h.1
      simp only [Option.map_some', he]

/-- C20: end of stream closes every open parenthesis. Let `e` be a well-formed expression of the
grammar whose text is `body` followed by `m` closing parentheses, and let `j` be any number; for
`j ≤ m` the text `body ++ closers j` is the text of `e` with `m - j` of its trailing `)` deleted.
With fuel at least `e.size`, `ParseAndEvaluate` on `body ++ closers j` gives the same result as on
the text of `e` itself, and this result is `some e.value`, the reference value of `e`. In
particular, with fuel at least 14, both `(2+3` and `(2+3)` evaluate to 5. -/
theorem C20_end_closes_parentheses (e : GExpr) (hwf : e.wf = true) (body : List Char)
    (m j : Nat) (htext : e.text = body ++ closers m) (fuel : Nat) (hfuel : e.size ≤ fuel)
    (number0 : Int) (symbol0 : Char) :
    ParseAndEvaluate fuel (String.mk (body ++ closers j)) number0 symbol0 =
        ParseAndEvaluate fuel (String.mk e.text) number0 symbol0 ∧
      ParseAndEvaluate fuel (String.mk (body ++ closers j)) number0 symbol0 = some e.value ∧
      (14 ≤ fuel →
        ParseAndEvaluate fuel "(2+3" number0 symbol0 = some (some 5) ∧
        ParseAndEvaluate fuel "(2+3)" number0 symbol0 = some (some 5)) := by
  have hX : runsFit body = true :=
    runsFit_of_append_closers body m (htext ▸ runsFit_text e hwf)
  have hsame := ParseAndEvaluate_sim body hX m j fuel number0 symbol0
  have hval := ParseAndEvaluate_of_text e (body ++ closers m) e.value fuel number0 symbol0
    hwf hfuel htext rfl
  refine ⟨by rw [htext]; exact hsame, by rw [hsame]; exact hval, fun h14 => ⟨?_, ?_⟩⟩
  · exact ParseAndEvaluate_fuel_mono 10 fuel (by omega) _ _ _ _
      (eval_unbalanced number0 symbol0)
  · exact ParseAndEvaluate_fuel_mono 14 fuel h14 _ _ _ _
      (ParseAndEvaluate_of_text parenSum ['(', '2', '+', '3', ')'] (some 5) 14 number0 symbol0
        (by decide) (by decide) rfl (by decide))

theorem C20_end_closes_parentheses_witness :
    parenSum.wf = true ∧ parenSum.text = ['(', '2', '+', '3'] ++ closers 1 ∧
      parenSum.size ≤ 14 ∧
      (ParseAndEvaluate 14 (String.mk (['(', '2', '+', '3'] ++ closers 0)) 0 ' ' =
          ParseAndEvaluate 14 (String.mk parenSum.text) 0 ' ' ∧
        ParseAndEvaluate 14 (String.mk (['(', '2', '+', '3'] ++ closers 0)) 0 ' ' =
          some parenSum.value ∧
        (14 ≤ 14 →
          ParseAndEvaluate 14 "(2+3" 0 ' ' = some (some 5) ∧
          ParseAndEvaluate 14 "(2+3)" 0 ' ' = some (some 5))) :=
  ⟨by decide, by decide, by decide,
    C20_end_closes_parentheses parenSum (by decide) ['(', '2', '+', '3'] 1 0 (by decide) 14
      (by decide) 0 ' '⟩

end Calculator
